import Mathlib

/-!
# Sound engine of Ikemen GO (`src/sound.go`): embedding and verified properties

The Go code is embedded shallowly:

* a byte is `UInt8`; an open `*os.File` on a regular file is its content together with
  the current read position (`File`);
* `uint16`/`uint32` values are natural numbers, with `% 2 ^ w` written out wherever
  the Go arithmetic can wrap; `int32` values and the `int64` file offsets are integers
  (`LoadSnd` passes `ReadWave` an offset below `2 ^ 32`, and an offset computed in the
  chunk loop exceeds the length of the file by less than `2 ^ 33`, so the `int64`
  arithmetic on offsets never wraps);
* a function returning `(x, error)` returns `Except Error x`; a `*Wave` that may be
  `nil` is an `Option Wave`;
* `float32`/`float64` quantities of the mixer are exact rationals;
* the type `int` has 64 bits: the products that give a byte index in `Mix` wrap
  (`mulInt`), as do `<<` and `|`; the conversion `int(x)` of a floating-point value is
  the truncated value (`goInt`), which is what Go defines when that value fits `int`,
  and the theorems about sources with any format bound the cursor, the length of the
  buffer and the rate so that it does.
-/

namespace Ikemen

/-! ## Errors -/

/-- The error values the decoders can return: the two end-of-file errors of package
`io`, and one constructor per `Error("...")` message of `sound.go`. -/
inductive Error where
  /-- Value `io.EOF`: nothing could be read. -/
  | EOF
  /-- Value `io.ErrUnexpectedEOF`: the stream ended inside a fixed-size value. -/
  | ErrUnexpectedEOF
  /-- The first four bytes are not the RIFF tag. -/
  | NotRIFF
  /-- The codec id of the format chunk is not 1 (linear PCM). -/
  | NotLinearPCM
  /-- The channel count is not 1 or 2. -/
  | BadChannels
  /-- The sample rate (carried in the message) is outside `[1, 0xfffff)`. -/
  | BadSampleRate (rate : Nat)
  /-- The bit depth is not 8 or 16. -/
  | BadBits
  /-- A data chunk was found but no format chunk. -/
  | NoFmt
  /-- The archive does not start with the twelve signature bytes. -/
  | NotElecbyteSnd
  deriving DecidableEq, Repr

deriving instance DecidableEq for Except

/-! ## Files and little-endian reads -/

/-- An open file: its bytes and the current offset. -/
structure File where
  data : List UInt8
  pos : Nat
  deriving DecidableEq, Repr

/-- Method `f.Read(buf)` for a buffer of `n > 0` bytes: one read of at most `n` bytes
from the current offset. At end of file it fails with `io.EOF`; otherwise it returns
the bytes `buf[:n']` it got (possibly fewer than `n`) and advances the offset. -/
def File.Read (f : File) (n : Nat) : Except Error (List UInt8 × File) :=
  let bs := (f.data.drop f.pos).take n
  if bs = [] then .error Error.EOF
  else .ok (bs, { f with pos := f.pos + bs.length })

/-- Function `io.ReadFull` as used by `binary.Read` for a value of `n` bytes: all `n`
bytes or an error (`io.EOF` when nothing was left, `io.ErrUnexpectedEOF` when fewer
than `n` were left). For `n = 0` it succeeds without reading. -/
def File.ReadFull (f : File) (n : Nat) : Except Error (List UInt8 × File) :=
  let bs := (f.data.drop f.pos).take n
  if bs.length = n then .ok (bs, { f with pos := f.pos + n })
  else if bs = [] then .error Error.EOF
  else .error Error.ErrUnexpectedEOF

/-- Method `f.Seek(ofs, 0)` with the returned error ignored, as the callers do: a
negative offset is refused and leaves the position where it was. -/
def File.Seek (f : File) (ofs : Int) : File :=
  if 0 ≤ ofs then { f with pos := ofs.toNat } else f

/-- Value of a little-endian byte string. -/
def leNat : List UInt8 → Nat
  | [] => 0
  | b :: bs => b.toNat + 256 * leNat bs

/-- Call `binary.Read(f, binary.LittleEndian, &x)` for `x` of type `uint16`. -/
def readU16 (f : File) : Except Error (Nat × File) :=
  match f.ReadFull 2 with
  | .error e => .error e
  | .ok (bs, f1) => .ok (leNat bs, f1)

/-- Call `binary.Read(f, binary.LittleEndian, &x)` for `x` of type `uint32`. -/
def readU32 (f : File) : Except Error (Nat × File) :=
  match f.ReadFull 4 with
  | .error e => .error e
  | .ok (bs, f1) => .ok (leNat bs, f1)

/-- Two's-complement reading of a 32-bit word as an `int32`. -/
def toInt32 (v : Nat) : Int :=
  if v % 2 ^ 32 < 2 ^ 31 then ((v % 2 ^ 32 : Nat) : Int) else ((v % 2 ^ 32 : Nat) : Int) - 2 ^ 32

/-- Call `binary.Read(f, binary.LittleEndian, &num)` for `num` of type `[2]int32`. -/
def readKey (f : File) : Except Error ((Int × Int) × File) :=
  match f.ReadFull 8 with
  | .error e => .error e
  | .ok (bs, f1) => .ok ((toInt32 (leNat (bs.take 4)), toInt32 (leNat (bs.drop 4))), f1)

/-- The four-byte tag `RIFF`. -/
def tagRIFF : List UInt8 := [0x52, 0x49, 0x46, 0x46]
/-- The four-byte tag `WAVE`. -/
def tagWAVE : List UInt8 := [0x57, 0x41, 0x56, 0x45]
/-- The four-byte tag `fmt ` (with a trailing blank). -/
def tagFmt : List UInt8 := [0x66, 0x6d, 0x74, 0x20]
/-- The four-byte tag `data`. -/
def tagData : List UInt8 := [0x64, 0x61, 0x74, 0x61]
/-- The twelve signature bytes `ElecbyteSnd\0` of an archive. -/
def sndMagic : List UInt8 :=
  [0x45, 0x6c, 0x65, 0x63, 0x62, 0x79, 0x74, 0x65, 0x53, 0x6e, 0x64, 0x00]

/-! ## Wave: the PCM container decoder -/

/-- Struct `Wave`. -/
structure Wave where
  SamplesPerSec : Nat
  Channels : Nat
  BytesPerSample : Nat
  Wav : List UInt8
  deriving DecidableEq, Repr

/-- The zero value `Wave{}`. -/
def Wave.zero : Wave := { SamplesPerSec := 0, Channels := 0, BytesPerSample := 0, Wav := [] }

/-- The local variables of `ReadWave` that live across iterations of its chunk loop. -/
structure ScanState where
  f : File
  ofs : Int
  fmtSize : Nat
  dataSize : Nat
  w : Wave
  deriving DecidableEq, Repr

/-- The `case "fmt "` branch of the chunk loop, after `fmtSize = size`. -/
def readFmt (f : File) (w : Wave) : Except Error (Wave × File) :=
  match readU16 f with
  | .error e => .error e
  | .ok (fmtID, f1) =>
    if fmtID ≠ 1 then .error Error.NotLinearPCM else
    match readU16 f1 with
    | .error e => .error e
    | .ok (channels, f2) =>
      if channels < 1 ∨ channels > 2 then .error Error.BadChannels else
      match readU32 f2 with
      | .error e => .error e
      | .ok (rate, f3) =>
        if rate < 1 ∨ rate ≥ 0xfffff then .error (Error.BadSampleRate rate) else
        match readU32 f3 with
        | .error e => .error e
        | .ok (_musi, f4) =>
          match readU16 f4 with
          | .error e => .error e
          | .ok (_mushi, f5) =>
            match readU16 f5 with
            | .error e => .error e
            | .ok (bits, f6) =>
              if bits ≠ 8 ∧ bits ≠ 16 then .error Error.BadBits else
              .ok ({ w with Channels := channels, SamplesPerSec := rate,
                            BytesPerSample := bits / 8 }, f6)

/-- The `case "data"` branch of the chunk loop, after `dataSize = size`: the buffer
`w.Wav` gets exactly `size` bytes. -/
def readData (f : File) (w : Wave) (size : Nat) : Except Error (Wave × File) :=
  match f.ReadFull size with
  | .error e => .error e
  | .ok (bs, f1) => .ok ({ w with Wav := bs }, f1)

/-- One iteration of the chunk loop of `ReadWave`: read a tag and a size, decode the
chunk if it is a format or a data chunk, then seek to the next chunk. -/
def chunkBody (s : ScanState) : Except Error ScanState :=
  match s.f.Read 4 with
  | .error e => .error e
  | .ok (buf, f1) =>
    match readU32 f1 with
    | .error e => .error e
    | .ok (size, f2) =>
      let r : Except Error ScanState :=
        if buf = tagFmt then
          match readFmt f2 s.w with
          | .error e => .error e
          | .ok (w1, f3) => .ok { s with f := f3, fmtSize := size, w := w1 }
        else if buf = tagData then
          match readData f2 s.w size with
          | .error e => .error e
          | .ok (w1, f3) => .ok { s with f := f3, dataSize := size, w := w1 }
        else .ok { s with f := f2 }
      match r with
      | .error e => .error e
      | .ok s1 =>
        let ofs1 : Int := s1.ofs + (size : Int) + 8
        .ok { s1 with ofs := ofs1, f := s1.f.Seek ofs1 }

/-- The condition of the chunk loop. -/
def scanGuard (riffend : Int) (s : ScanState) : Prop :=
  (s.fmtSize = 0 ∨ s.dataSize = 0) ∧ s.ofs < riffend

instance (riffend : Int) (s : ScanState) : Decidable (scanGuard riffend s) := by
  unfold scanGuard; infer_instance

/-- The chunk loop of `ReadWave`, run for at most `fuel` iterations. Every iteration
raises `ofs` by at least 8 and the loop stops once `ofs ≥ riffend`, so `riffend - ofs`
iterations are always enough (`scanChunks_fuel`). -/
def scanChunks (riffend : Int) : Nat → ScanState → Except Error ScanState
  | 0, s => .ok s
  | fuel + 1, s =>
    if scanGuard riffend s then
      match chunkBody s with
      | .error e => .error e
      | .ok s1 => scanChunks riffend fuel s1
    else .ok s

/-- Function `ReadWave(f, ofs)`: `.ok none` is the result `nil, nil`. -/
def ReadWave (f : File) (ofs : Int) : Except Error (Option Wave) :=
  match f.Read 4 with
  | .error e => .error e
  | .ok (buf, f1) =>
    if buf ≠ tagRIFF then .error Error.NotRIFF else
    match readU32 f1 with
    | .error e => .error e
    | .ok (riffSize0, f2) =>
      let riffSize : Nat := (riffSize0 + 8) % 2 ^ 32
      match f2.Read 4 with
      | .error e => .error e
      | .ok (buf2, f3) =>
        if buf2 ≠ tagWAVE then
          .ok (some { SamplesPerSec := 11025, Channels := 1, BytesPerSample := 1, Wav := [] })
        else
          let riffend : Int := ofs + 16 + (riffSize : Int)
          let ofs1 : Int := ofs + 28
          match scanChunks riffend (riffend - ofs1).toNat
              { f := f3, ofs := ofs1, fmtSize := 0, dataSize := 0, w := Wave.zero } with
          | .error e => .error e
          | .ok s =>
            if s.fmtSize = 0 then
              if s.dataSize > 0 then .error Error.NoFmt else .ok none
            else .ok (some s.w)

/-! ## Encoders used to state round-trip properties -/

/-- Little-endian encoding of a 16-bit value. -/
def le16 (n : Nat) : List UInt8 := [UInt8.ofNat n, UInt8.ofNat (n / 256)]

/-- Little-endian encoding of a 32-bit value. -/
def le32 (n : Nat) : List UInt8 :=
  [UInt8.ofNat n, UInt8.ofNat (n / 256), UInt8.ofNat (n / 65536), UInt8.ofNat (n / 16777216)]

/-- The canonical container for sample rate `r`, `c` channels, `b` bits per sample and
payload `d`: RIFF tag, size `36 + |d|`, WAVE tag, a 16-byte format chunk with codec
id 1, and a data chunk of declared size `|d|` holding `d`. -/
def canonicalWave (r c b : Nat) (d : List UInt8) : List UInt8 :=
  tagRIFF ++ le32 (36 + d.length) ++ tagWAVE ++
  tagFmt ++ le32 16 ++ le16 1 ++ le16 c ++ le32 r ++ le32 (r * c * (b / 8)) ++
    le16 (c * (b / 8)) ++ le16 b ++
  tagData ++ le32 d.length ++ d

/-- What `ReadWave` has established when it enters the chunk loop: the stream holds
the RIFF tag, four size bytes and the WAVE tag at the current offset. -/
def startsWave (f : File) : Prop :=
  (f.data.drop f.pos).take 4 = tagRIFF ∧ ((f.data.drop (f.pos + 4)).take 4).length = 4 ∧
    (f.data.drop (f.pos + 8)).take 4 = tagWAVE

instance (f : File) : Decidable (startsWave f) := by
  unfold startsWave; infer_instance

/-- Value of `riffend` in `ReadWave`: `ofs + 16 + int64(riffSize)` after
`riffSize += 8` on a `uint32`. -/
def riffEnd (f : File) (ofs : Int) : Int :=
  ofs + 16 + (((leNat ((f.data.drop (f.pos + 4)).take 4) + 8) % 2 ^ 32 : Nat) : Int)

/-- The loop variables of `ReadWave` when the chunk loop is entered. -/
def scanInit (f : File) (ofs : Int) : ScanState :=
  { f := { f with pos := f.pos + 12 }, ofs := ofs + 28, fmtSize := 0, dataSize := 0,
    w := Wave.zero }

/-- The chunk loop, started in `s`, arrives at the loop head in state `t` after some
number of complete iterations. -/
inductive ScanReaches (riffend : Int) : ScanState → ScanState → Prop where
  | here (s : ScanState) : ScanReaches riffend s s
  | next {s s1 t : ScanState} : scanGuard riffend s → chunkBody s = .ok s1 →
      ScanReaches riffend s1 t → ScanReaches riffend s t

/-- The fields a format chunk located at offset `p` declares:
codec id, channel count, sample rate and bits per sample. -/
def fmtFields (data : List UInt8) (p : Nat) : Nat × Nat × Nat × Nat :=
  (leNat ((data.drop (p + 8)).take 2), leNat ((data.drop (p + 10)).take 2),
   leNat ((data.drop (p + 12)).take 4), leNat ((data.drop (p + 22)).take 2))

/-- The four format constraints `ReadWave` checks. -/
def fmtValid (x : Nat × Nat × Nat × Nat) : Prop :=
  x.1 = 1 ∧ (x.2.1 = 1 ∨ x.2.1 = 2) ∧ (1 ≤ x.2.2.1 ∧ x.2.2.1 < 0xfffff) ∧
    (x.2.2.2 = 8 ∨ x.2.2.2 = 16)

instance (x : Nat × Nat × Nat × Nat) : Decidable (fmtValid x) := by
  unfold fmtValid; infer_instance

/-- Loop invariant of the chunk loop: once a format chunk of non-zero size has been
read, the channel count and the sample width are 1 or 2. -/
def fmtSeen (s : ScanState) : Prop :=
  s.fmtSize ≠ 0 → (s.w.Channels = 1 ∨ s.w.Channels = 2) ∧
    (s.w.BytesPerSample = 1 ∨ s.w.BytesPerSample = 2)

/-- Loop invariant of the chunk loop: the PCM buffer holds `dataSize` bytes, fewer than
`2 ^ 32`, copied from one contiguous stretch of the stream. -/
def wavCopied (s : ScanState) : Prop :=
  s.w.Wav.length = s.dataSize ∧ s.dataSize < 2 ^ 32 ∧ s.w.Wav <:+: s.f.data

/-- A stream in which a container follows 64 other bytes; its format chunk declares
codec id 2. -/
def badCodecFile : File :=
  ⟨List.replicate 64 0 ++ tagRIFF ++ le32 28 ++ tagWAVE ++ tagFmt ++ le32 16 ++ le16 2 ++
    le16 1 ++ le32 8000 ++ le32 8000 ++ le16 1 ++ le16 8, 64⟩

/-! ## Containers given as a list of chunks -/

/-- A chunk of a container: its four-byte tag and its payload. -/
structure Chunk where
  tag : List UInt8
  payload : List UInt8
  deriving DecidableEq, Repr

/-- Bytes of a chunk: tag, declared size (the payload length), payload. -/
def encodeChunk (c : Chunk) : List UInt8 :=
  c.tag ++ (le32 c.payload.length ++ c.payload)

/-- Bytes of a sequence of chunks laid out one after the other. -/
def encodeChunks : List Chunk → List UInt8
  | [] => []
  | c :: cs => encodeChunk c ++ encodeChunks cs

/-- Number of bytes `encodeChunks` produces. -/
def chunksSize : List Chunk → Nat
  | [] => 0
  | c :: cs => 8 + c.payload.length + chunksSize cs

/-- The well-formed container holding the chunks `cs`: RIFF tag, the size of what
follows the size field, WAVE tag, the chunks. -/
def riffContainer (cs : List Chunk) : List UInt8 :=
  tagRIFF ++ (le32 (4 + chunksSize cs) ++ (tagWAVE ++ encodeChunks cs))

/-- Declared size of the last chunk tagged `data` among `cs`, or `init` if there is
none: the value `dataSize` has after the chunk loop has passed over `cs`. -/
def lastDataSize (init : Nat) : List Chunk → Nat
  | [] => init
  | c :: cs => lastDataSize (if c.tag = tagData then c.payload.length else init) cs

/-! ## Snd: the archive decoder -/

/-- The key type `[2]int32` of the archive table. -/
abbrev Key := Int × Int

/-- The map `map[[2]int32]*Wave` as a list of bindings, the most recent first. A key
can be bound to `nil` (`none`). -/
abbrev Table := List (Key × Option Wave)

/-- Map lookup `v, ok := table[k]`: `none` when the key is absent. -/
def Table.find : Table → Key → Option (Option Wave)
  | [], _ => none
  | (k1, v) :: t, k => if k1 = k then some v else Table.find t k

/-- Map assignment `table[k] = v`. -/
def Table.set (t : Table) (k : Key) (v : Option Wave) : Table := (k, v) :: t

/-- Struct `Snd`. -/
structure Snd where
  table : Table
  ver : Nat
  ver2 : Nat
  deriving DecidableEq, Repr

/-- Function `newSnd`. -/
def newSnd : Snd := { table := [], ver := 0, ver2 := 0 }

/-- The loop of `LoadSnd` over the sub-headers, `n` being the number of iterations
still to run (`numberOfSounds - i`). Each iteration seeks to an absolute offset first,
so the position `ReadWave` leaves the file at does not matter. -/
def loadLoop : Nat → File → Nat → Snd → Except Error Snd
  | 0, _, _, s => .ok s
  | n + 1, f, subHeaderOffset, s =>
    match readU32 (f.Seek subHeaderOffset) with
    | .error e => .error e
    | .ok (nextSubHeaderOffset, f1) =>
      match readU32 f1 with
      | .error e => .error e
      | .ok (_subFileLenght, f2) =>
        match readKey f2 with
        | .error e => .error e
        | .ok (num, f3) =>
          if num.1 ≥ 0 ∧ num.2 ≥ 0 then
            match s.table.find num with
            | some _ => loadLoop n f3 nextSubHeaderOffset s
            | none =>
              match ReadWave f3 subHeaderOffset with
              | .error e => .error e
              | .ok tmp =>
                loadLoop n f3 nextSubHeaderOffset { s with table := s.table.set num tmp }
          else loadLoop n f3 nextSubHeaderOffset s

/-- Function `LoadSnd`, from the point where the file has been opened: `data` is the
content of the file. -/
def LoadSnd (data : List UInt8) : Except Error Snd :=
  let f : File := { data := data, pos := 0 }
  match f.Read 12 with
  | .error e => .error e
  | .ok (buf, f1) =>
    if buf ≠ sndMagic then .error Error.NotElecbyteSnd else
    match readU16 f1 with
    | .error e => .error e
    | .ok (ver, f2) =>
      match readU16 f2 with
      | .error e => .error e
      | .ok (ver2, f3) =>
        match readU32 f3 with
        | .error e => .error e
        | .ok (numberOfSounds, f4) =>
          match readU32 f4 with
          | .error e => .error e
          | .ok (subHeaderOffset, f5) =>
            loadLoop numberOfSounds f5 subHeaderOffset { newSnd with ver := ver, ver2 := ver2 }

/-- Method `Snd.Get`: a missing key gives `nil`, like a key bound to `nil`. -/
def Snd.Get (s : Snd) (gn : Key) : Option Wave :=
  match s.table.find gn with
  | some v => v
  | none => none

/-- The sub-header stored at offset `off`, read the way the loop of `LoadSnd` reads
it (next offset, length, key), if its sixteen bytes are all there: the offset of the
next sub-header and the key. -/
def subHeaderAt (data : List UInt8) (off : Nat) : Option (Nat × Key) :=
  match readU32 { data := data, pos := off } with
  | .error _ => none
  | .ok (next, f1) =>
    match readU32 f1 with
    | .error _ => none
    | .ok (_, f2) =>
      match readKey f2 with
      | .error _ => none
      | .ok (num, _) => some (next, num)

/-- The sub-headers the loop of `LoadSnd` visits in `n` iterations from offset `off`,
each with its offset and its key, in the order of the visits. -/
def visited (data : List UInt8) : Nat → Nat → List (Nat × Key)
  | 0, _ => []
  | n + 1, off =>
    match subHeaderAt data off with
    | none => []
    | some (next, key) => (off, key) :: visited data n next

/-- The entry count stored in the archive header. -/
def sndCount (data : List UInt8) : Nat := leNat ((data.drop 16).take 4)

/-- The offset of the first sub-header stored in the archive header. -/
def sndFirst (data : List UInt8) : Nat := leNat ((data.drop 20).take 4)

/-- The sub-headers `LoadSnd` visits, in order, each with its offset and its key. -/
def subHeaders (data : List UInt8) : List (Nat × Key) :=
  visited data (sndCount data) (sndFirst data)

/-- Bytes of a sub-header. -/
def encodeSubHeader (next len : Nat) (k0 k1 : Nat) : List UInt8 :=
  le32 next ++ le32 len ++ le32 k0 ++ le32 k1

/-- Bytes of an archive header. -/
def encodeSndHeader (ver ver2 count first : Nat) : List UInt8 :=
  sndMagic ++ le16 ver ++ le16 ver2 ++ le32 count ++ le32 first

/-- An archive of two entries stored under the same key (1, 2): the first holds the
payload 1, 2, 3, 4, the second the payload 9, 9, 9, 9. -/
def twinArchive : List UInt8 :=
  encodeSndHeader 1 0 2 24 ++
  encodeSubHeader 88 48 1 2 ++ canonicalWave 11025 1 8 [1, 2, 3, 4] ++
  encodeSubHeader 0 48 1 2 ++ canonicalWave 22050 1 8 [9, 9, 9, 9]

/-! ## Mixer

The floating-point values of the mixer (the accumulator `m.buf`, cursors, rates and
volumes) are exact rationals. The type `int` has 64 bits: the products `2 * int(fidx)`
and `4 * int(fidx)` that give a byte index wrap (`mulInt`). -/

/-- Constant `audioOutLen`. -/
def audioOutLen : Nat := 2048

/-- Constant `audioFrequency`. -/
def audioFrequency : Nat := 48000

/-- Conversion `int(x)` of a floating-point value: truncation towards zero. This is the
value Go defines when the truncated value fits `int` (below `2 ^ 63` in absolute value);
Go leaves the conversion of any other value to the implementation. -/
def goInt (x : ℚ) : Int := if 0 ≤ x then ⌊x⌋ else ⌈x⌉

/-- Conversion `int8(b)` of a byte. -/
def toInt8 (b : UInt8) : Int := if b.toNat < 128 then (b.toNat : Int) else (b.toNat : Int) - 256

/-- The two's-complement value of a 64-bit pattern, as an `int`. -/
def toInt64 (n : Nat) : Int :=
  if n % 2 ^ 64 < 2 ^ 63 then ((n % 2 ^ 64 : Nat) : Int) else ((n % 2 ^ 64 : Nat) : Int) - 2 ^ 64

/-- The 64-bit pattern of an `int`. -/
def bits64 (x : Int) : Nat := (x % 2 ^ 64).toNat

/-- Operation `x << n` on `int`. -/
def shlInt (x : Int) (n : Nat) : Int := toInt64 (bits64 (x * 2 ^ n))

/-- Operation `x | y` on `int`. -/
def orInt (x y : Int) : Int := toInt64 (bits64 x ||| bits64 y)

/-- Operation `x * y` on `int`: the product wraps at 64 bits. -/
def mulInt (x y : Int) : Int := toInt64 (bits64 (x * y))

/-- Indexing `wav[i]` with its bounds check: `none` is the run-time panic. -/
def wavAt (wav : List UInt8) (i : Int) : Option UInt8 :=
  if i < 0 then none else wav[i.toNat]?

/-- An 8-bit sample scaled by the volume: `volume * (float32(b) - 128) / 128`. -/
def sample8 (volume : ℚ) (b : UInt8) : ℚ := volume * ((b.toNat : ℚ) - 128) / 128

/-- A 16-bit sample scaled by the volume:
`volume * float32(int(lo) | int(int8(hi))<<8) / (1 << 15)`. -/
def sample16 (volume : ℚ) (lo hi : UInt8) : ℚ :=
  volume * ((orInt (lo.toNat : Int) (shlInt (toInt8 hi) 8) : Int) : ℚ) / 32768

/-- The two values the 8-bit mono loop adds to `m.buf[i]` and `m.buf[i+1]`. -/
def dec11 (wav : List UInt8) (volume : ℚ) (iidx : Int) : Option (ℚ × ℚ) :=
  match wavAt wav iidx with
  | some b => some (sample8 volume b, sample8 volume b)
  | none => none

/-- The two values the 8-bit stereo loop adds to `m.buf[i]` and `m.buf[i+1]`. -/
def dec12 (wav : List UInt8) (volume : ℚ) (iidx : Int) : Option (ℚ × ℚ) :=
  match wavAt wav iidx, wavAt wav (iidx + 1) with
  | some l, some r => some (sample8 volume l, sample8 volume r)
  | _, _ => none

/-- The two values the 16-bit mono loop adds to `m.buf[i]` and `m.buf[i+1]`. -/
def dec21 (wav : List UInt8) (volume : ℚ) (iidx : Int) : Option (ℚ × ℚ) :=
  match wavAt wav iidx, wavAt wav (iidx + 1) with
  | some lo, some hi => some (sample16 volume lo hi, sample16 volume lo hi)
  | _, _ => none

/-- The two values the 16-bit stereo loop adds to `m.buf[i]` and `m.buf[i+1]`. -/
def dec22 (wav : List UInt8) (volume : ℚ) (iidx : Int) : Option (ℚ × ℚ) :=
  match wavAt wav iidx, wavAt wav (iidx + 1), wavAt wav (iidx + 2), wavAt wav (iidx + 3) with
  | some lo, some hi, some lo2, some hi2 =>
    some (sample16 volume lo hi, sample16 volume lo2 hi2)
  | _, _, _, _ => none

/-- Statement `buf[i] += x`. -/
def addAt (buf : List ℚ) (i : Nat) (x : ℚ) : List ℚ := buf.set i (buf.getD i 0 + x)

/-- The loop `for i := 0; i <= len(m.buf)-2; i += 2` shared by the four branches of
`Mix`, with `n` iterations left and `i` the current slot. The branches differ in the
byte index `iidx = idx (int(fidx))` (`int(fidx)` itself, `2 * int(fidx)` or
`4 * int(fidx)`), in the test `past` that the index has run past the source, and in the
sample values `dec` they add. `break` ends the loop with the cursor unchanged; `none`
is a run-time panic (index out of range). -/
def mixLoop (fidxadd : ℚ) (loop : Bool) (idx : Int → Int) (past : Int → Prop)
    [DecidablePred past] (dec : Int → Option (ℚ × ℚ)) :
    Nat → Nat → List ℚ → ℚ → Option (List ℚ × ℚ)
  | 0, _, buf, fidx => some (buf, fidx)
  | n + 1, i, buf, fidx =>
    if past (idx (goInt fidx)) then
      if !loop then some (buf, fidx)
      else
        match dec 0 with
        | none => none
        | some (l, r) =>
          mixLoop fidxadd loop idx past dec n (i + 2) (addAt (addAt buf i l) (i + 1) r)
            (0 + fidxadd)
    else
      match dec (idx (goInt fidx)) with
      | none => none
      | some (l, r) =>
        mixLoop fidxadd loop idx past dec n (i + 2) (addAt (addAt buf i l) (i + 1) r)
          (fidx + fidxadd)

/-- Method `Mixer.Mix` on the accumulator `buf` (the array `m.buf`): the new
accumulator and the returned cursor. -/
def Mix (buf : List ℚ) (wav : List UInt8) (fidx : ℚ) (bytesPerSample channels : Int)
    (sampleRate : ℚ) (loop : Bool) (volume : ℚ) : Option (List ℚ × ℚ) :=
  let fidxadd : ℚ := sampleRate / audioFrequency
  if fidxadd > 0 then
    if bytesPerSample = 1 then
      if channels = 1 then
        mixLoop fidxadd loop (fun k => k) (fun iidx => iidx ≥ wav.length) (dec11 wav volume)
          (buf.length / 2) 0 buf fidx
      else if channels = 2 then
        mixLoop fidxadd loop (mulInt 2) (fun iidx => iidx > (wav.length : Int) - 2)
          (dec12 wav volume) (buf.length / 2) 0 buf fidx
      else some (buf, wav.length)
    else if bytesPerSample = 2 then
      if channels = 1 then
        mixLoop fidxadd loop (mulInt 2) (fun iidx => iidx > (wav.length : Int) - 2)
          (dec21 wav volume) (buf.length / 2) 0 buf fidx
      else if channels = 2 then
        mixLoop fidxadd loop (mulInt 4) (fun iidx => iidx > (wav.length : Int) - 4)
          (dec22 wav volume) (buf.length / 2) 0 buf fidx
      else some (buf, wav.length)
    else some (buf, wav.length)
  else some (buf, wav.length)

/-- The byte index of a branch of `Mix` below the bound `T` on `int(fidx)`: it is not
negative, and an index that has not run past a source of `len` bytes comes from a
value of `int(fidx)` below `len`. -/
def indexOK (idx : Int → Int) (past : Int → Prop) (len : Nat) (T : Int) : Prop :=
  ∀ k : Int, 0 ≤ k → k < T → 0 ≤ idx k ∧ (¬ past (idx k) → k < len)

/-! ## Sound: the voices -/

/-- Struct `Sound`: a voice. -/
structure Sound where
  sound : Option Wave
  volume : Int
  loop : Bool
  freqmul : ℚ
  fidx : ℚ
  deriving DecidableEq

/-- Number of whole sample frames of an asset, as `Sound.mix` computes it:
`len(Wav) / int(BytesPerSample * Channels)`, the product being taken on `uint16`. -/
def frameCount (w : Wave) : Nat := w.Wav.length / ((w.BytesPerSample * w.Channels) % 2 ^ 16)

/-- Method `Sound.mix` on the accumulator `buf`: the new accumulator and the new state
of the voice; `none` is a run-time panic (in `Mix`, or the division by zero). -/
def Sound.mix (buf : List ℚ) (s : Sound) : Option (List ℚ × Sound) :=
  match s.sound with
  | none => some (buf, s)
  | some w =>
    match Mix buf w.Wav s.fidx w.BytesPerSample w.Channels
        ((w.SamplesPerSec : ℚ) * s.freqmul) s.loop ((s.volume : ℚ) / 256) with
    | none => none
    | some (buf1, fidx1) =>
      if (w.BytesPerSample * w.Channels) % 2 ^ 16 = 0 then none
      else if goInt fidx1 ≥ (frameCount w : Int) then
        some (buf1, { s with sound := none, fidx := 0 })
      else some (buf1, { s with fidx := fidx1 })

/-- Conversion `int16(v)`. -/
def toInt16 (v : Int) : Int := (v + 2 ^ 15) % 2 ^ 16 - 2 ^ 15

/-- Method `Sound.SetVolume`. -/
def Sound.SetVolume (s : Sound) (vol : Int) : Sound :=
  if vol < 0 then { s with volume := 0 }
  else if vol > 512 then { s with volume := 512 }
  else { s with volume := toInt16 vol }

/-- Type `Sounds`: the pool of voices. -/
abbrev Sounds := List Sound

/-- Function `newSounds`. -/
def newSounds (size : Nat) : Sounds :=
  List.replicate size { sound := none, volume := 256, loop := false, freqmul := 1, fidx := 0 }

/-- Method `Sounds.GetChannel`: the index of the voice whose address is returned, or
`none` for `nil`. -/
def GetChannel : Sounds → Option Nat
  | [] => none
  | x :: xs => if x.sound = none then some 0 else (GetChannel xs).map (· + 1)

/-- The pool after the voice at index `i` has been changed by `f` (a write through
the pointer `&s[i]`). -/
def modifyAt (f : Sound → Sound) : Nat → Sounds → Sounds
  | _, [] => []
  | 0, x :: xs => f x :: xs
  | i + 1, x :: xs => x :: modifyAt f i xs

/-- Method `Sounds.mixSounds`: every voice in index order, on the same accumulator. -/
def mixSounds (buf : List ℚ) : Sounds → Option (List ℚ × Sounds)
  | [] => some (buf, [])
  | x :: xs =>
    match Sound.mix buf x with
    | none => none
    | some (buf1, x1) =>
      match mixSounds buf1 xs with
      | none => none
      | some (buf2, xs1) => some (buf2, x1 :: xs1)

/-- Method `Snd.play` on the pool `sys.sounds`: the new pool and the returned flag. -/
def Snd.play (s : Snd) (pool : Sounds) (gn : Key) : Sounds × Bool :=
  match GetChannel pool with
  | none => (pool, false)
  | some i => (modifyAt (fun c => { c with sound := s.Get gn }) i pool, (s.Get gn).isSome)

/-- Pool states reachable from `newSounds` by calls of `SetVolume` on its voices. -/
inductive VolumeReachable : Sounds → Prop where
  | init (size : Nat) : VolumeReachable (newSounds size)
  | setVolume {p : Sounds} (i : Nat) (vol : Int) : VolumeReachable p →
      VolumeReachable (modifyAt (fun c => c.SetVolume vol) i p)

/-! ## Sources mixed one after the other -/

/-- Method `Mixer.bufClear`: every slot of the accumulator is set to 0. -/
def bufClear (buf : List ℚ) : List ℚ := buf.map (fun _ => 0)

/-- The arguments of one call of `Mix`. -/
structure Source where
  wav : List UInt8
  fidx : ℚ
  bytesPerSample : Int
  channels : Int
  sampleRate : ℚ
  loop : Bool
  volume : ℚ

/-- Consecutive calls of `Mix`, one per source, on the same accumulator: the final
accumulator, or `none` if one of the calls panics. -/
def mixAll (buf : List ℚ) : List Source → Option (List ℚ)
  | [] => some buf
  | s :: rest =>
    match Mix buf s.wav s.fidx s.bytesPerSample s.channels s.sampleRate s.loop s.volume with
    | none => none
    | some (buf1, _) => mixAll buf1 rest

/-- A source holds only the byte `b`. -/
def allBytes (b : UInt8) (s : Source) : Prop := ∀ x ∈ s.wav, x = b

/-- The format of a source is one of the four `Mix` supports. -/
def supported (s : Source) : Prop :=
  (s.bytesPerSample = 1 ∨ s.bytesPerSample = 2) ∧ (s.channels = 1 ∨ s.channels = 2)

/-- A source is silent: an 8-bit source holds only the byte 128, a 16-bit source only
the byte 0. -/
def silent (s : Source) : Prop := allBytes (if s.bytesPerSample = 1 then 128 else 0) s

/-- A source holds at least one whole sample frame. -/
def hasFrame (s : Source) : Prop := s.bytesPerSample * s.channels ≤ (s.wav.length : Int)

/-- The cursor of a source is not negative, and the cursor, the length of the buffer
and the rate are below `2 ^ 60`: no byte index computed by `Mix` wraps. -/
def inRange (s : Source) : Prop :=
  0 ≤ s.fidx ∧ s.fidx < 2 ^ 60 ∧ s.wav.length < 2 ^ 60 ∧ s.sampleRate < 2 ^ 60

/-- An 8-bit mono source of one zero byte, not looping, at the output rate and unit
volume. -/
def zeroByteSource : Source :=
  { wav := [0], fidx := 0, bytesPerSample := 1, channels := 1, sampleRate := 48000,
    loop := false, volume := 1 }

/-! ## Normalizer

`math.Abs` is the absolute value; `math.Pow`, a function of the Go library whose values
are not rational in general, is a parameter `pow` of the definitions that use it. The
conversions between `float32` and `float64` are exact. -/

/-- Struct `NormalizerLR`. -/
structure NormalizerLR where
  heri : ℚ
  herihenka : ℚ
  fue : ℚ
  heikin : ℚ
  katayori : ℚ
  katayori2 : ℚ
  deriving DecidableEq

/-- Struct `Normalizer`. -/
structure Normalizer where
  mul : ℚ
  l : NormalizerLR
  r : NormalizerLR
  deriving DecidableEq

/-- Function `NewNormalizer`. -/
def NewNormalizer : Normalizer :=
  { mul := 4, l := ⟨1, 0, 1, 1 / 32, 0, 0⟩, r := ⟨1, 0, 1, 1 / 32, 0, 0⟩ }

/-- A stand-in for `math.Pow` that is exact whenever the exponent is a natural number
(the exponents 0, 1, 3 and 64 are the only ones a normalizer started by
`NewNormalizer` ever uses). -/
def powNat (x y : ℚ) : ℚ := x ^ ⌊y⌋₊

/-- The result of `NormalizerLR.process`: the state afterwards, the sample written back
through `sam`, and the returned multiplier. -/
structure ProcessResult where
  state : NormalizerLR
  sam : ℚ
  bai : ℚ

/-- Method `NormalizerLR.process`. -/
def NormalizerLR.process (pow : ℚ → ℚ → ℚ) (n : NormalizerLR) (bai : ℚ) (sam : ℚ) :
    ProcessResult :=
  let katayori : ℚ := (n.katayori * audioFrequency / 110 + sam) / (audioFrequency / 110 + 1)
  let katayori2 : ℚ :=
    (n.katayori2 * audioFrequency / 112640 + sam) / (audioFrequency / 112640 + 1)
  let s : ℚ := (katayori2 - katayori) * bai
  let bai1 : ℚ :=
    if |s| > 1 then bai * pow (1 / |s|) n.heri
    else
      let tmp : ℚ := (1 - pow (1 - |s|) 64) * pow (1 / 2 - |s|) 3
      bai + bai * (n.heri * (1 / 32 - n.heikin) / n.fue + tmp * n.fue * (1 - n.heri) / 32) /
        (audioFrequency * 2 / 8 + 1)
  let herihenka : ℚ :=
    if |s| > 1 then n.herihenka + 32 * (1 - n.heri) / ((audioFrequency + 32 : Nat) : ℚ)
    else n.herihenka - (1 / 2 - n.heikin) * n.heri / (audioFrequency * 2)
  let s1 : ℚ := if |s| > 1 then (if s < 0 then -1 else 1) else s
  let fue : ℚ := n.fue + (32 * n.fue * (1 / n.fue - |s1|) - n.fue) / (32 * audioFrequency * 2)
  let heikin : ℚ := n.heikin + (|s1| - n.heikin) / (audioFrequency * 2)
  let heri0 : ℚ := n.heri + herihenka
  let heri : ℚ := if heri0 < 0 then 0 else if heri0 > 0 then 1 else heri0
  { state := { heri := heri, herihenka := herihenka, fue := fue, heikin := heikin,
               katayori := katayori, katayori2 := katayori2 },
    sam := s1, bai := bai1 }

/-- The fields of the global `sys` (declared outside `sound.go`) that
`Normalizer.Process` reads. -/
structure SysAudio where
  AudioDucking : Bool
  wavVolume : Int
  masterVolume : Int

/-- Method `Normalizer.Process`: the state afterwards and the two returned samples. -/
def Normalizer.Process (pow : ℚ → ℚ → ℚ) (sys : SysAudio) (n : Normalizer) (l r : ℚ) :
    Normalizer × ℚ × ℚ :=
  let pl := n.l.process pow n.mul l
  let pr := n.r.process pow n.mul r
  let mul : ℚ :=
    if sys.AudioDucking then
      let m : ℚ := if pl.bai < pr.bai then pl.bai else pr.bai
      if m > 16 then 16 else m
    else 1 / 2 * ((sys.wavVolume : ℚ) * (sys.masterVolume : ℚ) * (1 / 10000))
  ({ mul := mul, l := pl.state, r := pr.state }, pl.sam, pr.sam)

/-- Conversion `int16(32767 * x)` of a `float32`: the product truncated towards zero,
then reduced to 16 bits. -/
def quantize16 (x : ℚ) : Int := toInt16 (goInt (32767 * x))

/-- The loop of `Mixer.write` that fills `m.sendBuf` from `m.buf`, pair by pair,
through the normalizer: the normalizer afterwards and the frame. A last slot without
a partner keeps the 0 of `make`. -/
def fillSendBuf (pow : ℚ → ℚ → ℚ) (sys : SysAudio) : Normalizer → List ℚ → Normalizer × List Int
  | n, l :: r :: rest =>
    let p := n.Process pow sys l r
    let q := fillSendBuf pow sys p.1 rest
    (q.1, quantize16 p.2.1 :: quantize16 p.2.2 :: q.2)
  | n, [_] => (n, [0])
  | n, [] => (n, [])

/-- Struct `Mixer`. The field `out` is the content of the channel `m.out`, which has
room for one frame: `none` when it is empty. The consumer empties it. -/
structure Mixer where
  buf : List ℚ
  sendBuf : Option (List Int)
  out : Option (List Int)
  normalizer : Normalizer

/-- Function `newMixer`. -/
def newMixer : Mixer :=
  { buf := List.replicate (audioOutLen * 2) 0, sendBuf := none, out := none,
    normalizer := NewNormalizer }

/-- The first statement of `Mixer.write`: a frame is produced only if none is pending
in `m.sendBuf`. -/
def Mixer.prepare (pow : ℚ → ℚ → ℚ) (sys : SysAudio) (m : Mixer) : Mixer :=
  match m.sendBuf with
  | some _ => m
  | none =>
    let q := fillSendBuf pow sys m.normalizer m.buf
    { m with sendBuf := some q.2, normalizer := q.1 }

/-- Method `Mixer.write`: the mixer afterwards and the returned flag. The `select` with
a `default` branch sends only if the channel is empty. -/
def Mixer.write (pow : ℚ → ℚ → ℚ) (sys : SysAudio) (m : Mixer) : Mixer × Bool :=
  let m1 := m.prepare pow sys
  match m1.out with
  | some _ => (m1, false)
  | none => ({ m1 with out := m1.sendBuf, sendBuf := none, buf := bufClear m1.buf }, true)

/-! ## Reachable pool states -/

/-- Every asset of the archive table was returned by `ReadWave`. -/
def AssetsFromReadWave (s : Snd) : Prop :=
  ∀ k w, s.table.find k = some (some w) → ∃ f ofs, ReadWave f ofs = .ok (some w)

/-- Pool states reachable from `newSounds` by `Snd.play` (on archives whose assets were
produced by `ReadWave`), `SetVolume` and `mixSounds`. -/
inductive PoolReachable : Sounds → Prop where
  | init (size : Nat) : PoolReachable (newSounds size)
  | play {p : Sounds} (s : Snd) (gn : Key) : AssetsFromReadWave s → PoolReachable p →
      PoolReachable (s.play p gn).1
  | setVolume {p : Sounds} (i : Nat) (vol : Int) : PoolReachable p →
      PoolReachable (modifyAt (fun c => c.SetVolume vol) i p)
  | mix {p p1 : Sounds} (buf buf1 : List ℚ) : PoolReachable p →
      mixSounds buf p = some (buf1, p1) → PoolReachable p1

/-- The state of a voice in a reachable pool: it does not loop and its pitch
multiplier is 1; without asset its cursor is 0; with an asset, the asset has a
supported format, a sample rate below `0xfffff` and fewer than `2 ^ 32` bytes, and the
cursor is not negative and lies before the frame count, or stands at 0 on an asset
without a whole sample frame. -/
def voiceOK (x : Sound) : Prop :=
  x.loop = false ∧ x.freqmul = 1 ∧ (x.sound = none → x.fidx = 0) ∧
    ∀ w, x.sound = some w →
      (w.Channels = 1 ∨ w.Channels = 2) ∧ (w.BytesPerSample = 1 ∨ w.BytesPerSample = 2) ∧
      w.SamplesPerSec < 0xfffff ∧ w.Wav.length < 2 ^ 32 ∧
      0 ≤ x.fidx ∧ (x.fidx < (frameCount w : ℚ) ∨ (x.fidx = 0 ∧ frameCount w = 0))

/-- The default asset `ReadWave` returns for a container without the WAVE tag. -/
def defaultWave : Wave := { SamplesPerSec := 11025, Channels := 1, BytesPerSample := 1, Wav := [] }

/-- A stream holding the RIFF tag, a size and the tag `WAVX`. -/
def noWaveTagFile : File := ⟨tagRIFF ++ le32 4 ++ [0x57, 0x41, 0x56, 0x58], 0⟩

/-! ## Basic facts about reads -/

theorem byte_lt (b : UInt8) : b.toNat < 256 := UInt8.toNat_lt_size b

theorem Read_ok {f : File} {n : Nat} {bs : List UInt8} {f1 : File}
    (h : f.Read n = .ok (bs, f1)) :
    bs = (f.data.drop f.pos).take n ∧ bs ≠ [] ∧ f1 = { f with pos := f.pos + bs.length } := by
  unfold File.Read at h
  simp only at h
  split at h
  · cases h
  · rename_i hne
    injection h with h
    injection h with h1 h2
    subst h1
    exact ⟨rfl, hne, h2.symm⟩

theorem ReadFull_ok {f : File} {n : Nat} {bs : List UInt8} {f1 : File}
    (h : f.ReadFull n = .ok (bs, f1)) :
    bs = (f.data.drop f.pos).take n ∧ bs.length = n ∧ f1 = { f with pos := f.pos + n } := by
  unfold File.ReadFull at h
  simp only at h
  split at h
  · rename_i hlen
    injection h with h
    injection h with h1 h2
    subst h1
    exact ⟨rfl, hlen, h2.symm⟩
  · split at h <;> cases h

theorem readU16_ok {f : File} {v : Nat} {f1 : File} (h : readU16 f = .ok (v, f1)) :
    v = leNat ((f.data.drop f.pos).take 2) ∧ f1 = { f with pos := f.pos + 2 } := by
  unfold readU16 at h
  split at h
  · cases h
  · rename_i bs f2 hr
    obtain ⟨h1, _, h3⟩ := ReadFull_ok hr
    injection h with h
    injection h with ha hb
    subst ha hb h1
    exact ⟨rfl, h3⟩

theorem readU32_ok {f : File} {v : Nat} {f1 : File} (h : readU32 f = .ok (v, f1)) :
    v = leNat ((f.data.drop f.pos).take 4) ∧ ((f.data.drop f.pos).take 4).length = 4 ∧
      f1 = { f with pos := f.pos + 4 } := by
  unfold readU32 at h
  split at h
  · cases h
  · rename_i bs f2 hr
    obtain ⟨h1, h2, h3⟩ := ReadFull_ok hr
    injection h with h
    injection h with ha hb
    subst ha hb h1
    exact ⟨rfl, h2, h3⟩

theorem readFmt_ok {f : File} {w w1 : Wave} {f1 : File} (h : readFmt f w = .ok (w1, f1)) :
    fmtValid (leNat ((f.data.drop f.pos).take 2), leNat ((f.data.drop (f.pos + 2)).take 2),
        leNat ((f.data.drop (f.pos + 4)).take 4), leNat ((f.data.drop (f.pos + 14)).take 2)) ∧
      w1 = { w with Channels := leNat ((f.data.drop (f.pos + 2)).take 2),
                    SamplesPerSec := leNat ((f.data.drop (f.pos + 4)).take 4),
                    BytesPerSample := leNat ((f.data.drop (f.pos + 14)).take 2) / 8 } ∧
      f1 = { f with pos := f.pos + 16 } := by
  unfold readFmt at h
  split at h
  · cases h
  rename_i fmtID g1 h1
  obtain ⟨e1, p1⟩ := readU16_ok h1
  split at h
  · cases h
  rename_i c1
  split at h
  · cases h
  rename_i channels g2 h2
  obtain ⟨e2, p2⟩ := readU16_ok h2
  split at h
  · cases h
  rename_i c2
  split at h
  · cases h
  rename_i rate g3 h3
  obtain ⟨e3, _, p3⟩ := readU32_ok h3
  split at h
  · cases h
  rename_i c3
  split at h
  · cases h
  rename_i musi g4 h4
  obtain ⟨_, _, p4⟩ := readU32_ok h4
  split at h
  · cases h
  rename_i mushi g5 h5
  obtain ⟨_, p5⟩ := readU16_ok h5
  split at h
  · cases h
  rename_i bits g6 h6
  obtain ⟨e6, p6⟩ := readU16_ok h6
  split at h
  · cases h
  rename_i c6
  injection h with h
  injection h with hw hf
  subst p1 p2 p3 p4 p5
  simp only [Nat.add_assoc, Nat.reduceAdd] at e2 e3 e6 p6
  subst e1 e2 e3 e6
  refine ⟨⟨?_, ?_, ?_, ?_⟩, hw.symm, ?_⟩
  · simpa using c1
  · simp only at c2 ⊢; omega
  · simp only at c3 ⊢; omega
  · simp only at c6 ⊢; omega
  · rw [← hf, p6]

/-! ## Reads that succeed -/

theorem Read_eq {f : File} {n : Nat} {bs : List UInt8}
    (h : (f.data.drop f.pos).take n = bs) (hne : bs ≠ []) :
    f.Read n = .ok (bs, { f with pos := f.pos + bs.length }) := by
  unfold File.Read
  simp only [h, hne, if_false]

theorem ReadFull_eq {f : File} {n : Nat} {bs : List UInt8}
    (h : (f.data.drop f.pos).take n = bs) (hlen : bs.length = n) :
    f.ReadFull n = .ok (bs, { f with pos := f.pos + n }) := by
  unfold File.ReadFull
  simp only [h, hlen, if_true]

theorem leNat_le16 (n : Nat) (h : n < 2 ^ 16) : leNat (le16 n) = n := by
  simp only [le16, leNat]
  show n % 256 + 256 * (n / 256 % 256 + 256 * 0) = n
  omega

theorem leNat_le32 (n : Nat) (h : n < 2 ^ 32) : leNat (le32 n) = n := by
  simp only [le32, leNat]
  show n % 256 + 256 * (n / 256 % 256 + 256 * (n / 65536 % 256 +
    256 * (n / 16777216 % 256 + 256 * 0))) = n
  omega

theorem le16_length (n : Nat) : (le16 n).length = 2 := rfl

theorem le32_length (n : Nat) : (le32 n).length = 4 := rfl

/-! ## The chunk loop -/

theorem chunkBody_ok {s s1 : ScanState} (h : chunkBody s = .ok s1) :
    s1.ofs = s.ofs + (leNat ((s.f.data.drop (s.f.pos + 4)).take 4) : Int) + 8 ∧
      s1.f.data = s.f.data ∧
      (s1.fmtSize ≠ s.fmtSize ∨ s1.w.Channels ≠ s.w.Channels ∨
          s1.w.BytesPerSample ≠ s.w.BytesPerSample →
        (s.f.data.drop s.f.pos).take 4 = tagFmt) ∧
      ((s.f.data.drop s.f.pos).take 4 = tagFmt →
        fmtValid (fmtFields s.f.data s.f.pos) ∧
        s1.w.Channels = (fmtFields s.f.data s.f.pos).2.1 ∧
        s1.w.BytesPerSample = (fmtFields s.f.data s.f.pos).2.2.2 / 8) := by
  unfold chunkBody at h
  split at h
  · cases h
  rename_i buf g1 h1
  obtain ⟨e1, n1, p1⟩ := Read_ok h1
  split at h
  · cases h
  rename_i size g2 h2
  obtain ⟨e2, l2, p2⟩ := readU32_ok h2
  have hlen : buf.length = 4 := by
    subst p1
    simp only at l2
    rw [List.length_take, List.length_drop] at l2
    have hb : buf.length = min 4 (s.f.data.length - s.f.pos) := by
      rw [e1, List.length_take, List.length_drop]
    omega
  subst p1
  rw [hlen] at e2 p2
  simp only at e2 p2
  subst p2
  simp only at h
  split at h
  · cases h
  rename_i s2 hr
  injection h with h
  subst h
  simp only
  split at hr
  · -- format chunk
    rename_i hfmt
    split at hr
    · cases hr
    rename_i w1 f3 hf
    obtain ⟨hv, hw, hp⟩ := readFmt_ok hf
    injection hr with hr
    subst hr hw
    simp only [Nat.add_assoc, Nat.reduceAdd] at hv
    refine ⟨by rw [e2], ?_, fun _ => e1 ▸ hfmt, fun _ => ⟨hv, rfl, rfl⟩⟩
    unfold File.Seek; split <;> simp [hp]
  · rename_i hnf
    split at hr
    · -- data chunk
      split at hr
      · cases hr
      rename_i w1 f3 hd
      unfold readData at hd
      split at hd
      · cases hd
      rename_i bs f4 hrf
      obtain ⟨_, _, hp⟩ := ReadFull_ok hrf
      injection hd with hd
      injection hd with hw hf
      injection hr with hr
      subst hr hw hf
      refine ⟨by rw [e2], ?_, ?_, fun hc => absurd (e1 ▸ hc) hnf⟩
      · unfold File.Seek; split <;> simp [hp]
      · intro hc; simp at hc
    · injection hr with hr
      subst hr
      refine ⟨by rw [e2], ?_, ?_, fun hc => absurd (e1 ▸ hc) hnf⟩
      · unfold File.Seek; split <;> simp
      · intro hc; simp at hc

theorem scanChunks_done (riffend : Int) (n : Nat) (s : ScanState)
    (h : ¬ scanGuard riffend s) : scanChunks riffend n s = .ok s := by
  cases n with
  | zero => rfl
  | succ n => simp only [scanChunks, h, if_false]

theorem scanChunks_succ_ok (riffend : Int) (n : Nat) {s s1 : ScanState}
    (hg : scanGuard riffend s) (hb : chunkBody s = .ok s1) :
    scanChunks riffend (n + 1) s = scanChunks riffend n s1 := by
  simp only [scanChunks, hg, if_true, hb]

theorem scanChunks_succ_error (riffend : Int) (n : Nat) {s : ScanState} {e : Error}
    (hg : scanGuard riffend s) (hb : chunkBody s = .error e) :
    scanChunks riffend (n + 1) s = .error e := by
  simp only [scanChunks, hg, if_true, hb]

/-- The fuel `ReadWave` gives its chunk loop is enough: any larger amount gives the
same result, so the loop never stops for lack of fuel. -/
theorem scanChunks_fuel (riffend : Int) :
    ∀ (n : Nat) (s : ScanState), (riffend - s.ofs).toNat ≤ n →
      scanChunks riffend n s = scanChunks riffend (riffend - s.ofs).toNat s := by
  intro n
  induction n using Nat.strong_induction_on with
  | _ n ih =>
    intro s hn
    by_cases hg : scanGuard riffend s
    · have hlt : s.ofs < riffend := hg.2
      obtain ⟨k, hk⟩ : ∃ k, (riffend - s.ofs).toNat = k + 1 :=
        ⟨(riffend - s.ofs).toNat - 1, by omega⟩
      obtain ⟨m, hm⟩ : ∃ m, n = m + 1 := ⟨n - 1, by omega⟩
      subst hm
      rw [hk]
      cases hb : chunkBody s with
      | error e => rw [scanChunks_succ_error riffend m hg hb, scanChunks_succ_error riffend k hg hb]
      | ok s1 =>
        rw [scanChunks_succ_ok riffend m hg hb, scanChunks_succ_ok riffend k hg hb]
        have ho := (chunkBody_ok hb).1
        have h1 : (riffend - s1.ofs).toNat ≤ k := by omega
        rw [ih m (by omega) s1 (by omega), ih k (by omega) s1 h1]
    · rw [scanChunks_done riffend n s hg, scanChunks_done riffend _ s hg]

/-- One iteration of the chunk loop, with the fuel `ReadWave` uses. -/
theorem scanChunks_step (riffend : Int) {s s1 : ScanState}
    (hg : scanGuard riffend s) (hb : chunkBody s = .ok s1) :
    scanChunks riffend (riffend - s.ofs).toNat s =
      scanChunks riffend (riffend - s1.ofs).toNat s1 := by
  have hlt : s.ofs < riffend := hg.2
  obtain ⟨k, hk⟩ : ∃ k, (riffend - s.ofs).toNat = k + 1 :=
    ⟨(riffend - s.ofs).toNat - 1, by omega⟩
  have ho := (chunkBody_ok hb).1
  rw [hk, scanChunks_succ_ok riffend k hg hb]
  exact scanChunks_fuel riffend k s1 (by omega)

theorem scanChunks_of_reaches (riffend : Int) {s t : ScanState} {e : Error}
    (hr : ScanReaches riffend s t) (hg : scanGuard riffend t) (hb : chunkBody t = .error e) :
    scanChunks riffend (riffend - s.ofs).toNat s = .error e := by
  induction hr with
  | here s =>
    have hlt : s.ofs < riffend := hg.2
    obtain ⟨k, hk⟩ : ∃ k, (riffend - s.ofs).toNat = k + 1 :=
      ⟨(riffend - s.ofs).toNat - 1, by omega⟩
    rw [hk, scanChunks_succ_error riffend k hg hb]
  | next hg1 hb1 _ ih => rw [scanChunks_step riffend hg1 hb1, ih hg hb]

theorem chunkBody_fmtSeen {s s1 : ScanState} (h : chunkBody s = .ok s1) (hs : fmtSeen s) :
    fmtSeen s1 := by
  obtain ⟨_, _, hne, hfmt⟩ := chunkBody_ok h
  by_cases ht : (s.f.data.drop s.f.pos).take 4 = tagFmt
  · obtain ⟨hv, hc, hb⟩ := hfmt ht
    obtain ⟨_, hv2, _, hv4⟩ := hv
    intro _
    refine ⟨hc ▸ hv2, ?_⟩
    rw [hb]
    rcases hv4 with h8 | h16
    · left; rw [h8]
    · right; rw [h16]
  · have h3 : ¬ (s1.fmtSize ≠ s.fmtSize ∨ s1.w.Channels ≠ s.w.Channels ∨
        s1.w.BytesPerSample ≠ s.w.BytesPerSample) := fun hc => ht (hne hc)
    simp only [not_or, not_not] at h3
    obtain ⟨h31, h32, h33⟩ := h3
    intro hz
    rw [h32, h33]
    exact hs (h31 ▸ hz)

theorem scanChunks_fmtSeen (riffend : Int) :
    ∀ (n : Nat) (s t : ScanState), fmtSeen s → scanChunks riffend n s = .ok t → fmtSeen t := by
  intro n
  induction n with
  | zero =>
    intro s t hs h
    injection h with h
    exact h ▸ hs
  | succ n ih =>
    intro s t hs h
    by_cases hg : scanGuard riffend s
    · cases hb : chunkBody s with
      | error e => rw [scanChunks_succ_error riffend n hg hb] at h; cases h
      | ok s1 =>
        rw [scanChunks_succ_ok riffend n hg hb] at h
        exact ih s1 t (chunkBody_fmtSeen hb hs) h
    · rw [scanChunks_done riffend _ s hg] at h
      injection h with h
      exact h ▸ hs

/-- After the three header reads, `ReadWave` is its chunk loop followed by the final
test on `fmtSize` and `dataSize`. -/
theorem ReadWave_of_startsWave (f : File) (ofs : Int) (h : startsWave f) :
    ReadWave f ofs =
      match scanChunks (riffEnd f ofs) (riffEnd f ofs - (ofs + 28)).toNat (scanInit f ofs) with
      | .error e => .error e
      | .ok s =>
        if s.fmtSize = 0 then
          if s.dataSize > 0 then .error Error.NoFmt else .ok none
        else .ok (some s.w) := by
  obtain ⟨h1, h2, h3⟩ := h
  have r1 : f.Read 4 = .ok (tagRIFF, { f with pos := f.pos + 4 }) := by
    rw [Read_eq h1 (by decide)]; rfl
  have r2 : readU32 { f with pos := f.pos + 4 } =
      .ok (leNat ((f.data.drop (f.pos + 4)).take 4), { f with pos := f.pos + 8 }) := by
    unfold readU32
    rw [ReadFull_eq (f := { f with pos := f.pos + 4 }) rfl h2]
  have r3 : File.Read { f with pos := f.pos + 8 } 4 =
      .ok (tagWAVE, { f with pos := f.pos + 12 }) := by
    rw [Read_eq (f := { f with pos := f.pos + 8 }) h3 (by decide)]; rfl
  unfold ReadWave
  rw [r1]
  simp only [ne_eq, not_true_eq_false, if_false, r2, r3]
  rfl

/-! ## Reading a stream whose next bytes are known -/

theorem drop_add_of_drop {data bs rest : List UInt8} {p : Nat}
    (h : data.drop p = bs ++ rest) : data.drop (p + bs.length) = rest := by
  rw [← List.drop_drop, h, List.drop_left]

theorem take_of_drop {data bs rest : List UInt8} {p : Nat}
    (h : data.drop p = bs ++ rest) : (data.drop p).take bs.length = bs := by
  rw [h, List.take_left]

theorem ReadFull_next {f : File} {bs rest : List UInt8} (h : f.data.drop f.pos = bs ++ rest) :
    f.ReadFull bs.length = .ok (bs, { f with pos := f.pos + bs.length }) :=
  ReadFull_eq (take_of_drop h) rfl

theorem Read_next {f : File} {bs rest : List UInt8} (h : f.data.drop f.pos = bs ++ rest)
    (hlen : bs.length = 4) : f.Read 4 = .ok (bs, { f with pos := f.pos + 4 }) := by
  have ht := take_of_drop h
  rw [hlen] at ht
  have hne : bs ≠ [] := by
    intro hc
    rw [hc] at hlen
    cases hlen
  rw [Read_eq ht hne, hlen]

theorem readU32_next {f : File} {bs rest : List UInt8} (h : f.data.drop f.pos = bs ++ rest)
    (hlen : bs.length = 4) : readU32 f = .ok (leNat bs, { f with pos := f.pos + 4 }) := by
  have hr := ReadFull_next h
  rw [hlen] at hr
  unfold readU32
  rw [hr]

theorem readU16_next {f : File} {bs rest : List UInt8} (h : f.data.drop f.pos = bs ++ rest)
    (hlen : bs.length = 2) : readU16 f = .ok (leNat bs, { f with pos := f.pos + 2 }) := by
  have hr := ReadFull_next h
  rw [hlen] at hr
  unfold readU16
  rw [hr]

theorem readFmt_next {f : File} {w : Wave} {c r x y b : Nat} {rest : List UInt8}
    (h : f.data.drop f.pos =
      le16 1 ++ (le16 c ++ (le32 r ++ (le32 x ++ (le16 y ++ (le16 b ++ rest))))))
    (hr : 1 ≤ r ∧ r < 0xfffff) (hc : c = 1 ∨ c = 2) (hb : b = 8 ∨ b = 16) :
    readFmt f w = .ok ({ w with Channels := c, SamplesPerSec := r, BytesPerSample := b / 8 },
      { f with pos := f.pos + 16 }) := by
  have h1 := readU16_next h rfl
  have d1 := drop_add_of_drop h
  have h2 := readU16_next (f := { f with pos := f.pos + 2 }) d1 rfl
  have d2 := drop_add_of_drop d1
  have h3 := readU32_next (f := { f with pos := f.pos + 2 + 2 }) d2 rfl
  have d3 := drop_add_of_drop d2
  have h4 := readU32_next (f := { f with pos := f.pos + 2 + 2 + 4 }) d3 rfl
  have d4 := drop_add_of_drop d3
  have h5 := readU16_next (f := { f with pos := f.pos + 2 + 2 + 4 + 4 }) d4 rfl
  have d5 := drop_add_of_drop d4
  have h6 := readU16_next (f := { f with pos := f.pos + 2 + 2 + 4 + 4 + 2 }) d5 rfl
  have e1 : leNat (le16 1) = 1 := rfl
  have e2 : leNat (le16 c) = c := leNat_le16 c (by omega)
  have e3 : leNat (le32 r) = r := leNat_le32 r (by omega)
  have e6 : leNat (le16 b) = b := leNat_le16 b (by omega)
  rw [e1] at h1
  rw [e2] at h2
  rw [e3] at h3
  rw [e6] at h6
  unfold readFmt
  rw [h1]
  simp only [ne_eq, not_true_eq_false, if_false]
  rw [h2]
  have c2 : ¬ (c < 1 ∨ c > 2) := by omega
  simp only [c2, if_false]
  rw [h3]
  have c3 : ¬ (r < 1 ∨ r ≥ 0xfffff) := by omega
  simp only [c3, if_false]
  rw [h4]
  simp only
  rw [h5]
  simp only
  rw [h6]
  have c6 : ¬ (b ≠ 8 ∧ b ≠ 16) := by omega
  simp only [c6, if_false]

theorem Seek_nonneg (f : File) (ofs : Int) (h : 0 ≤ ofs) :
    f.Seek ofs = { f with pos := ofs.toNat } := by
  unfold File.Seek
  simp only [h, if_true]

theorem chunkBody_fmt_next {s : ScanState} {size c r x y b : Nat} {rest : List UInt8}
    (h : s.f.data.drop s.f.pos = tagFmt ++ (le32 size ++
      (le16 1 ++ (le16 c ++ (le32 r ++ (le32 x ++ (le16 y ++ (le16 b ++ rest))))))))
    (hsize : size < 2 ^ 32) (hr : 1 ≤ r ∧ r < 0xfffff) (hc : c = 1 ∨ c = 2)
    (hb : b = 8 ∨ b = 16) :
    chunkBody s = .ok
      { f := File.Seek { s.f with pos := s.f.pos + 24 } (s.ofs + (size : Int) + 8),
        ofs := s.ofs + (size : Int) + 8, fmtSize := size, dataSize := s.dataSize,
        w := { s.w with Channels := c, SamplesPerSec := r, BytesPerSample := b / 8 } } := by
  have h1 := Read_next h rfl
  have d1 := drop_add_of_drop h
  have h2 := readU32_next (f := { s.f with pos := s.f.pos + 4 }) d1 rfl
  rw [leNat_le32 size hsize] at h2
  have d2 := drop_add_of_drop d1
  have h3 := readFmt_next (f := { s.f with pos := s.f.pos + 4 + 4 }) (w := s.w) d2 hr hc hb
  unfold chunkBody
  rw [h1]
  simp only
  rw [h2]
  simp only [if_true]
  rw [h3]

theorem chunkBody_other_next {s : ScanState} {tag p rest : List UInt8}
    (h : s.f.data.drop s.f.pos = tag ++ (le32 p.length ++ (p ++ rest)))
    (htag : tag.length = 4) (hne : tag ≠ tagFmt) (hp : p.length < 2 ^ 32) :
    chunkBody s = .ok
      { f := File.Seek
          { s.f with pos := if tag = tagData then s.f.pos + 8 + p.length else s.f.pos + 8 }
          (s.ofs + (p.length : Int) + 8),
        ofs := s.ofs + (p.length : Int) + 8, fmtSize := s.fmtSize,
        dataSize := if tag = tagData then p.length else s.dataSize,
        w := if tag = tagData then { s.w with Wav := p } else s.w } := by
  have h1 := Read_next h htag
  have d1 := drop_add_of_drop h
  rw [htag] at d1
  have h2 := readU32_next (f := { s.f with pos := s.f.pos + 4 }) d1 rfl
  rw [leNat_le32 p.length hp] at h2
  have d2 := drop_add_of_drop d1
  have h3 := ReadFull_next (f := { s.f with pos := s.f.pos + 4 + 4 }) d2
  unfold chunkBody
  rw [h1]
  simp only
  rw [h2]
  simp only [hne, if_false]
  by_cases hd : tag = tagData
  · simp only [hd, if_true, readData]
    rw [h3]
  · simp only [hd, if_false]

/-! ## C1: format validation -/

/-- C1. An asset returned by `ReadWave` without error has `Channels` in {1,2} and
`BytesPerSample` in {1,2}; and whenever the chunk loop arrives at a chunk tagged `fmt `
whose declared codec id is not 1, whose channel count is not 1 or 2, whose sample rate
is outside `[1, 0xfffff)` or whose bit depth is not 8 or 16, `ReadWave` returns an
error (and so no asset). -/
theorem C1_ReadWave_validates_format (f : File) (ofs : Int) :
    (∀ w, ReadWave f ofs = .ok (some w) →
        (w.Channels = 1 ∨ w.Channels = 2) ∧ (w.BytesPerSample = 1 ∨ w.BytesPerSample = 2)) ∧
    (∀ t, startsWave f → ScanReaches (riffEnd f ofs) (scanInit f ofs) t →
        scanGuard (riffEnd f ofs) t → (t.f.data.drop t.f.pos).take 4 = tagFmt →
        ¬ fmtValid (fmtFields t.f.data t.f.pos) → ∃ e, ReadWave f ofs = .error e) := by
  constructor
  · intro w h
    unfold ReadWave at h
    split at h
    · cases h
    split at h
    · cases h
    split at h
    · cases h
    split at h
    · cases h
    split at h
    · injection h with h
      injection h with h
      subst h
      exact ⟨Or.inl rfl, Or.inl rfl⟩
    · simp only at h
      split at h
      · cases h
      rename_i s hs
      have hinv : fmtSeen s := scanChunks_fmtSeen _ _ _ s (fun hc => absurd rfl hc) hs
      split at h
      · split at h <;> cases h
      · rename_i hz
        injection h with h
        injection h with h
        subst h
        exact hinv hz
  · intro t hsw hr hg htag hbad
    cases hb : chunkBody t with
    | ok t1 => exact absurd ((chunkBody_ok hb).2.2.2 htag).1 hbad
    | error e =>
      refine ⟨e, ?_⟩
      rw [ReadWave_of_startsWave f ofs hsw]
      have hs := scanChunks_of_reaches (riffEnd f ofs) hr hg hb
      simp only [scanInit] at hs
      simp only [scanInit, hs]

/-- C1 at concrete inputs: the canonical 8-bit mono container decodes to an asset with
one channel and one byte per sample, and a container whose format chunk declares
codec id 2 is refused. -/
theorem C1_ReadWave_validates_format_witness :
    (ReadWave ⟨List.replicate 16 0 ++ canonicalWave 11025 1 8 [64, 192, 0, 255], 16⟩ 0 =
        .ok (some ⟨11025, 1, 1, [64, 192, 0, 255]⟩) ∧
      ((1 = 1 ∨ 1 = 2) ∧ (1 = 1 ∨ 1 = 2))) ∧
    (startsWave badCodecFile ∧ (fmtFields badCodecFile.data 76).1 = 2 ∧
      ∃ e, ReadWave badCodecFile 48 = .error e) :=
  ⟨⟨by decide, (C1_ReadWave_validates_format
      ⟨List.replicate 16 0 ++ canonicalWave 11025 1 8 [64, 192, 0, 255], 16⟩ 0).1
      ⟨11025, 1, 1, [64, 192, 0, 255]⟩ (by decide)⟩,
   by decide, by decide,
   (C1_ReadWave_validates_format badCodecFile 48).2 (scanInit badCodecFile 48) (by decide)
      (ScanReaches.here _) (by decide) (by decide) (by decide)⟩

/-! ## C2: round trip -/

theorem ReadWave_canonical {f : File} {r c b : Nat} {d suf : List UInt8}
    (h : f.data.drop f.pos = canonicalWave r c b d ++ suf)
    (hr : 1 ≤ r ∧ r < 0xfffff) (hc : c = 1 ∨ c = 2) (hb : b = 8 ∨ b = 16)
    (hd : d.length < 2 ^ 32 - 44) :
    ReadWave f ((f.pos : Int) - 16) =
      .ok (some { SamplesPerSec := r, Channels := c, BytesPerSample := b / 8, Wav := d }) := by
  have h0 : f.data.drop f.pos = tagRIFF ++ (le32 (36 + d.length) ++ (tagWAVE ++
      (tagFmt ++ (le32 16 ++ (le16 1 ++ (le16 c ++ (le32 r ++ (le32 (r * c * (b / 8)) ++
      (le16 (c * (b / 8)) ++ (le16 b ++ (tagData ++ (le32 d.length ++ (d ++ suf))))))))))))) := by
    rw [h]
    simp only [canonicalWave, List.append_assoc]
  have d1 : f.data.drop (f.pos + 4) = _ := drop_add_of_drop h0
  have d2 : f.data.drop (f.pos + 8) = _ := drop_add_of_drop d1
  have d3 : f.data.drop (f.pos + 12) = _ := drop_add_of_drop d2
  have t1 : (f.data.drop (f.pos + 4)).take 4 = le32 (36 + d.length) := take_of_drop d1
  have hsw : startsWave f := by
    refine ⟨take_of_drop h0, ?_, take_of_drop d2⟩
    rw [t1]; rfl
  have hend : riffEnd f ((f.pos : Int) - 16) = (f.pos : Int) + 44 + d.length := by
    unfold riffEnd
    rw [t1, leNat_le32 _ (by omega), Nat.mod_eq_of_lt (by omega)]
    push_cast
    omega
  rw [ReadWave_of_startsWave f _ hsw, hend]
  -- first iteration: the format chunk
  have g1 : scanGuard ((f.pos : Int) + 44 + d.length) (scanInit f ((f.pos : Int) - 16)) := by
    refine ⟨Or.inl rfl, ?_⟩
    show (f.pos : Int) - 16 + 28 < _
    omega
  have b1 := chunkBody_fmt_next (s := scanInit f ((f.pos : Int) - 16)) d3
    (by decide) hr hc hb
  have hs := scanChunks_step _ g1 b1
  simp only [scanInit] at hs
  simp only [scanInit]
  rw [hs]
  clear hs g1 b1
  rw [Seek_nonneg _ _ (by omega)]
  have e1 : ((f.pos : Int) - 16 + 28 + ((16 : Nat) : Int) + 8).toNat = f.pos + 36 := by omega
  have e2 : (f.pos : Int) - 16 + 28 + ((16 : Nat) : Int) + 8 = (f.pos : Int) + 36 := by omega
  rw [e1, e2]
  -- second iteration: the data chunk
  have d4 : f.data.drop (f.pos + 36) = tagData ++ (le32 d.length ++ (d ++ suf)) :=
    drop_add_of_drop (drop_add_of_drop (drop_add_of_drop (drop_add_of_drop
      (drop_add_of_drop (drop_add_of_drop (drop_add_of_drop (drop_add_of_drop d3)))))))
  have g2 : scanGuard ((f.pos : Int) + 44 + d.length)
      { f := { data := f.data, pos := f.pos + 36 }, ofs := (f.pos : Int) + 36,
        fmtSize := 16, dataSize := 0,
        w := { SamplesPerSec := r, Channels := c, BytesPerSample := b / 8,
               Wav := Wave.zero.Wav } } := by
    refine ⟨Or.inr rfl, ?_⟩
    show (f.pos : Int) + 36 < _
    omega
  have b2 := chunkBody_other_next (s :=
      { f := { data := f.data, pos := f.pos + 36 }, ofs := (f.pos : Int) + 36,
        fmtSize := 16, dataSize := 0,
        w := { SamplesPerSec := r, Channels := c, BytesPerSample := b / 8,
               Wav := Wave.zero.Wav } }) d4 rfl (by decide) (by omega)
  have hs := scanChunks_step _ g2 b2
  simp only [if_true] at hs
  have e3 : (f.pos : Int) + 44 + d.length - ((f.pos : Int) + 36 + d.length + 8) = 0 := by omega
  rw [e3] at hs
  simp only [Int.toNat_zero, scanChunks] at hs
  simp only [hs]
  rfl

/-- C2. Round trip: for a sample rate `r` in `[1, 0xfffff)`, `c` in {1,2} channels, a
bit depth `b` in {8,16} and a payload `d` shorter than `2 ^ 32 - 44` bytes, `ReadWave`
applied to the canonical container built from them (wherever it lies in the stream,
with `ofs` sixteen bytes before it as in `LoadSnd`) returns, without error, the asset
with `SamplesPerSec = r`, `Channels = c`, `BytesPerSample = b / 8` and `Wav = d`. -/
theorem C2_ReadWave_roundtrip (pre suf d : List UInt8) (r c b : Nat)
    (hr : 1 ≤ r ∧ r < 0xfffff) (hc : c = 1 ∨ c = 2) (hb : b = 8 ∨ b = 16)
    (hd : d.length < 2 ^ 32 - 44) :
    ReadWave ⟨pre ++ canonicalWave r c b d ++ suf, pre.length⟩ ((pre.length : Int) - 16) =
      .ok (some { SamplesPerSec := r, Channels := c, BytesPerSample := b / 8, Wav := d }) := by
  have h : (pre ++ canonicalWave r c b d ++ suf).drop pre.length =
      canonicalWave r c b d ++ suf := by
    rw [List.append_assoc, List.drop_left]
  exact ReadWave_canonical (f := ⟨pre ++ canonicalWave r c b d ++ suf, pre.length⟩) h hr hc hb hd

/-- C2 at a concrete input: a 16-bit stereo container at 44100 Hz with a five-byte
payload, read from the start of a stream (`ofs = -16`). -/
theorem C2_ReadWave_roundtrip_witness :
    ReadWave ⟨[] ++ canonicalWave 44100 2 16 [1, 2, 3, 4, 5] ++ [9, 9], 0⟩ (-16) =
      .ok (some { SamplesPerSec := 44100, Channels := 2, BytesPerSample := 2,
                  Wav := [1, 2, 3, 4, 5] }) :=
  C2_ReadWave_roundtrip [] [9, 9] [1, 2, 3, 4, 5] 44100 2 16 (by decide) (by decide)
    (by decide) (by decide)

/-! ## C3: the length of the PCM buffer -/

theorem leNat_lt (bs : List UInt8) : leNat bs < 256 ^ bs.length := by
  induction bs with
  | nil => simp [leNat]
  | cons b bs ih =>
    have hb := byte_lt b
    simp only [leNat, List.length_cons, pow_succ]
    omega

theorem leNat_take4_lt (l : List UInt8) : leNat (l.take 4) < 2 ^ 32 := by
  have h := leNat_lt (l.take 4)
  have hl : (l.take 4).length ≤ 4 := by rw [List.length_take]; omega
  calc leNat (l.take 4) < 256 ^ (l.take 4).length := h
    _ ≤ 256 ^ 4 := Nat.pow_le_pow_right (by decide) hl
    _ = 2 ^ 32 := by norm_num

theorem chunkBody_wavCopied {s s1 : ScanState} (h : chunkBody s = .ok s1) (hs : wavCopied s) :
    wavCopied s1 := by
  have hdata := (chunkBody_ok h).2.1
  unfold chunkBody at h
  split at h
  · cases h
  rename_i buf g1 h1
  split at h
  · cases h
  rename_i size g2 h2
  obtain ⟨e2, _, p2⟩ := readU32_ok h2
  simp only at h
  split at h
  · cases h
  rename_i s2 hr
  injection h with h
  subst h
  have hf2 : g2.data = s.f.data := by rw [p2, (Read_ok h1).2.2]
  simp only at hdata
  unfold wavCopied
  simp only
  rw [hdata]
  split at hr
  · split at hr
    · cases hr
    rename_i w1 f3 hf
    obtain ⟨_, hw, _⟩ := readFmt_ok hf
    injection hr with hr
    subst hr hw
    exact hs
  · split at hr
    · split at hr
      · cases hr
      rename_i w1 f3 hd
      unfold readData at hd
      split at hd
      · cases hd
      rename_i bs f4 hrf
      obtain ⟨hbs, hlen, _⟩ := ReadFull_ok hrf
      injection hd with hd
      injection hd with hw hf
      injection hr with hr
      subst hr hw
      simp only
      refine ⟨hlen, ?_, ?_⟩
      · rw [e2]; exact leNat_take4_lt _
      · rw [hbs, ← hf2]
        subst p2
        exact (List.take_prefix _ _).isInfix.trans (List.drop_suffix _ _).isInfix
    · injection hr with hr
      subst hr
      exact hs

theorem scanChunks_wavCopied (riffend : Int) :
    ∀ (n : Nat) (s t : ScanState), wavCopied s → scanChunks riffend n s = .ok t →
      wavCopied t := by
  intro n
  induction n with
  | zero =>
    intro s t hs h
    injection h with h
    exact h ▸ hs
  | succ n ih =>
    intro s t hs h
    by_cases hg : scanGuard riffend s
    · cases hb : chunkBody s with
      | error e => rw [scanChunks_succ_error riffend n hg hb] at h; cases h
      | ok s1 =>
        rw [scanChunks_succ_ok riffend n hg hb] at h
        exact ih s1 t (chunkBody_wavCopied hb hs) h
    · rw [scanChunks_done riffend _ s hg] at h
      injection h with h
      exact h ▸ hs

theorem scanChunks_data (riffend : Int) :
    ∀ (n : Nat) (s t : ScanState), scanChunks riffend n s = .ok t → t.f.data = s.f.data := by
  intro n
  induction n with
  | zero =>
    intro s t h
    injection h with h
    rw [h]
  | succ n ih =>
    intro s t h
    by_cases hg : scanGuard riffend s
    · cases hb : chunkBody s with
      | error e => rw [scanChunks_succ_error riffend n hg hb] at h; cases h
      | ok s1 =>
        rw [scanChunks_succ_ok riffend n hg hb] at h
        rw [ih s1 t h, (chunkBody_ok hb).2.1]
    · rw [scanChunks_done riffend _ s hg] at h
      injection h with h
      rw [h]

/-- C3, counterexample. A 16-bit stereo container (four bytes per sample frame) whose
data chunk holds three bytes is decoded without error, and the returned buffer has
three bytes: its length is not a multiple of `Channels * BytesPerSample`. -/
theorem C3_counterexample :
    ReadWave ⟨List.replicate 16 0 ++ canonicalWave 8000 2 16 [1, 2, 3], 16⟩ 0 =
        .ok (some { SamplesPerSec := 8000, Channels := 2, BytesPerSample := 2,
                    Wav := [1, 2, 3] }) ∧
      ¬ (2 * 2 ∣ ([1, 2, 3] : List UInt8).length) := by
  decide

/-- C3, amended. The buffer of an asset returned by `ReadWave` is a contiguous stretch
of the stream of fewer than `2 ^ 32` bytes; and the canonical container is accepted for
every payload `d`, whether or not its length is a multiple of
`Channels * BytesPerSample`, the returned buffer having exactly `d.length` bytes. -/
theorem C3_ReadWave_keeps_declared_length :
    (∀ (f : File) (ofs : Int) (w : Wave), ReadWave f ofs = .ok (some w) →
        w.Wav.length < 2 ^ 32 ∧ w.Wav <:+: f.data) ∧
    (∀ (pre suf d : List UInt8) (r c b : Nat), 1 ≤ r ∧ r < 0xfffff → c = 1 ∨ c = 2 →
        b = 8 ∨ b = 16 → d.length < 2 ^ 32 - 44 →
        ∃ w, ReadWave ⟨pre ++ canonicalWave r c b d ++ suf, pre.length⟩
            ((pre.length : Int) - 16) = .ok (some w) ∧
          w.Channels = c ∧ w.BytesPerSample = b / 8 ∧ w.Wav.length = d.length) := by
  constructor
  · intro f ofs w h
    unfold ReadWave at h
    split at h
    · cases h
    rename_i buf f1 h1
    split at h
    · cases h
    split at h
    · cases h
    rename_i sz f2 h2
    split at h
    · cases h
    rename_i buf2 f3 h3
    split at h
    · injection h with h
      injection h with h
      subst h
      exact ⟨by simp, List.nil_infix⟩
    · simp only at h
      split at h
      · cases h
      rename_i s hs
      have hf3 : f3.data = f.data := by
        rw [(Read_ok h3).2.2, (readU32_ok h2).2.2, (Read_ok h1).2.2]
      have hinit : wavCopied ⟨f3, ofs + 28, 0, 0, Wave.zero⟩ :=
        ⟨rfl, by norm_num, List.nil_infix⟩
      have hinv := scanChunks_wavCopied _ _ _ s hinit hs
      have hdat := scanChunks_data _ _ _ s hs
      simp only at hdat
      split at h
      · split at h <;> cases h
      · injection h with h
        injection h with h
        subst h
        obtain ⟨a, b, c⟩ := hinv
        exact ⟨a ▸ b, hf3 ▸ hdat ▸ c⟩
  · intro pre suf d r c b hr hc hb hd
    have h : (pre ++ canonicalWave r c b d ++ suf).drop pre.length =
        canonicalWave r c b d ++ suf := by
      rw [List.append_assoc, List.drop_left]
    exact ⟨_, ReadWave_canonical (f := ⟨pre ++ canonicalWave r c b d ++ suf, pre.length⟩)
      h hr hc hb hd, rfl, rfl, rfl⟩

/-- C3, amended, at concrete inputs. -/
theorem C3_ReadWave_keeps_declared_length_witness :
    (([1, 2, 3] : List UInt8).length < 2 ^ 32 ∧
      ([1, 2, 3] : List UInt8) <:+: List.replicate 16 0 ++ canonicalWave 8000 2 16 [1, 2, 3]) ∧
    ∃ w, ReadWave ⟨[] ++ canonicalWave 8000 2 16 [1, 2, 3] ++ [], 0⟩ (-16) = .ok (some w) ∧
      w.Channels = 2 ∧ w.BytesPerSample = 2 ∧ w.Wav.length = 3 :=
  ⟨C3_ReadWave_keeps_declared_length.1
      ⟨List.replicate 16 0 ++ canonicalWave 8000 2 16 [1, 2, 3], 16⟩ 0
      ⟨8000, 2, 2, [1, 2, 3]⟩ (by decide),
   C3_ReadWave_keeps_declared_length.2 [] [] [1, 2, 3] 8000 2 16 (by decide) (by decide)
      (by decide) (by decide)⟩

/-! ## C4: the two magic tags -/

/-- C4. On a stream whose first four bytes are not the RIFF tag (shorter streams
included) `ReadWave` returns an error; on a stream that starts with the RIFF tag and
four size bytes and goes on with bytes that are not the WAVE tag, it returns without
error the default asset: 11025 Hz, one channel, one byte per sample, empty buffer. -/
theorem C4_ReadWave_magic (f : File) (ofs : Int) :
    ((f.data.drop f.pos).take 4 ≠ tagRIFF → ∃ e, ReadWave f ofs = .error e) ∧
    ((f.data.drop f.pos).take 4 = tagRIFF →
      ((f.data.drop (f.pos + 4)).take 4).length = 4 →
      (f.data.drop (f.pos + 8)).take 4 ≠ [] →
      (f.data.drop (f.pos + 8)).take 4 ≠ tagWAVE →
      ReadWave f ofs = .ok (some { SamplesPerSec := 11025, Channels := 1,
                                   BytesPerSample := 1, Wav := [] })) := by
  constructor
  · intro h
    unfold ReadWave
    cases h1 : f.Read 4 with
    | error e => exact ⟨e, rfl⟩
    | ok r =>
      obtain ⟨buf, f1⟩ := r
      have hb := (Read_ok h1).1
      have hne : buf ≠ tagRIFF := hb ▸ h
      exact ⟨Error.NotRIFF, by simp only [hne, ne_eq, not_false_eq_true, if_true]⟩
  · intro h1 h2 h3 h4
    have r1 : f.Read 4 = .ok (tagRIFF, { f with pos := f.pos + 4 }) := by
      rw [Read_eq h1 (by decide)]; rfl
    have r2 : readU32 { f with pos := f.pos + 4 } =
        .ok (leNat ((f.data.drop (f.pos + 4)).take 4), { f with pos := f.pos + 8 }) := by
      unfold readU32
      rw [ReadFull_eq (f := { f with pos := f.pos + 4 }) rfl h2]
    have r3 := Read_eq (f := { f with pos := f.pos + 8 }) rfl h3
    unfold ReadWave
    rw [r1]
    simp only [ne_eq, not_true_eq_false, if_false, r2]
    rw [r3]
    simp only [ne_eq, h4, not_false_eq_true, if_true]

/-- C4 at concrete inputs: a stream starting with `RIFX` is refused, and a stream
holding the RIFF tag, a size and the tag `WAVX` yields the default asset. -/
theorem C4_ReadWave_magic_witness :
    (∃ e, ReadWave ⟨[0x52, 0x49, 0x46, 0x58, 0, 0, 0, 0], 0⟩ 0 = .error e) ∧
    ReadWave ⟨tagRIFF ++ le32 4 ++ [0x57, 0x41, 0x56, 0x58], 0⟩ 0 =
      .ok (some { SamplesPerSec := 11025, Channels := 1, BytesPerSample := 1, Wav := [] }) :=
  ⟨(C4_ReadWave_magic ⟨[0x52, 0x49, 0x46, 0x58, 0, 0, 0, 0], 0⟩ 0).1 (by decide),
   (C4_ReadWave_magic ⟨tagRIFF ++ le32 4 ++ [0x57, 0x41, 0x56, 0x58], 0⟩ 0).2 (by decide)
      (by decide) (by decide) (by decide)⟩

/-! ## C5: containers without a format chunk -/

theorem chunksSize_eq_length (cs : List Chunk) (h : ∀ c ∈ cs, c.tag.length = 4) :
    (encodeChunks cs).length = chunksSize cs := by
  induction cs with
  | nil => rfl
  | cons c cs ih =>
    have hc := h c (List.mem_cons_self _ _)
    have ih1 := ih (fun x hx => h x (List.mem_cons_of_mem _ hx))
    simp only [encodeChunks, encodeChunk, chunksSize, List.length_append, le32_length, hc, ih1]
    omega

/-- The chunk loop over a run of chunks none of which is tagged `fmt `: it passes over
all of them and stops at `riffend` with `fmtSize` still 0 and `dataSize` the declared
size of the last data chunk. -/
theorem scanChunks_no_fmt (suf : List UInt8) :
    ∀ (cs : List Chunk) (s : ScanState),
      (∀ c ∈ cs, c.tag.length = 4 ∧ c.tag ≠ tagFmt ∧ c.payload.length < 2 ^ 32) →
      s.f.data.drop s.f.pos = encodeChunks cs ++ suf → s.ofs = (s.f.pos : Int) →
      s.fmtSize = 0 →
      ∃ t, scanChunks (s.ofs + chunksSize cs) (s.ofs + chunksSize cs - s.ofs).toNat s = .ok t ∧
        t.fmtSize = 0 ∧ t.dataSize = lastDataSize s.dataSize cs := by
  intro cs
  induction cs with
  | nil =>
    intro s _ _ _ hf
    refine ⟨s, ?_, hf, rfl⟩
    apply scanChunks_done
    intro hg
    have := hg.2
    simp only [chunksSize] at this
    omega
  | cons c cs ih =>
    intro s hwf hdrop hofs hf
    obtain ⟨htag, hne, hp⟩ := hwf c (List.mem_cons_self _ _)
    have hwf1 : ∀ x ∈ cs, x.tag.length = 4 ∧ x.tag ≠ tagFmt ∧ x.payload.length < 2 ^ 32 :=
      fun x hx => hwf x (List.mem_cons_of_mem _ hx)
    have hd0 : s.f.data.drop s.f.pos =
        c.tag ++ (le32 c.payload.length ++ (c.payload ++ (encodeChunks cs ++ suf))) := by
      rw [hdrop]
      simp only [encodeChunks, encodeChunk, List.append_assoc]
    have hg : scanGuard (s.ofs + chunksSize (c :: cs)) s := by
      refine ⟨Or.inl hf, ?_⟩
      simp only [chunksSize]
      omega
    have hb := chunkBody_other_next hd0 htag hne hp
    rw [Seek_nonneg _ _ (by omega)] at hb
    have hstep := scanChunks_step _ hg hb
    have hd1 := drop_add_of_drop (drop_add_of_drop (drop_add_of_drop hd0))
    rw [htag, le32_length] at hd1
    have hpos : (s.ofs + (c.payload.length : Int) + 8).toNat =
        s.f.pos + 4 + 4 + c.payload.length := by omega
    have hend : s.ofs + (chunksSize (c :: cs) : Int) =
        (s.ofs + (c.payload.length : Int) + 8) + (chunksSize cs : Int) := by
      simp only [chunksSize]
      push_cast
      omega
    obtain ⟨t, ht, htf, htd⟩ := ih
      { f := { data := s.f.data, pos := (s.ofs + (c.payload.length : Int) + 8).toNat },
        ofs := s.ofs + (c.payload.length : Int) + 8, fmtSize := s.fmtSize,
        dataSize := if c.tag = tagData then c.payload.length else s.dataSize,
        w := if c.tag = tagData then { s.w with Wav := c.payload } else s.w }
      hwf1 (by simp only [hpos]; exact hd1) (by simp only; omega) hf
    refine ⟨t, ?_, htf, ?_⟩
    · rw [hstep, hend]
      exact ht
    · rw [htd]
      rfl

theorem payload_le_chunksSize (cs : List Chunk) :
    ∀ c ∈ cs, c.payload.length ≤ chunksSize cs := by
  induction cs with
  | nil => intro c hc; cases hc
  | cons x cs ih =>
    intro c hc
    simp only [chunksSize]
    rcases List.mem_cons.mp hc with rfl | h
    · omega
    · have := ih c h
      omega

/-- C5, counterexample. A well-formed container whose only chunk is a data chunk of
declared size 0 holds a data chunk and no format chunk, yet `ReadWave` returns no
asset and no error instead of the missing-format error. -/
theorem C5_counterexample :
    (∃ c ∈ [Chunk.mk tagData []], c.tag = tagData) ∧
    (∀ c ∈ [Chunk.mk tagData []], c.tag ≠ tagFmt) ∧
    ReadWave ⟨List.replicate 16 0 ++ riffContainer [Chunk.mk tagData []], 16⟩ 0 = .ok none := by
  decide

/-- C5, amended. For a well-formed container none of whose chunks is tagged `fmt `
(every tag four bytes long, sizes as declared, total size below `2 ^ 32 - 12`),
`ReadWave` returns the missing-format error when the last data chunk has a non-zero
declared size, and returns no asset and no error when there is no data chunk or the
last data chunk has declared size 0. -/
theorem C5_ReadWave_no_fmt (pre suf : List UInt8) (cs : List Chunk)
    (htag : ∀ c ∈ cs, c.tag.length = 4) (hfmt : ∀ c ∈ cs, c.tag ≠ tagFmt)
    (hsize : chunksSize cs < 2 ^ 32 - 12) :
    ReadWave ⟨pre ++ riffContainer cs ++ suf, pre.length⟩ ((pre.length : Int) - 16) =
      if lastDataSize 0 cs > 0 then .error Error.NoFmt else .ok none := by
  have h0 : (pre ++ riffContainer cs ++ suf).drop pre.length =
      tagRIFF ++ (le32 (4 + chunksSize cs) ++ (tagWAVE ++ (encodeChunks cs ++ suf))) := by
    rw [List.append_assoc, List.drop_left]
    simp only [riffContainer, List.append_assoc]
  generalize hf : (⟨pre ++ riffContainer cs ++ suf, pre.length⟩ : File) = f
  have hpos : f.pos = pre.length := by rw [← hf]
  have hdata : f.data.drop f.pos =
      tagRIFF ++ (le32 (4 + chunksSize cs) ++ (tagWAVE ++ (encodeChunks cs ++ suf))) := by
    rw [← hf]; exact h0
  rw [← hpos]
  have d1 : f.data.drop (f.pos + 4) = _ := drop_add_of_drop hdata
  have d2 : f.data.drop (f.pos + 8) = _ := drop_add_of_drop d1
  have d3 : f.data.drop (f.pos + 12) = _ := drop_add_of_drop d2
  have t1 : (f.data.drop (f.pos + 4)).take 4 = le32 (4 + chunksSize cs) := take_of_drop d1
  have hsw : startsWave f := by
    refine ⟨take_of_drop hdata, ?_, take_of_drop d2⟩
    rw [t1]; rfl
  have hend : riffEnd f ((f.pos : Int) - 16) =
      (scanInit f ((f.pos : Int) - 16)).ofs + (chunksSize cs : Int) := by
    unfold riffEnd scanInit
    rw [t1, leNat_le32 _ (by omega), Nat.mod_eq_of_lt (by omega)]
    push_cast
    omega
  have hwf : ∀ c ∈ cs, c.tag.length = 4 ∧ c.tag ≠ tagFmt ∧ c.payload.length < 2 ^ 32 := by
    intro c hc
    have := payload_le_chunksSize cs c hc
    exact ⟨htag c hc, hfmt c hc, by omega⟩
  obtain ⟨t, ht, htf, htd⟩ := scanChunks_no_fmt suf cs (scanInit f ((f.pos : Int) - 16)) hwf d3
    (by show (f.pos : Int) - 16 + 28 = ((f.pos + 12 : Nat) : Int); push_cast; omega) rfl
  rw [ReadWave_of_startsWave f _ hsw, hend]
  have hofs : (scanInit f ((f.pos : Int) - 16)).ofs = (f.pos : Int) - 16 + 28 := rfl
  rw [hofs] at ht ⊢
  rw [ht]
  simp only [htf, if_true, htd]
  rfl

/-- C5, amended, at concrete inputs: a list chunk followed by a data chunk of three
bytes gives the missing-format error. -/
theorem C5_ReadWave_no_fmt_witness :
    ReadWave ⟨[] ++ riffContainer [Chunk.mk [0x4c, 0x49, 0x53, 0x54] [7],
        Chunk.mk tagData [1, 2, 3]] ++ [], 0⟩ (-16) = .error Error.NoFmt :=
  C5_ReadWave_no_fmt [] [] [Chunk.mk [0x4c, 0x49, 0x53, 0x54] [7], Chunk.mk tagData [1, 2, 3]]
    (by decide) (by decide) (by decide)

/-! ## C6 and C7: the archive -/

theorem readKey_ok {f : File} {k : Key} {f1 : File} (h : readKey f = .ok (k, f1)) :
    f1 = { f with pos := f.pos + 8 } := by
  unfold readKey at h
  split at h
  · cases h
  · rename_i bs f2 hr
    obtain ⟨_, _, h3⟩ := ReadFull_ok hr
    injection h with h
    injection h with ha hb
    subst hb
    exact h3

/-- One iteration of the loop of `LoadSnd` at a readable sub-header. -/
theorem loadLoop_succ (n : Nat) (f : File) (off : Nat) (s : Snd) {next : Nat} {key : Key}
    (h : subHeaderAt f.data off = some (next, key)) :
    loadLoop (n + 1) f off s =
      if key.1 ≥ 0 ∧ key.2 ≥ 0 then
        match s.table.find key with
        | some _ => loadLoop n ⟨f.data, off + 16⟩ next s
        | none =>
          match ReadWave ⟨f.data, off + 16⟩ off with
          | .error e => .error e
          | .ok tmp => loadLoop n ⟨f.data, off + 16⟩ next { s with table := s.table.set key tmp }
      else loadLoop n ⟨f.data, off + 16⟩ next s := by
  have hseek : f.Seek (off : Int) = ⟨f.data, off⟩ := by
    rw [Seek_nonneg _ _ (by omega)]
    simp
  unfold subHeaderAt at h
  split at h
  · cases h
  rename_i nx f1 h1
  split at h
  · cases h
  rename_i len f2 h2
  split at h
  · cases h
  rename_i num f3 h3
  injection h with h
  injection h with ha hb
  subst ha hb
  have p1 := (readU32_ok h1).2.2
  have p2 := (readU32_ok h2).2.2
  have p3 := readKey_ok h3
  have hf3 : f3 = ⟨f.data, off + 16⟩ := by
    rw [p3, p2, p1]
  subst hf3
  rw [loadLoop, hseek, h1]
  simp only
  rw [h2]
  simp only
  rw [h3]

/-- An iteration at an unreadable sub-header fails. -/
theorem loadLoop_succ_none (n : Nat) (f : File) (off : Nat) (s : Snd)
    (h : subHeaderAt f.data off = none) : ∃ e, loadLoop (n + 1) f off s = .error e := by
  have hseek : f.Seek (off : Int) = ⟨f.data, off⟩ := by
    rw [Seek_nonneg _ _ (by omega)]
    simp
  unfold subHeaderAt at h
  rw [loadLoop, hseek]
  split at h
  · rename_i e h1
    exact ⟨e, rfl⟩
  split at h
  · rename_i e h2
    exact ⟨e, rfl⟩
  split at h
  · rename_i e h3
    exact ⟨e, rfl⟩
  · cases h

theorem Table.find_set_ne (t : Table) {k k1 : Key} (v : Option Wave) (h : k1 ≠ k) :
    (t.set k1 v).find k = t.find k := by
  simp only [Table.set, Table.find, h, if_false]

theorem Table.find_set_self (t : Table) (k : Key) (v : Option Wave) :
    (t.set k v).find k = some v := by
  simp only [Table.set, Table.find, if_true]



/-- The loop of `LoadSnd` never changes or removes a binding of the table. -/
theorem loadLoop_keeps :
    ∀ (n : Nat) (f : File) (off : Nat) (s r : Snd), loadLoop n f off s = .ok r →
      ∀ (k : Key) (v : Option Wave), s.table.find k = some v → r.table.find k = some v := by
  intro n
  induction n with
  | zero =>
    intro f off s r h k v hk
    injection h with h
    exact h ▸ hk
  | succ n ih =>
    intro f off s r h k v hk
    cases hh : subHeaderAt f.data off with
    | none =>
      obtain ⟨e, he⟩ := loadLoop_succ_none n f off s hh
      rw [he] at h
      cases h
    | some p =>
      obtain ⟨next, key⟩ := p
      rw [loadLoop_succ n f off s hh] at h
      split at h
      · split at h
        · exact ih _ _ _ _ h k v hk
        · rename_i hnone
          split at h
          · cases h
          · rename_i tmp _
            refine ih _ _ _ _ h k v ?_
            have hne : key ≠ k := by
              intro hc
              rw [hc, hk] at hnone
              cases hnone
            simp only
            rw [Table.find_set_ne _ _ hne]
            exact hk
      · exact ih _ _ _ _ h k v hk

/-- After the loop of `LoadSnd`, a key that was not yet bound is bound to what
`ReadWave` returned at the first visited sub-header carrying it. -/
theorem loadLoop_first :
    ∀ (n : Nat) (f : File) (off : Nat) (s r : Snd), loadLoop n f off s = .ok r →
      ∀ (i o : Nat) (k : Key), (visited f.data n off)[i]? = some (o, k) →
        0 ≤ k.1 → 0 ≤ k.2 →
        (∀ j, j < i → ∀ o1, (visited f.data n off)[j]? ≠ some (o1, k)) →
        s.table.find k = none →
        ∃ v, ReadWave ⟨f.data, o + 16⟩ o = .ok v ∧ r.table.find k = some v := by
  intro n
  induction n with
  | zero =>
    intro f off s r _ i o k hi
    simp [visited] at hi
  | succ n ih =>
    intro f off s r h i o k hi hk1 hk2 hfirst hnone
    cases hh : subHeaderAt f.data off with
    | none =>
      obtain ⟨e, he⟩ := loadLoop_succ_none n f off s hh
      rw [he] at h
      cases h
    | some p =>
      obtain ⟨next, key⟩ := p
      rw [loadLoop_succ n f off s hh] at h
      have hv : visited f.data (n + 1) off = (off, key) :: visited f.data n next := by
        simp only [visited, hh]
      rw [hv] at hi hfirst
      cases i with
      | zero =>
        simp only [List.getElem?_cons_zero, Option.some.injEq, Prod.mk.injEq] at hi
        obtain ⟨ho, hkey⟩ := hi
        subst ho hkey
        rw [if_pos ⟨hk1, hk2⟩, hnone] at h
        simp only at h
        split at h
        · cases h
        · rename_i tmp htmp
          exact ⟨tmp, htmp, loadLoop_keeps _ _ _ _ _ h key tmp (Table.find_set_self _ _ _)⟩
      | succ i =>
        simp only [List.getElem?_cons_succ] at hi
        have hne : key ≠ k := by
          intro hc
          exact hfirst 0 (Nat.succ_pos i) off (by rw [hc, List.getElem?_cons_zero])
        have hfirst1 : ∀ j, j < i → ∀ o1, (visited f.data n next)[j]? ≠ some (o1, k) := by
          intro j hj o1
          have := hfirst (j + 1) (by omega) o1
          simpa only [List.getElem?_cons_succ] using this
        split at h
        · split at h
          · exact ih ⟨f.data, off + 16⟩ next s r h i o k hi hk1 hk2 hfirst1 hnone
          · split at h
            · cases h
            · rename_i tmp _
              exact ih ⟨f.data, off + 16⟩ next _ r h i o k hi hk1 hk2 hfirst1
                (by simp only; rw [Table.find_set_ne _ _ hne]; exact hnone)
        · exact ih ⟨f.data, off + 16⟩ next s r h i o k hi hk1 hk2 hfirst1 hnone

/-- After the header, `LoadSnd` is its loop run `sndCount` times from `sndFirst`. -/
theorem LoadSnd_ok {data : List UInt8} {s : Snd} (h : LoadSnd data = .ok s) :
    ∃ (f : File) (s0 : Snd), f.data = data ∧ s0.table = [] ∧
      loadLoop (sndCount data) f (sndFirst data) s0 = .ok s := by
  unfold LoadSnd at h
  simp only at h
  split at h
  · cases h
  rename_i buf f1 h1
  obtain ⟨e1, _, p1⟩ := Read_ok h1
  split at h
  · cases h
  rename_i hmagic
  have hlen : buf.length = 12 := by
    have : buf = sndMagic := by simpa using hmagic
    rw [this]; rfl
  split at h
  · cases h
  rename_i ver f2 h2
  obtain ⟨_, p2⟩ := readU16_ok h2
  split at h
  · cases h
  rename_i ver2 f3 h3
  obtain ⟨_, p3⟩ := readU16_ok h3
  split at h
  · cases h
  rename_i cnt f4 h4
  obtain ⟨e4, _, p4⟩ := readU32_ok h4
  split at h
  · cases h
  rename_i first f5 h5
  obtain ⟨e5, _, p5⟩ := readU32_ok h5
  subst p1 p2 p3 p4
  rw [hlen] at e4 e5
  simp only [Nat.zero_add, Nat.reduceAdd] at e4 e5
  refine ⟨f5, { newSnd with ver := ver, ver2 := ver2 }, ?_, rfl, ?_⟩
  · rw [p5]
  · unfold sndCount sndFirst
    rw [← e4, ← e5]
    exact h

/-- C6. Archive dedup: when `LoadSnd` succeeds, every key with both components
non-negative that occurs among the visited sub-headers is bound in the table to what
`ReadWave` returned at the first visited sub-header carrying it; and an iteration that
meets a key already in the table neither decodes the entry nor changes the table. -/
theorem C6_LoadSnd_first_entry_wins :
    (∀ (data : List UInt8) (s : Snd), LoadSnd data = .ok s →
      ∀ (i o : Nat) (k : Key), (subHeaders data)[i]? = some (o, k) → 0 ≤ k.1 → 0 ≤ k.2 →
        (∀ j, j < i → ∀ o1, (subHeaders data)[j]? ≠ some (o1, k)) →
        ∃ v, ReadWave ⟨data, o + 16⟩ o = .ok v ∧ s.table.find k = some v) ∧
    (∀ (n : Nat) (f : File) (off : Nat) (s : Snd) (next : Nat) (key : Key) (v : Option Wave),
      subHeaderAt f.data off = some (next, key) → 0 ≤ key.1 → 0 ≤ key.2 →
        s.table.find key = some v →
        loadLoop (n + 1) f off s = loadLoop n ⟨f.data, off + 16⟩ next s) := by
  constructor
  · intro data s h i o k hi hk1 hk2 hfirst
    obtain ⟨f, s0, hf, hs0, hl⟩ := LoadSnd_ok h
    unfold subHeaders at hi hfirst
    subst hf
    exact loadLoop_first _ f _ s0 s hl i o k hi hk1 hk2 hfirst (by rw [hs0]; rfl)
  · intro n f off s next key v hh hk1 hk2 hfind
    rw [loadLoop_succ n f off s hh, if_pos ⟨hk1, hk2⟩, hfind]

/-- C6 at a concrete input: in an archive whose two entries share the key (1, 2), the
table holds what `ReadWave` returns at the first entry, the payload 1, 2, 3, 4. -/
theorem C6_LoadSnd_first_entry_wins_witness :
    (LoadSnd twinArchive =
        .ok ⟨[((1, 2), some ⟨11025, 1, 1, [1, 2, 3, 4]⟩)], 1, 0⟩ ∧
      subHeaders twinArchive = [(24, (1, 2)), (88, (1, 2))] ∧
      ∃ v, ReadWave ⟨twinArchive, 24 + 16⟩ ((24 : Nat) : Int) = .ok v ∧
        Table.find [((1, 2), some ⟨11025, 1, 1, [1, 2, 3, 4]⟩)] (1, 2) = some v) ∧
    loadLoop 1 ⟨twinArchive, 0⟩ 88 ⟨[((1, 2), none)], 0, 0⟩ =
      loadLoop 0 ⟨twinArchive, 88 + 16⟩ 0 ⟨[((1, 2), none)], 0, 0⟩ :=
  ⟨⟨by decide, by decide,
    C6_LoadSnd_first_entry_wins.1 twinArchive
      ⟨[((1, 2), some ⟨11025, 1, 1, [1, 2, 3, 4]⟩)], 1, 0⟩ (by decide) 0 24 (1, 2)
      (by decide) (by decide) (by decide) (fun j hj => absurd hj (Nat.not_lt_zero j))⟩,
   C6_LoadSnd_first_entry_wins.2 0 ⟨twinArchive, 0⟩ 88 ⟨[((1, 2), none)], 0, 0⟩ 0 (1, 2) none
      (by decide) (by decide) (by decide) (by decide)⟩

/-- C7. An input whose first twelve bytes are not the archive signature (inputs
shorter than twelve bytes included) makes `LoadSnd` return an error, and so no `Snd`
value and no table. -/
theorem C7_LoadSnd_rejects_bad_magic (data : List UInt8) (h : data.take 12 ≠ sndMagic) :
    ∃ e, LoadSnd data = .error e := by
  unfold LoadSnd
  simp only
  cases h1 : File.Read ⟨data, 0⟩ 12 with
  | error e => exact ⟨e, rfl⟩
  | ok r =>
    obtain ⟨buf, f1⟩ := r
    have hb := (Read_ok h1).1
    simp only [List.drop_zero] at hb
    have hne : buf ≠ sndMagic := hb ▸ h
    exact ⟨Error.NotElecbyteSnd, by simp only [ne_eq, hne, not_false_eq_true, if_true]⟩

/-- C7 at concrete inputs: a signature with a wrong last byte, and an input of three
bytes. -/
theorem C7_LoadSnd_rejects_bad_magic_witness :
    (∃ e, LoadSnd ([0x45, 0x6c, 0x65, 0x63, 0x62, 0x79, 0x74, 0x65, 0x53, 0x6e, 0x64, 0x01] ++
      le16 1 ++ le16 0 ++ le32 0 ++ le32 24) = .error e) ∧
    (∃ e, LoadSnd [0x45, 0x6c, 0x65] = .error e) :=
  ⟨C7_LoadSnd_rejects_bad_magic _ (by decide), C7_LoadSnd_rejects_bad_magic _ (by decide)⟩

/-! ## C8: voice allocation -/

/-- C8. `GetChannel` returns the voice with the smallest index whose asset reference is
empty, and returns no voice exactly when every voice of the pool holds an asset. -/
theorem C8_GetChannel_first_free (s : Sounds) :
    (∀ i, GetChannel s = some i ↔
      (∃ x, s[i]? = some x ∧ x.sound = none) ∧
        ∀ j, j < i → ∀ y, s[j]? = some y → y.sound ≠ none) ∧
    (GetChannel s = none ↔ ∀ x ∈ s, x.sound ≠ none) := by
  induction s with
  | nil =>
    refine ⟨fun i => ?_, ?_⟩
    · simp [GetChannel]
    · simp [GetChannel]
  | cons a s ih =>
    obtain ⟨ih1, ih2⟩ := ih
    by_cases ha : a.sound = none
    · refine ⟨fun i => ?_, ?_⟩
      · simp only [GetChannel, ha, if_true, Option.some.injEq]
        constructor
        · intro h
          subst h
          exact ⟨⟨a, List.getElem?_cons_zero, ha⟩, fun j hj => absurd hj (Nat.not_lt_zero j)⟩
        · intro h
          cases i with
          | zero => rfl
          | succ i => exact absurd ha (h.2 0 (Nat.succ_pos i) a List.getElem?_cons_zero)
      · simp only [GetChannel, ha, if_true]
        constructor
        · intro h
          cases h
        · intro h
          exact absurd ha (h a (List.mem_cons_self _ _))
    · refine ⟨fun i => ?_, ?_⟩
      · simp only [GetChannel, ha, if_false]
        cases i with
        | zero =>
          constructor
          · intro h
            cases hg : GetChannel s with
            | none => rw [hg] at h; cases h
            | some k => rw [hg] at h; simp at h
          · intro h
            obtain ⟨⟨x, hx, hxs⟩, _⟩ := h
            simp only [List.getElem?_cons_zero, Option.some.injEq] at hx
            exact absurd (hx ▸ hxs) ha
        | succ i =>
          have e : Option.map (fun x => x + 1) (GetChannel s) = some (i + 1) ↔
              GetChannel s = some i := by
            cases hg : GetChannel s with
            | none => simp
            | some k => simp
          rw [e, ih1 i]
          simp only [List.getElem?_cons_succ]
          constructor
          · intro h
            refine ⟨h.1, fun j hj y hy => ?_⟩
            cases j with
            | zero =>
              simp only [List.getElem?_cons_zero, Option.some.injEq] at hy
              exact hy ▸ ha
            | succ j =>
              simp only [List.getElem?_cons_succ] at hy
              exact h.2 j (by omega) y hy
          · intro h
            refine ⟨h.1, fun j hj y hy => ?_⟩
            exact h.2 (j + 1) (by omega) y (by simpa only [List.getElem?_cons_succ] using hy)
      · simp only [GetChannel, ha, if_false, Option.map_eq_none', ih2, List.mem_cons,
          forall_eq_or_imp, ne_eq, not_false_eq_true, true_and]

/-- C8 at a concrete pool: with voices 0 and 1 busy and voices 2 and 3 free, the voice
returned is voice 2. -/
theorem C8_GetChannel_first_free_witness :
    GetChannel [⟨some Wave.zero, 256, false, 1, 0⟩, ⟨some Wave.zero, 256, false, 1, 0⟩,
      ⟨none, 256, false, 1, 0⟩, ⟨none, 256, false, 1, 0⟩] = some 2 :=
  ((C8_GetChannel_first_free _).1 2).2
    ⟨⟨⟨none, 256, false, 1, 0⟩, by simp, rfl⟩, by
      intro j hj y hy
      have hj2 : j = 0 ∨ j = 1 := by omega
      rcases hj2 with rfl | rfl
      · simp only [List.getElem?_cons_zero, Option.some.injEq] at hy
        subst hy
        simp
      · simp only [List.getElem?_cons_succ, List.getElem?_cons_zero, Option.some.injEq] at hy
        subst hy
        simp⟩

/-! ## C9: volume -/

theorem toInt16_eq (v : Int) (h0 : 0 ≤ v) (h1 : v ≤ 512) : toInt16 v = v := by
  unfold toInt16
  omega

theorem SetVolume_volume (s : Sound) (vol : Int) :
    (s.SetVolume vol).volume = max 0 (min 512 vol) := by
  unfold Sound.SetVolume
  split
  · simp only
    omega
  · split
    · simp only
      omega
    · simp only
      rw [toInt16_eq vol (by omega) (by omega)]
      omega

theorem mem_modifyAt (f : Sound → Sound) :
    ∀ (i : Nat) (p : Sounds) (x : Sound), x ∈ modifyAt f i p → x ∈ p ∨ ∃ y ∈ p, x = f y := by
  intro i p
  induction p generalizing i with
  | nil => intro x hx; simp [modifyAt] at hx
  | cons a p ih =>
    intro x hx
    cases i with
    | zero =>
      simp only [modifyAt, List.mem_cons] at hx
      rcases hx with rfl | hx
      · exact Or.inr ⟨a, List.mem_cons_self _ _, rfl⟩
      · exact Or.inl (List.mem_cons_of_mem _ hx)
    | succ i =>
      simp only [modifyAt, List.mem_cons] at hx
      rcases hx with rfl | hx
      · exact Or.inl (List.mem_cons_self _ _)
      · rcases ih i x hx with h | ⟨y, hy, rfl⟩
        · exact Or.inl (List.mem_cons_of_mem _ h)
        · exact Or.inr ⟨y, List.mem_cons_of_mem _ hy, rfl⟩

/-- C9. After `SetVolume(v)` the volume of the voice is `max 0 (min 512 v)`, for every
integer `v` (so for every 32-bit one, with no 16-bit wrap-around), and no other field
of the voice changes; hence the volume of every voice lies in `[0, 512]` in every pool
state reachable from `newSounds` through `SetVolume`. -/
theorem C9_SetVolume_clamps :
    (∀ (s : Sound) (vol : Int),
      (s.SetVolume vol).volume = max 0 (min 512 vol) ∧ (s.SetVolume vol).sound = s.sound ∧
      (s.SetVolume vol).loop = s.loop ∧ (s.SetVolume vol).freqmul = s.freqmul ∧
      (s.SetVolume vol).fidx = s.fidx) ∧
    (∀ p : Sounds, VolumeReachable p → ∀ x ∈ p, 0 ≤ x.volume ∧ x.volume ≤ 512) := by
  constructor
  · intro s vol
    refine ⟨SetVolume_volume s vol, ?_, ?_, ?_, ?_⟩ <;>
      (unfold Sound.SetVolume; split <;> [rfl; (split <;> rfl)])
  · intro p hp
    induction hp with
    | init size =>
      intro x hx
      have := List.eq_of_mem_replicate hx
      subst this
      exact ⟨by decide, by decide⟩
    | setVolume i vol _ ih =>
      intro x hx
      rcases mem_modifyAt _ i _ x hx with h | ⟨y, _, rfl⟩
      · exact ih x h
      · rw [SetVolume_volume]
        omega

/-- C9 at concrete inputs: the volume 70000 (which `int16` would wrap to 4464) is
clamped to 512, and in the pool of two voices obtained by that call the volume of
every voice is within `[0, 512]`. -/
theorem C9_SetVolume_clamps_witness :
    (Sound.SetVolume ⟨none, 256, false, 1, 0⟩ 70000).volume = max 0 (min 512 70000) ∧
    ∀ x ∈ modifyAt (fun c => c.SetVolume 70000) 1 (newSounds 2),
      0 ≤ x.volume ∧ x.volume ≤ 512 :=
  ⟨(C9_SetVolume_clamps.1 ⟨none, 256, false, 1, 0⟩ 70000).1,
   C9_SetVolume_clamps.2 _ (VolumeReachable.setVolume 1 70000 (VolumeReachable.init 2))⟩

/-! ## C10: completion of a voice -/

theorem goInt_nonneg {x : ℚ} (h : 0 ≤ x) : 0 ≤ goInt x := by
  unfold goInt
  rw [if_pos h]
  exact Int.floor_nonneg.mpr h

theorem le_goInt_iff {x : ℚ} (h : 0 ≤ x) (n : Nat) : (n : Int) ≤ goInt x ↔ (n : ℚ) ≤ x := by
  unfold goInt
  rw [if_pos h, Int.le_floor]
  norm_cast

theorem goInt_natCast (n : Nat) : goInt (n : ℚ) = n := by
  unfold goInt
  rw [if_pos (Nat.cast_nonneg n), Int.floor_natCast]

theorem wavAt_some (wav : List UInt8) (i : Int) (h0 : 0 ≤ i) (h1 : i < wav.length) :
    ∃ b, wavAt wav i = some b := by
  unfold wavAt
  rw [if_neg (by omega)]
  have h : i.toNat < wav.length := by omega
  exact ⟨wav[i.toNat], List.getElem?_eq_getElem h⟩

theorem goInt_le {x : ℚ} (h : 0 ≤ x) : ((goInt x : Int) : ℚ) ≤ x := by
  unfold goInt
  rw [if_pos h]
  exact Int.floor_le x

theorem lt_goInt_succ {x : ℚ} (h : 0 ≤ x) : x < ((goInt x : Int) : ℚ) + 1 := by
  unfold goInt
  rw [if_pos h]
  exact Int.lt_floor_add_one x

/-- A product on `int` that stays below `2 ^ 63` does not wrap. -/
theorem mulInt_small {a k : Int} (ha : 0 ≤ a) (hk : 0 ≤ k) (h : a * k < 2 ^ 63) :
    mulInt a k = a * k := by
  have h0 : 0 ≤ a * k := mul_nonneg ha hk
  unfold mulInt bits64 toInt64
  generalize a * k = z at h h0 ⊢
  have e1 : z % 2 ^ 64 = z := Int.emod_eq_of_lt h0 (by omega)
  rw [e1]
  have e2 : z.toNat % 2 ^ 64 = z.toNat := Nat.mod_eq_of_lt (by omega)
  rw [e2, if_pos (by omega)]
  omega

theorem indexOK_11 (len : Nat) (T : Int) :
    indexOK (fun k => k) (fun iidx => iidx ≥ (len : Int)) len T := by
  intro k h0 _
  refine ⟨h0, fun h => ?_⟩
  simp only [ge_iff_le, not_le] at h
  exact h

theorem indexOK_2 (len : Nat) :
    indexOK (mulInt 2) (fun iidx => iidx > (len : Int) - 2) len (2 ^ 61) := by
  intro k h0 hT
  rw [mulInt_small (by decide) h0 (by omega)]
  exact ⟨by omega, fun h => by omega⟩

theorem indexOK_4 (len : Nat) :
    indexOK (mulInt 4) (fun iidx => iidx > (len : Int) - 4) len (2 ^ 61) := by
  intro k h0 hT
  rw [mulInt_small (by decide) h0 (by omega)]
  exact ⟨by omega, fun h => by omega⟩

/-- The value of `int(fidx)` for a cursor in `[0, T)`. -/
theorem goInt_range {x : ℚ} {T : Int} (h0 : 0 ≤ x) (hT : x < (T : ℚ)) :
    0 ≤ goInt x ∧ goInt x < T := by
  refine ⟨goInt_nonneg h0, ?_⟩
  have h1 := goInt_le h0
  have h2 : ((goInt x : Int) : ℚ) < (T : ℚ) := lt_of_le_of_lt h1 hT
  exact_mod_cast h2

/-- The cursor after a step from a cursor whose integer part is below `len`. -/
theorem cursor_step {x a : ℚ} {len : Nat} {T : Int} (h0 : 0 ≤ x) (hk : goInt x < (len : Int))
    (hT : (len : ℚ) + a ≤ (T : ℚ)) : x + a < (T : ℚ) := by
  have h1 := lt_goInt_succ h0
  have h2 : ((goInt x : Int) : ℚ) + 1 ≤ (len : ℚ) := by
    have : goInt x + 1 ≤ (len : Int) := by omega
    exact_mod_cast this
  linarith

/-- Without looping the mixing loop never leaves the source, as long as the cursor
starts below a bound `T` up to which the byte index does not wrap: it ends normally,
with a cursor that is still in `[0, T)`. -/
theorem mixLoop_noloop (fidxadd : ℚ) (idx : Int → Int) (past : Int → Prop) [DecidablePred past]
    (dec : Int → Option (ℚ × ℚ)) (len : Nat) (T : Int) (hadd : 0 ≤ fidxadd)
    (hT : (len : ℚ) + fidxadd ≤ (T : ℚ)) (hidx : indexOK idx past len T)
    (hdec : ∀ iidx, 0 ≤ iidx → ¬ past iidx → ∃ l r, dec iidx = some (l, r)) :
    ∀ (n i : Nat) (buf : List ℚ) (fidx : ℚ), 0 ≤ fidx → fidx < (T : ℚ) →
      ∃ buf1 fidx1, mixLoop fidxadd false idx past dec n i buf fidx = some (buf1, fidx1) ∧
        0 ≤ fidx1 ∧ fidx1 < (T : ℚ) := by
  intro n
  induction n with
  | zero =>
    intro i buf fidx h hlt
    exact ⟨buf, fidx, rfl, h, hlt⟩
  | succ n ih =>
    intro i buf fidx h hlt
    obtain ⟨hk0, hkT⟩ := goInt_range h hlt
    obtain ⟨hi0, hin⟩ := hidx (goInt fidx) hk0 hkT
    by_cases hp : past (idx (goInt fidx))
    · refine ⟨buf, fidx, ?_, h, hlt⟩
      simp only [mixLoop, hp, if_true, Bool.not_false]
    · obtain ⟨l, r, hd⟩ := hdec _ hi0 hp
      obtain ⟨buf1, fidx1, h1, h2⟩ := ih (i + 2) (addAt (addAt buf i l) (i + 1) r)
        (fidx + fidxadd) (add_nonneg h hadd) (cursor_step h (hin hp) hT)
      refine ⟨buf1, fidx1, ?_, h2⟩
      simp only [mixLoop, hp, if_false, hd]
      exact h1

theorem dec11_some (wav : List UInt8) (volume : ℚ) (iidx : Int) (h0 : 0 ≤ iidx)
    (h : ¬ iidx ≥ (wav.length : Int)) : ∃ l r, dec11 wav volume iidx = some (l, r) := by
  obtain ⟨b, hb⟩ := wavAt_some wav iidx h0 (by omega)
  refine ⟨sample8 volume b, sample8 volume b, ?_⟩
  simp only [dec11, hb]

theorem dec12_some (wav : List UInt8) (volume : ℚ) (iidx : Int) (h0 : 0 ≤ iidx)
    (h : ¬ iidx > (wav.length : Int) - 2) : ∃ l r, dec12 wav volume iidx = some (l, r) := by
  obtain ⟨b0, hb0⟩ := wavAt_some wav iidx h0 (by omega)
  obtain ⟨b1, hb1⟩ := wavAt_some wav (iidx + 1) (by omega) (by omega)
  refine ⟨sample8 volume b0, sample8 volume b1, ?_⟩
  simp only [dec12, hb0, hb1]

theorem dec21_some (wav : List UInt8) (volume : ℚ) (iidx : Int) (h0 : 0 ≤ iidx)
    (h : ¬ iidx > (wav.length : Int) - 2) : ∃ l r, dec21 wav volume iidx = some (l, r) := by
  obtain ⟨b0, hb0⟩ := wavAt_some wav iidx h0 (by omega)
  obtain ⟨b1, hb1⟩ := wavAt_some wav (iidx + 1) (by omega) (by omega)
  refine ⟨sample16 volume b0 b1, sample16 volume b0 b1, ?_⟩
  simp only [dec21, hb0, hb1]

theorem dec22_some (wav : List UInt8) (volume : ℚ) (iidx : Int) (h0 : 0 ≤ iidx)
    (h : ¬ iidx > (wav.length : Int) - 4) : ∃ l r, dec22 wav volume iidx = some (l, r) := by
  obtain ⟨b0, hb0⟩ := wavAt_some wav iidx h0 (by omega)
  obtain ⟨b1, hb1⟩ := wavAt_some wav (iidx + 1) (by omega) (by omega)
  obtain ⟨b2, hb2⟩ := wavAt_some wav (iidx + 2) (by omega) (by omega)
  obtain ⟨b3, hb3⟩ := wavAt_some wav (iidx + 3) (by omega) (by omega)
  refine ⟨sample16 volume b0 b1, sample16 volume b2 b3, ?_⟩
  simp only [dec22, hb0, hb1, hb2, hb3]

/-- The bound `2 ^ 61` on the cursor follows from the bound `2 ^ 60` on the length of
the source and on the rate. -/
theorem len_add_rate_le {len : Nat} {rate : ℚ} (hlen : len < 2 ^ 60) (hrate : rate < 2 ^ 60) :
    (len : ℚ) + rate / (audioFrequency : ℚ) ≤ ((2 ^ 61 : Int) : ℚ) := by
  have h1 : (len : ℚ) < 2 ^ 60 := by exact_mod_cast hlen
  have h48 : (audioFrequency : ℚ) = 48000 := by norm_num [audioFrequency]
  rw [h48]
  have h2 : rate / 48000 < 2 ^ 60 := by
    rw [div_lt_iff₀ (by norm_num)]
    have : (2 : ℚ) ^ 60 ≤ 2 ^ 60 * 48000 := by norm_num
    linarith
  push_cast
  have h3 : (2 : ℚ) ^ 61 = 2 ^ 60 + 2 ^ 60 := by norm_num
  linarith

/-- Without looping, `Mix` on an asset of a supported format, with a cursor in
`[0, 2 ^ 60)`, a buffer shorter than `2 ^ 60` bytes and a rate below `2 ^ 60`, returns
normally, with a non-negative cursor. -/
theorem Mix_noloop (buf : List ℚ) (wav : List UInt8) (fidx : ℚ) (bps ch : Nat)
    (sampleRate volume : ℚ) (hb : bps = 1 ∨ bps = 2) (hc : ch = 1 ∨ ch = 2) (h : 0 ≤ fidx)
    (hf : fidx < 2 ^ 60) (hlen : wav.length < 2 ^ 60) (hrate : sampleRate < 2 ^ 60) :
    ∃ buf1 fidx1, Mix buf wav fidx bps ch sampleRate false volume = some (buf1, fidx1) ∧
      0 ≤ fidx1 := by
  have hT := len_add_rate_le hlen hrate
  have hfT : fidx < ((2 ^ 61 : Int) : ℚ) := by
    push_cast
    have : (2 : ℚ) ^ 60 ≤ 2 ^ 61 := by norm_num
    linarith
  unfold Mix
  simp only
  split
  · rename_i hpos
    have hadd : (0 : ℚ) ≤ sampleRate / (audioFrequency : ℚ) := le_of_lt hpos
    rcases hb with rfl | rfl <;> rcases hc with rfl | rfl
    · simp only [Nat.cast_one, if_true]
      obtain ⟨b1, f1, e, h1, _⟩ := mixLoop_noloop _ _ _ _ wav.length (2 ^ 61) hadd hT
        (indexOK_11 _ _) (dec11_some wav volume) (buf.length / 2) 0 buf fidx h hfT
      exact ⟨b1, f1, e, h1⟩
    · simp only [Nat.cast_one, Nat.cast_ofNat, if_true, show ¬ ((2 : Int) = 1) by decide,
        if_false]
      obtain ⟨b1, f1, e, h1, _⟩ := mixLoop_noloop _ _ _ _ wav.length (2 ^ 61) hadd hT
        (indexOK_2 _) (dec12_some wav volume) (buf.length / 2) 0 buf fidx h hfT
      exact ⟨b1, f1, e, h1⟩
    · simp only [Nat.cast_one, Nat.cast_ofNat, if_true, show ¬ ((2 : Int) = 1) by decide,
        if_false]
      obtain ⟨b1, f1, e, h1, _⟩ := mixLoop_noloop _ _ _ _ wav.length (2 ^ 61) hadd hT
        (indexOK_2 _) (dec21_some wav volume) (buf.length / 2) 0 buf fidx h hfT
      exact ⟨b1, f1, e, h1⟩
    · simp only [Nat.cast_ofNat, if_true, show ¬ ((2 : Int) = 1) by decide, if_false]
      obtain ⟨b1, f1, e, h1, _⟩ := mixLoop_noloop _ _ _ _ wav.length (2 ^ 61) hadd hT
        (indexOK_4 _) (dec22_some wav volume) (buf.length / 2) 0 buf fidx h hfT
      exact ⟨b1, f1, e, h1⟩
  · exact ⟨buf, _, rfl, Nat.cast_nonneg _⟩

/-- The bound on the cursor is needed: at the cursor `2 ^ 61` the byte index
`4 * int(fidx)` of the 16-bit stereo loop wraps to `-2 ^ 63`, which passes the test
`iidx > len(wav) - 4`, and the read of `wav[iidx]` panics. -/
theorem Mix_wrapped_index :
    Mix (List.replicate 4096 0) [0, 0, 0, 0] (2 ^ 61) 2 2 48000 false 1 = none := by
  have ha : (48000 : ℚ) / (audioFrequency : ℚ) = 1 := by norm_num [audioFrequency]
  have hg : goInt (2 ^ 61) = 2 ^ 61 := by
    have := goInt_natCast (2 ^ 61)
    push_cast at this
    exact this
  have hm : mulInt 4 (2 ^ 61) = -2 ^ 63 := by decide
  unfold Mix
  simp only [ha, gt_iff_lt, zero_lt_one, if_true, List.length_replicate,
    show ¬ ((2 : Int) = 1) by decide, if_false]
  show mixLoop 1 false (mulInt 4) _ _ (2047 + 1) 0 _ (2 ^ 61) = none
  rw [mixLoop, hg, hm]
  simp [dec22, wavAt]

/-- With a sample rate that is not positive `Mix` leaves the accumulator alone and
returns `len(wav)`. -/
theorem Mix_rate_nonpos (buf : List ℚ) (wav : List UInt8) (fidx : ℚ) (bps ch : Int)
    (sampleRate volume : ℚ) (loop : Bool) (h : sampleRate ≤ 0) :
    Mix buf wav fidx bps ch sampleRate loop volume = some (buf, (wav.length : ℚ)) := by
  unfold Mix
  simp only
  have hn : ¬ (sampleRate / (audioFrequency : ℚ) > 0) := by
    have h48 : (0 : ℚ) < (audioFrequency : ℚ) := by norm_num [audioFrequency]
    have := div_nonpos_of_nonpos_of_nonneg h (le_of_lt h48)
    exact not_lt.mpr this
  rw [if_neg hn]

theorem frame_bytes_pos {w : Wave} (hc : w.Channels = 1 ∨ w.Channels = 2)
    (hb : w.BytesPerSample = 1 ∨ w.BytesPerSample = 2) :
    (w.BytesPerSample * w.Channels) % 2 ^ 16 ≠ 0 := by
  rcases hb with h | h <;> rcases hc with h' | h' <;> rw [h, h'] <;> decide

/-- A voice whose effective sample rate is not positive is retired by `Sound.mix`,
whatever its loop flag. -/
theorem mix_rate_nonpos (buf : List ℚ) (s : Sound) (w : Wave) (hs : s.sound = some w)
    (hc : w.Channels = 1 ∨ w.Channels = 2) (hb : w.BytesPerSample = 1 ∨ w.BytesPerSample = 2)
    (hr : (w.SamplesPerSec : ℚ) * s.freqmul ≤ 0) :
    Sound.mix buf s = some (buf, { s with sound := none, fidx := 0 }) := by
  unfold Sound.mix
  rw [hs]
  simp only
  rw [Mix_rate_nonpos _ _ _ _ _ _ _ _ hr]
  simp only [frame_bytes_pos hc hb, if_false]
  rw [goInt_natCast, if_pos]
  unfold frameCount
  exact_mod_cast Nat.div_le_self _ _



/-- C10, counterexample. A voice with `loop = true` that holds a non-empty asset (one
8-bit mono sample) and whose pitch multiplier is 0 is retired by one call of
`Sound.mix`: its asset is cleared and its position reset, although its loop flag is
set. -/
theorem C10_counterexample :
    Sound.mix (List.replicate 4096 0) ⟨some ⟨11025, 1, 1, [128]⟩, 256, true, 0, 0⟩ =
      some (List.replicate 4096 0, ⟨none, 256, true, 0, 0⟩) :=
  mix_rate_nonpos _ _ ⟨11025, 1, 1, [128]⟩ rfl (Or.inl rfl) (Or.inl rfl) (by norm_num)

/-- C10, amended. For an occupied voice with an asset of a supported format whose
buffer is shorter than `2 ^ 32` bytes (as every buffer `ReadWave` returns): if its loop
flag is false, its cursor lies in `[0, 2 ^ 60)` and its effective sample rate
`SamplesPerSec * freqmul` is below `2 ^ 60` (so that no byte index wraps and every
conversion `int(fidx)` is in range), `Mix` returns normally and one call of `Sound.mix`
retires the voice (asset cleared, position reset to 0) if and only if the cursor after
mixing has reached or passed the frame count `len(Wav) / (Channels * BytesPerSample)`,
and otherwise keeps the asset and stores the cursor; a voice whose loop flag is true is
retired as well when its effective sample rate is not positive. -/
theorem C10_mix_completion (buf : List ℚ) (s : Sound) (w : Wave) (hs : s.sound = some w)
    (hc : w.Channels = 1 ∨ w.Channels = 2)
    (hb : w.BytesPerSample = 1 ∨ w.BytesPerSample = 2) (hlen : w.Wav.length < 2 ^ 32) :
    (s.loop = false → 0 ≤ s.fidx → s.fidx < 2 ^ 60 →
      (w.SamplesPerSec : ℚ) * s.freqmul < 2 ^ 60 →
      ∃ buf1 fidx1,
        Mix buf w.Wav s.fidx w.BytesPerSample w.Channels ((w.SamplesPerSec : ℚ) * s.freqmul)
          false ((s.volume : ℚ) / 256) = some (buf1, fidx1) ∧
        Sound.mix buf s = some (buf1,
          if (frameCount w : ℚ) ≤ fidx1 then { s with sound := none, fidx := 0 }
          else { s with fidx := fidx1 })) ∧
    (s.loop = true → (w.SamplesPerSec : ℚ) * s.freqmul ≤ 0 →
      Sound.mix buf s = some (buf, { s with sound := none, fidx := 0 })) := by
  constructor
  · intro hl hf hf2 hr
    obtain ⟨buf1, fidx1, hm, h1⟩ := Mix_noloop buf w.Wav s.fidx w.BytesPerSample w.Channels
      ((w.SamplesPerSec : ℚ) * s.freqmul) ((s.volume : ℚ) / 256) hb hc hf hf2
      (by omega) hr
    refine ⟨buf1, fidx1, hm, ?_⟩
    unfold Sound.mix
    rw [hs]
    simp only
    rw [hl, hm]
    simp only [frame_bytes_pos hc hb, if_false, ge_iff_le, le_goInt_iff h1]
    split <;> rfl
  · intro _ hr
    exact mix_rate_nonpos buf s w hs hc hb hr

/-- C10, amended, at concrete inputs: a non-looping voice whose cursor already stands
at the end of its four-sample asset, and a looping voice with pitch multiplier 0. -/
theorem C10_mix_completion_witness :
    (∃ buf1 fidx1,
        Mix (List.replicate 4096 0) [64, 192, 0, 255] 4 ((1 : Nat) : Int) ((1 : Nat) : Int)
          (((11025 : Nat) : ℚ) * 1) false (((256 : Int) : ℚ) / 256) = some (buf1, fidx1) ∧
        Sound.mix (List.replicate 4096 0) ⟨some ⟨11025, 1, 1, [64, 192, 0, 255]⟩, 256, false, 1, 4⟩ =
          some (buf1,
            if (frameCount ⟨11025, 1, 1, [64, 192, 0, 255]⟩ : ℚ) ≤ fidx1 then
              ⟨none, 256, false, 1, 0⟩
            else ⟨some ⟨11025, 1, 1, [64, 192, 0, 255]⟩, 256, false, 1, fidx1⟩)) ∧
    Sound.mix (List.replicate 4096 0) ⟨some ⟨11025, 1, 1, [64, 192, 0, 255]⟩, 256, true, 0, 4⟩ =
      some (List.replicate 4096 0, ⟨none, 256, true, 0, 0⟩) :=
  ⟨(C10_mix_completion (List.replicate 4096 0) ⟨some ⟨11025, 1, 1, [64, 192, 0, 255]⟩, 256, false, 1, 4⟩
      ⟨11025, 1, 1, [64, 192, 0, 255]⟩ rfl (Or.inl rfl) (Or.inl rfl) (by decide)).1 rfl
      (by norm_num) (by norm_num) (by norm_num),
   (C10_mix_completion (List.replicate 4096 0) ⟨some ⟨11025, 1, 1, [64, 192, 0, 255]⟩, 256, true, 0, 4⟩
      ⟨11025, 1, 1, [64, 192, 0, 255]⟩ rfl (Or.inl rfl) (Or.inl rfl) (by decide)).2 rfl
      (by norm_num)⟩

/-! ## C19: decoding a 16-bit sample -/

theorem shlInt_8 (x : Int) (h0 : -128 ≤ x) (h1 : x ≤ 127) : shlInt x 8 = x * 256 := by
  unfold shlInt toInt64 bits64
  norm_num
  split <;> omega

theorem orInt_low_byte (l : Nat) (x : Int) (hl : l < 256) (h0 : -128 ≤ x) (h1 : x ≤ 127) :
    orInt (l : Int) (x * 256) = (l : Int) + x * 256 := by
  unfold orInt
  have e1 : bits64 (l : Int) = l := by
    unfold bits64
    omega
  have e2 : bits64 (x * 256) = 2 ^ 8 * ((x % 2 ^ 56).toNat) := by
    unfold bits64
    omega
  rw [e1, e2, Nat.lor_comm, ← Nat.mul_add_lt_is_or (by omega : l < 2 ^ 8)]
  unfold toInt64
  norm_num
  split <;> omega

/-- The integer `Mix` decodes from the bytes `lo`, `hi` is `lo + 256 * int8(hi)`. -/
theorem decode16_eq (lo hi : UInt8) :
    orInt (lo.toNat : Int) (shlInt (toInt8 hi) 8) = (lo.toNat : Int) + toInt8 hi * 256 := by
  have hh := byte_lt hi
  have hl := byte_lt lo
  have b0 : -128 ≤ toInt8 hi := by unfold toInt8; split <;> omega
  have b1 : toInt8 hi ≤ 127 := by unfold toInt8; split <;> omega
  rw [shlInt_8 _ b0 b1, orInt_low_byte _ _ hl b0 b1]

/-- C19. For all bytes `lo`, `hi` the expression `int(lo) | int(int8(hi)) << 8` of `Mix`
is the two's-complement signed value of the 16-bit word `lo + 256 * hi`, a value in
`[-32768, 32767]`; the sample `Mix` decodes is the volume times that value divided by
32768, and before volume scaling it lies in `[-1, 1)`. -/
theorem C19_sample16_signed_word (lo hi : UInt8) :
    orInt (lo.toNat : Int) (shlInt (toInt8 hi) 8) =
        toInt16 ((lo.toNat + 256 * hi.toNat : Nat) : Int) ∧
      -32768 ≤ toInt16 ((lo.toNat + 256 * hi.toNat : Nat) : Int) ∧
      toInt16 ((lo.toNat + 256 * hi.toNat : Nat) : Int) ≤ 32767 ∧
      (∀ volume : ℚ, sample16 volume lo hi =
        volume * (toInt16 ((lo.toNat + 256 * hi.toNat : Nat) : Int) : ℚ) / 32768) ∧
      -1 ≤ sample16 1 lo hi ∧ sample16 1 lo hi < 1 := by
  have hh := byte_lt hi
  have hl := byte_lt lo
  have e : orInt (lo.toNat : Int) (shlInt (toInt8 hi) 8) =
      toInt16 ((lo.toNat + 256 * hi.toNat : Nat) : Int) := by
    rw [decode16_eq]
    unfold toInt8 toInt16
    split <;> omega
  have lb : -32768 ≤ toInt16 ((lo.toNat + 256 * hi.toNat : Nat) : Int) := by
    unfold toInt16; omega
  have ub : toInt16 ((lo.toNat + 256 * hi.toNat : Nat) : Int) ≤ 32767 := by
    unfold toInt16; omega
  have hs : ∀ volume : ℚ, sample16 volume lo hi =
      volume * (toInt16 ((lo.toNat + 256 * hi.toNat : Nat) : Int) : ℚ) / 32768 := by
    intro volume
    unfold sample16
    rw [e]
  have lbq : (-32768 : ℚ) ≤ (toInt16 ((lo.toNat + 256 * hi.toNat : Nat) : Int) : ℚ) := by
    exact_mod_cast lb
  have ubq : (toInt16 ((lo.toNat + 256 * hi.toNat : Nat) : Int) : ℚ) ≤ 32767 := by
    exact_mod_cast ub
  refine ⟨e, lb, ub, hs, ?_, ?_⟩
  · rw [hs 1, one_mul, le_div_iff₀ (by norm_num)]
    linarith
  · rw [hs 1, one_mul, div_lt_iff₀ (by norm_num)]
    linarith

/-! ## The normalizer: C16, C18 and C20 -/

/-- The two moving averages after `process`, and the sample it writes back: the
product of the multiplier and the difference of the averages, replaced by its sign
when its absolute value exceeds 1. -/
theorem process_sam (pow : ℚ → ℚ → ℚ) (n : NormalizerLR) (bai sam : ℚ) :
    (n.process pow bai sam).state.katayori =
        (n.katayori * (48000 / 110) + sam) / (48000 / 110 + 1) ∧
      (n.process pow bai sam).state.katayori2 =
        (n.katayori2 * (48000 / 112640) + sam) / (48000 / 112640 + 1) ∧
      (n.process pow bai sam).sam =
        if |((n.process pow bai sam).state.katayori2 -
            (n.process pow bai sam).state.katayori) * bai| > 1 then
          (if ((n.process pow bai sam).state.katayori2 -
              (n.process pow bai sam).state.katayori) * bai < 0 then -1 else 1)
        else ((n.process pow bai sam).state.katayori2 -
          (n.process pow bai sam).state.katayori) * bai := by
  refine ⟨?_, ?_, ?_⟩
  · simp only [NormalizerLR.process, audioFrequency]
    norm_num
    ring
  · simp only [NormalizerLR.process, audioFrequency]
    norm_num
    ring
  · simp only [NormalizerLR.process]

theorem process_sam_abs (pow : ℚ → ℚ → ℚ) (n : NormalizerLR) (bai sam : ℚ) :
    |(n.process pow bai sam).sam| ≤ 1 := by
  rw [(process_sam pow n bai sam).2.2]
  split
  · split <;> norm_num
  · rename_i h
    exact not_lt.mp h

theorem goInt_scaled_bounds (x : ℚ) (h : |x| ≤ 1) :
    -32767 ≤ goInt (32767 * x) ∧ goInt (32767 * x) ≤ 32767 := by
  obtain ⟨h0, h1⟩ := abs_le.mp h
  unfold goInt
  split
  · rename_i hp
    constructor
    · have : (0 : Int) ≤ ⌊32767 * x⌋ := Int.floor_nonneg.mpr hp
      omega
    · have h2 : ((⌊32767 * x⌋ : Int) : ℚ) ≤ 32767 * x := Int.floor_le _
      have h3 : ((⌊32767 * x⌋ : Int) : ℚ) ≤ ((32767 : Int) : ℚ) := by
        push_cast
        linarith
      exact_mod_cast h3
  · constructor
    · have h2 : 32767 * x ≤ ((⌈32767 * x⌉ : Int) : ℚ) := Int.le_ceil _
      have h3 : ((-32767 : Int) : ℚ) ≤ ((⌈32767 * x⌉ : Int) : ℚ) := by
        push_cast
        linarith
      exact_mod_cast h3
    · have : ⌈32767 * x⌉ ≤ (32767 : Int) := Int.ceil_le.mpr (by push_cast; linarith)
      exact this

theorem quantize16_bounds (x : ℚ) (h : |x| ≤ 1) :
    quantize16 x = goInt (32767 * x) ∧ -32767 ≤ quantize16 x ∧ quantize16 x ≤ 32767 := by
  obtain ⟨h0, h1⟩ := goInt_scaled_bounds x h
  have e : quantize16 x = goInt (32767 * x) := by
    unfold quantize16 toInt16
    omega
  rw [e]
  exact ⟨rfl, h0, h1⟩

theorem Process_abs (pow : ℚ → ℚ → ℚ) (sys : SysAudio) (n : Normalizer) (l r : ℚ) :
    |(n.Process pow sys l r).2.1| ≤ 1 ∧ |(n.Process pow sys l r).2.2| ≤ 1 :=
  ⟨process_sam_abs pow n.l n.mul l, process_sam_abs pow n.r n.mul r⟩

theorem fillSendBuf_bounds (pow : ℚ → ℚ → ℚ) (sys : SysAudio) :
    ∀ (k : Nat) (buf : List ℚ) (n : Normalizer), buf.length ≤ k →
      ∀ x ∈ (fillSendBuf pow sys n buf).2, -32767 ≤ x ∧ x ≤ 32767 := by
  intro k
  induction k using Nat.strong_induction_on with
  | _ k ih =>
    intro buf n hk x hx
    match buf, hk, hx with
    | [], _, hx => simp [fillSendBuf] at hx
    | [_], _, hx =>
      simp only [fillSendBuf, List.mem_singleton] at hx
      subst hx
      exact ⟨by decide, by decide⟩
    | l :: r :: rest, hk, hx =>
      simp only [fillSendBuf, List.mem_cons] at hx
      have hp := Process_abs pow sys n l r
      rcases hx with rfl | rfl | hx
      · exact (quantize16_bounds _ hp.1).2
      · exact (quantize16_bounds _ hp.2).2
      · simp only [List.length_cons] at hk
        exact ih (k - 2) (by omega) rest _ (by omega) x hx

/-- C16. For every normalizer state (master multiplier included), every setting of the
ducking switch and the volumes, and every pair of input samples, the samples
`Normalizer.Process` returns have absolute value at most 1; the integer part of
`32767 * out` then lies in `[-32767, 32767]`, so the conversion to `int16` in
`Mixer.write` leaves it unchanged, and every entry of the frame `Mixer.write` builds
lies in `[-32767, 32767]` whatever the accumulator holds. -/
theorem C16_Process_output_bounded (pow : ℚ → ℚ → ℚ) (sys : SysAudio) (n : Normalizer)
    (l r : ℚ) :
    (|(n.Process pow sys l r).2.1| ≤ 1 ∧ |(n.Process pow sys l r).2.2| ≤ 1) ∧
    (quantize16 (n.Process pow sys l r).2.1 = goInt (32767 * (n.Process pow sys l r).2.1) ∧
      -32767 ≤ quantize16 (n.Process pow sys l r).2.1 ∧
      quantize16 (n.Process pow sys l r).2.1 ≤ 32767) ∧
    (quantize16 (n.Process pow sys l r).2.2 = goInt (32767 * (n.Process pow sys l r).2.2) ∧
      -32767 ≤ quantize16 (n.Process pow sys l r).2.2 ∧
      quantize16 (n.Process pow sys l r).2.2 ≤ 32767) ∧
    (∀ (buf : List ℚ), ∀ x ∈ (fillSendBuf pow sys n buf).2, -32767 ≤ x ∧ x ≤ 32767) := by
  have hp := Process_abs pow sys n l r
  exact ⟨hp, quantize16_bounds _ hp.1, quantize16_bounds _ hp.2,
    fun buf x hx => fillSendBuf_bounds pow sys buf.length buf n (Nat.le_refl _) x hx⟩

/-- C18, counterexample. From the state of `NewNormalizer`, with multiplier 1 and input
sample 1/2, the average `katayori` (weight 48000/110, the longer time constant) becomes
11/9622 and the average `katayori2` (weight 48000/112640, the shorter one) becomes
88/251; the sample written back is 843975/2415122, positive, which is not
`(slowAvg - fastAvg) * currentGain = (11/9622 - 88/251) * 1`, a negative number. -/
theorem C18_counterexample :
    (NewNormalizer.l.process powNat 1 (1 / 2)).state.katayori = 11 / 9622 ∧
    (NewNormalizer.l.process powNat 1 (1 / 2)).state.katayori2 = 88 / 251 ∧
    (NewNormalizer.l.process powNat 1 (1 / 2)).sam = 843975 / 2415122 ∧
    (NewNormalizer.l.process powNat 1 (1 / 2)).sam ≠ (11 / 9622 - 88 / 251) * 1 := by
  obtain ⟨h1, h2, h3⟩ := process_sam powNat NewNormalizer.l 1 (1 / 2)
  have e1 : (NewNormalizer.l.process powNat 1 (1 / 2)).state.katayori = 11 / 9622 := by
    rw [h1]
    norm_num [NewNormalizer]
  have e2 : (NewNormalizer.l.process powNat 1 (1 / 2)).state.katayori2 = 88 / 251 := by
    rw [h2]
    norm_num [NewNormalizer]
  have e3 : (NewNormalizer.l.process powNat 1 (1 / 2)).sam = 843975 / 2415122 := by
    rw [h3, e1, e2]
    have hs : ((88 : ℚ) / 251 - 11 / 9622) * 1 = 843975 / 2415122 := by norm_num
    rw [hs, if_neg]
    rw [not_lt, abs_le]
    constructor <;> norm_num
  refine ⟨e1, e2, e3, ?_⟩
  rw [e3]
  norm_num

/-- C18, amended. In `NormalizerLR.process` the excess that is compared against 1
equals `(fastAvg - slowAvg) * currentGain`, where `fastAvg` is the moving average
`katayori2` (weight 48000/112640 on its previous value, the shorter time constant) and
`slowAvg` the moving average `katayori` (weight 48000/110, the longer one), both updated
with the current input sample before the subtraction; the excess is written back as the
output sample when its absolute value is at most 1, and its sign (1 or -1) otherwise. -/
theorem C18_excess_is_fast_minus_slow (pow : ℚ → ℚ → ℚ) (n : NormalizerLR) (bai sam : ℚ) :
    (n.process pow bai sam).state.katayori =
        (n.katayori * (48000 / 110) + sam) / (48000 / 110 + 1) ∧
      (n.process pow bai sam).state.katayori2 =
        (n.katayori2 * (48000 / 112640) + sam) / (48000 / 112640 + 1) ∧
      ((48000 : ℚ) / 112640 < 48000 / 110) ∧
      (n.process pow bai sam).sam =
        if |((n.process pow bai sam).state.katayori2 -
            (n.process pow bai sam).state.katayori) * bai| > 1 then
          (if ((n.process pow bai sam).state.katayori2 -
              (n.process pow bai sam).state.katayori) * bai < 0 then -1 else 1)
        else ((n.process pow bai sam).state.katayori2 -
          (n.process pow bai sam).state.katayori) * bai := by
  obtain ⟨h1, h2, h3⟩ := process_sam pow n bai sam
  exact ⟨h1, h2, by norm_num, h3⟩

theorem clamp_zero_or_one (x : ℚ) :
    (if x < 0 then (0 : ℚ) else if x > 0 then 1 else x) = 0 ∨
      (if x < 0 then (0 : ℚ) else if x > 0 then 1 else x) = 1 := by
  by_cases h1 : x < 0
  · left; rw [if_pos h1]
  · by_cases h2 : x > 0
    · right; rw [if_neg h1, if_pos h2]
    · left
      rw [if_neg h1, if_neg h2]
      exact le_antisymm (not_lt.mp h2) (not_lt.mp h1)

/-- C20. After every call of `NormalizerLR.process`, from any state and for any
multiplier and input sample, the field `heri` is exactly 0 or exactly 1: the final
clamp sends every negative value to 0 and every positive value to 1, and leaves 0. -/
theorem C20_heri_zero_or_one (pow : ℚ → ℚ → ℚ) (n : NormalizerLR) (bai sam : ℚ) :
    (n.process pow bai sam).state.heri = 0 ∨ (n.process pow bai sam).state.heri = 1 := by
  simp only [NormalizerLR.process]
  exact clamp_zero_or_one _

/-! ## C17: the handoff of `Mixer.write` -/

/-- While the channel is full `write` fails and changes nothing but what `prepare`
changes. -/
theorem write_full (pow : ℚ → ℚ → ℚ) (sys : SysAudio) (m : Mixer) (G : List Int)
    (h : m.out = some G) :
    m.write pow sys = (m.prepare pow sys, false) ∧ (m.prepare pow sys).out = some G ∧
      (m.prepare pow sys).buf = m.buf := by
  have ho : (m.prepare pow sys).out = some G := by
    unfold Mixer.prepare
    split <;> exact h
  have hb : (m.prepare pow sys).buf = m.buf := by
    unfold Mixer.prepare
    split <;> rfl
  refine ⟨?_, ho, hb⟩
  unfold Mixer.write
  simp only [ho]

/-- With a frame pending and the channel empty, `write` sends the pending frame,
whatever the accumulator holds, and clears the accumulator. -/
theorem write_pending (pow : ℚ → ℚ → ℚ) (sys : SysAudio) (m : Mixer) (F : List Int)
    (hs : m.sendBuf = some F) (ho : m.out = none) :
    m.write pow sys =
      ({ buf := bufClear m.buf, sendBuf := none, out := some F, normalizer := m.normalizer },
        true) := by
  have hp : m.prepare pow sys = m := by
    unfold Mixer.prepare
    rw [hs]
  unfold Mixer.write
  simp only [hp, ho, hs]

theorem prepare_sendBuf (pow : ℚ → ℚ → ℚ) (sys : SysAudio) (m : Mixer) :
    ∃ F, (m.prepare pow sys).sendBuf = some F ∧
      (m.sendBuf = none → F = (fillSendBuf pow sys m.normalizer m.buf).2) := by
  unfold Mixer.prepare
  cases h : m.sendBuf with
  | some F0 => exact ⟨F0, h, fun hc => by cases hc⟩
  | none => exact ⟨_, rfl, fun _ => rfl⟩

/-- With no frame pending and the channel full, `write` produces a frame from the
accumulator, keeps it in `sendBuf` and fails. -/
theorem write_full_fresh (pow : ℚ → ℚ → ℚ) (sys : SysAudio) (m : Mixer) (G : List Int)
    (hs : m.sendBuf = none) (ho : m.out = some G) :
    m.write pow sys =
      ({ buf := m.buf, sendBuf := some (fillSendBuf pow sys m.normalizer m.buf).2,
         out := some G, normalizer := (fillSendBuf pow sys m.normalizer m.buf).1 }, false) := by
  unfold Mixer.write Mixer.prepare
  simp only [hs, ho]

/-- The two moving averages of a channel are 0. -/
theorem process_zero (pow : ℚ → ℚ → ℚ) (n : NormalizerLR) (bai : ℚ)
    (h1 : n.katayori = 0) (h2 : n.katayori2 = 0) :
    (n.process pow bai 0).sam = 0 ∧ (n.process pow bai 0).state.katayori = 0 ∧
      (n.process pow bai 0).state.katayori2 = 0 := by
  obtain ⟨e1, e2, e3⟩ := process_sam pow n bai 0
  have k1 : (n.process pow bai 0).state.katayori = 0 := by
    rw [e1, h1]; norm_num
  have k2 : (n.process pow bai 0).state.katayori2 = 0 := by
    rw [e2, h2]; norm_num
  refine ⟨?_, k1, k2⟩
  rw [e3, k1, k2]
  norm_num

theorem quantize16_zero : quantize16 0 = 0 := by
  unfold quantize16
  have h0 : goInt (32767 * 0) = 0 := by
    unfold goInt
    norm_num
  rw [h0]
  decide

/-- On an accumulator of zeros, a normalizer whose moving averages are 0 produces a
frame of zeros and keeps its averages at 0; with ducking off its multiplier afterwards
is the static one. -/
theorem fillSendBuf_zeros (pow : ℚ → ℚ → ℚ) (sys : SysAudio) :
    ∀ (m : Nat) (n : Normalizer), n.l.katayori = 0 → n.l.katayori2 = 0 → n.r.katayori = 0 →
      n.r.katayori2 = 0 →
      (fillSendBuf pow sys n (List.replicate (2 * m) 0)).2 = List.replicate (2 * m) 0 ∧
      (fillSendBuf pow sys n (List.replicate (2 * m) 0)).1.l.katayori = 0 ∧
      (fillSendBuf pow sys n (List.replicate (2 * m) 0)).1.l.katayori2 = 0 ∧
      (fillSendBuf pow sys n (List.replicate (2 * m) 0)).1.r.katayori = 0 ∧
      (fillSendBuf pow sys n (List.replicate (2 * m) 0)).1.r.katayori2 = 0 ∧
      (0 < m → sys.AudioDucking = false →
        (fillSendBuf pow sys n (List.replicate (2 * m) 0)).1.mul =
          1 / 2 * ((sys.wavVolume : ℚ) * (sys.masterVolume : ℚ) * (1 / 10000))) := by
  intro m
  induction m with
  | zero =>
    intro n a b c d
    exact ⟨rfl, a, b, c, d, fun h => absurd h (Nat.lt_irrefl 0)⟩
  | succ m ih =>
    intro n a b c d
    have hr : List.replicate (2 * (m + 1)) (0 : ℚ) = 0 :: 0 :: List.replicate (2 * m) 0 := by
      rw [show 2 * (m + 1) = 2 * m + 1 + 1 by omega, List.replicate_succ, List.replicate_succ]
    obtain ⟨l1, l2, l3⟩ := process_zero pow n.l n.mul a b
    obtain ⟨r1, r2, r3⟩ := process_zero pow n.r n.mul c d
    have hP1 : (n.Process pow sys 0 0).2.1 = 0 := l1
    have hP2 : (n.Process pow sys 0 0).2.2 = 0 := r1
    obtain ⟨i1, i2, i3, i4, i5, i6⟩ := ih (n.Process pow sys 0 0).1 l2 l3 r2 r3
    rw [hr]
    simp only [fillSendBuf, hP1, hP2, quantize16_zero]
    refine ⟨?_, i2, i3, i4, i5, ?_⟩
    · rw [i1, show 2 * (m + 1) = 2 * m + 1 + 1 by omega, List.replicate_succ,
        List.replicate_succ]
    · intro _ hd
      by_cases hm : 0 < m
      · exact i6 hm hd
      · have hm0 : m = 0 := by omega
        subst hm0
        simp only [Nat.mul_zero, List.replicate_zero, fillSendBuf, Normalizer.Process, hd,
          Bool.false_eq_true, if_false]

theorem fillSendBuf_head (pow : ℚ → ℚ → ℚ) (sys : SysAudio) (n : Normalizer) (l r : ℚ)
    (rest : List ℚ) :
    (fillSendBuf pow sys n (l :: r :: rest)).2[0]? =
      some (quantize16 (n.l.process pow n.mul l).sam) := by
  simp only [fillSendBuf, List.getElem?_cons_zero]
  rfl

theorem quantize16_sample : quantize16 (843975 / 2415122) = 11450 := by
  unfold quantize16 goInt
  rw [if_pos (by norm_num)]
  have : ⌊(32767 : ℚ) * (843975 / 2415122)⌋ = 11450 := by
    rw [Int.floor_eq_iff]
    constructor <;> norm_num
  rw [this]
  decide

/-- With multiplier 1/2 and both moving averages of the left channel at 0, the frame
computed from an accumulator beginning 1, 0 begins with 11450. -/
theorem fresh_frame_head (pow : ℚ → ℚ → ℚ) (sys : SysAudio) (n : Normalizer) (rest : List ℚ)
    (hmul : n.mul = 1 / 2) (h1 : n.l.katayori = 0) (h2 : n.l.katayori2 = 0) :
    (fillSendBuf pow sys n (1 :: 0 :: rest)).2[0]? = some 11450 := by
  obtain ⟨e1, e2, e3⟩ := process_sam pow n.l (1 / 2) 1
  rw [h1] at e1
  rw [h2] at e2
  have k1 : (n.l.process pow (1 / 2) 1).sam = 843975 / 2415122 := by
    rw [e3, e1, e2]
    have hval : (((0 : ℚ) * (48000 / 112640) + 1) / (48000 / 112640 + 1) -
        ((0 : ℚ) * (48000 / 110) + 1) / (48000 / 110 + 1)) * (1 / 2) = 843975 / 2415122 := by
      norm_num
    rw [hval, if_neg]
    rw [not_lt, abs_le]
    constructor <;> norm_num
  rw [fillSendBuf_head, hmul, k1, quantize16_sample]

/-- C17, counterexample. A new mixer (ducking off, volumes 100) whose channel still
holds a frame: `write` returns false but keeps in `sendBuf` the frame it has just
produced from the cleared accumulator, a frame of zeros. After the consumer has emptied
the channel, the next `write` delivers exactly that frame, whatever the accumulator
holds at that later call; for an accumulator beginning 1, 0 a frame computed at the
later call would begin with 11450, not with 0. -/
theorem C17_counterexample :
    ∃ m1 : Mixer,
      Mixer.write powNat ⟨false, 100, 100⟩
        { newMixer with out := some (List.replicate 4096 7) } = (m1, false) ∧
      m1.sendBuf = some (List.replicate 4096 0) ∧
      (∀ later : List ℚ,
        Mixer.write powNat ⟨false, 100, 100⟩ { m1 with out := none, buf := later } =
          ({ buf := bufClear later, sendBuf := none, out := some (List.replicate 4096 0),
             normalizer := m1.normalizer }, true)) ∧
      (fillSendBuf powNat ⟨false, 100, 100⟩ m1.normalizer
        (1 :: 0 :: List.replicate 4094 0)).2[0]? = some 11450 := by
  obtain ⟨z1, z2, z3, -, -, z6⟩ := fillSendBuf_zeros powNat ⟨false, 100, 100⟩ 2048
    NewNormalizer rfl rfl rfl rfl
  have h4096 : List.replicate 4096 (0 : Int) = List.replicate (2 * 2048) 0 :=
    congrArg (fun k => List.replicate k (0 : Int)) (by norm_num)
  have hbuf : List.replicate (audioOutLen * 2) (0 : ℚ) = List.replicate (2 * 2048) 0 :=
    congrArg (fun k => List.replicate k (0 : ℚ)) (by decide)
  have hmul : (fillSendBuf powNat ⟨false, 100, 100⟩ NewNormalizer
      (List.replicate (2 * 2048) 0)).1.mul = 1 / 2 := by
    rw [z6 (by decide) rfl]
    norm_num
  generalize hN : (fillSendBuf powNat ⟨false, 100, 100⟩ NewNormalizer
    (List.replicate (2 * 2048) 0)).1 = N at z2 z3 hmul
  have hw : Mixer.write powNat ⟨false, 100, 100⟩
      { newMixer with out := some (List.replicate 4096 7) } =
      ({ buf := List.replicate (2 * 2048) 0, sendBuf := some (List.replicate 4096 0),
         out := some (List.replicate 4096 7), normalizer := N }, false) := by
    rw [write_full_fresh powNat ⟨false, 100, 100⟩ _ (List.replicate 4096 7) rfl rfl]
    simp only [newMixer, hbuf, z1, h4096, hN]
  exact ⟨⟨List.replicate (2 * 2048) 0, some (List.replicate 4096 0),
    some (List.replicate 4096 7), N⟩, hw, rfl,
    fun later => write_pending powNat ⟨false, 100, 100⟩ _ _ rfl rfl,
    fresh_frame_head powNat ⟨false, 100, 100⟩ N _ hmul z2 z3⟩

/-- C17, amended. When `Mixer.write` is called while the channel still holds a frame,
it returns false, leaves the channel and the accumulator as they are, and keeps a frame
pending in `sendBuf` (the frame it has just produced from the accumulator, if none was
pending before); the next call of `write` made when the channel is empty delivers that
pending frame, whatever the accumulator holds then, and clears the accumulator. -/
theorem C17_write_keeps_pending_frame (pow : ℚ → ℚ → ℚ) (sys : SysAudio) (m : Mixer)
    (G : List Int) (h : m.out = some G) :
    (m.write pow sys).2 = false ∧ (m.write pow sys).1.out = some G ∧
      (m.write pow sys).1.buf = m.buf ∧
      ∃ F, (m.write pow sys).1.sendBuf = some F ∧
        (m.sendBuf = none → F = (fillSendBuf pow sys m.normalizer m.buf).2) ∧
        ∀ later : List ℚ,
          Mixer.write pow sys { (m.write pow sys).1 with out := none, buf := later } =
            ({ buf := bufClear later, sendBuf := none, out := some F,
               normalizer := (m.write pow sys).1.normalizer }, true) := by
  obtain ⟨hw, ho, hb⟩ := write_full pow sys m G h
  obtain ⟨F, hF, hnew⟩ := prepare_sendBuf pow sys m
  rw [hw]
  refine ⟨rfl, ho, hb, F, hF, hnew, fun later => ?_⟩
  exact write_pending pow sys { m.prepare pow sys with out := none, buf := later } F hF rfl

/-- C17, amended, at a concrete input: a new mixer whose channel holds a frame. -/
theorem C17_write_keeps_pending_frame_witness :
    (Mixer.write powNat ⟨true, 100, 100⟩
        { newMixer with out := some (List.replicate 4096 0) }).2 = false ∧
    (Mixer.write powNat ⟨true, 100, 100⟩
        { newMixer with out := some (List.replicate 4096 0) }).1.out =
      some (List.replicate 4096 0) :=
  ⟨(C17_write_keeps_pending_frame powNat ⟨true, 100, 100⟩
      { newMixer with out := some (List.replicate 4096 0) } (List.replicate 4096 0) rfl).1,
   (C17_write_keeps_pending_frame powNat ⟨true, 100, 100⟩
      { newMixer with out := some (List.replicate 4096 0) } (List.replicate 4096 0) rfl).2.1⟩

/-! ## C11 and C14: looping -/

theorem goInt_zero : goInt 0 = 0 := by
  have := goInt_natCast 0
  simpa using this

theorem goInt_one : goInt 1 = 1 := by
  have := goInt_natCast 1
  simpa using this

theorem audio_rate_pos {rate : ℚ} (h : 0 < rate) : rate / (audioFrequency : ℚ) > 0 := by
  have h48 : (0 : ℚ) < (audioFrequency : ℚ) := by norm_num [audioFrequency]
  exact div_pos h h48

/-- On a source of one 8-bit mono sample played at the output rate with `loop = true`,
the mixing loop ends with the cursor at 1, from the cursor 0 as from the cursor 1. -/
theorem mixLoop_one_sample (b : UInt8) (volume : ℚ) :
    ∀ (n i : Nat) (buf : List ℚ) (fidx : ℚ), fidx = 0 ∨ fidx = 1 →
      ∃ buf1, mixLoop 1 true (fun k => k) (fun iidx => iidx ≥ (([b] : List UInt8).length : Int))
        (dec11 [b] volume) (n + 1) i buf fidx = some (buf1, 1) := by
  have hd : dec11 [b] volume 0 = some (sample8 volume b, sample8 volume b) := by
    simp [dec11, wavAt]
  intro n
  induction n with
  | zero =>
    intro i buf fidx h
    rcases h with rfl | rfl
    · refine ⟨addAt (addAt buf i (sample8 volume b)) (i + 1) (sample8 volume b), ?_⟩
      simp only [mixLoop, goInt_zero, List.length_singleton, Nat.cast_one, ge_iff_le,
        show ¬ ((1 : Int) ≤ 0) by decide, if_false, hd, zero_add]
    · refine ⟨addAt (addAt buf i (sample8 volume b)) (i + 1) (sample8 volume b), ?_⟩
      simp only [mixLoop, goInt_one, List.length_singleton, Nat.cast_one, ge_iff_le,
        le_refl, if_true, Bool.not_true, hd, zero_add]
      rfl
  | succ n ih =>
    intro i buf fidx h
    rcases h with rfl | rfl
    · obtain ⟨buf1, h1⟩ := ih (i + 2)
        (addAt (addAt buf i (sample8 volume b)) (i + 1) (sample8 volume b)) (0 + 1)
        (Or.inr (by norm_num))
      refine ⟨buf1, ?_⟩
      rw [mixLoop]
      simp only [goInt_zero, List.length_singleton, Nat.cast_one, ge_iff_le,
        show ¬ ((1 : Int) ≤ 0) by decide, if_false, hd]
      exact h1
    · obtain ⟨buf1, h1⟩ := ih (i + 2)
        (addAt (addAt buf i (sample8 volume b)) (i + 1) (sample8 volume b)) (0 + 1)
        (Or.inr (by norm_num))
      refine ⟨buf1, ?_⟩
      rw [mixLoop]
      simp only [goInt_one, List.length_singleton, Nat.cast_one, ge_iff_le,
        le_refl, if_true, Bool.not_true, hd]
      exact h1

/-- C11, the code at the failing input. A source of one 8-bit mono sample frame
(`L = 1`), cursor 0, source rate 48000, `loop = true`: `Mix` returns the cursor 1,
which is not below `L`; and `Sound.mix` then retires the looping voice. -/
theorem C11_Mix_returns_cursor_at_end :
    (∃ buf1, Mix (List.replicate 4096 0) [128] 0 1 1 48000 true 1 = some (buf1, 1)) ∧
    ∃ buf1, Sound.mix (List.replicate 4096 0) ⟨some ⟨48000, 1, 1, [128]⟩, 256, true, 1, 0⟩ =
      some (buf1, ⟨none, 256, true, 1, 0⟩) := by
  have hm : ∃ buf1, Mix (List.replicate 4096 0) [128] 0 1 1 48000 true 1 = some (buf1, 1) := by
    obtain ⟨buf1, h⟩ := mixLoop_one_sample 128 1 2047 0 (List.replicate 4096 0) 0 (Or.inl rfl)
    refine ⟨buf1, ?_⟩
    unfold Mix
    have ha : (48000 : ℚ) / (audioFrequency : ℚ) = 1 := by norm_num [audioFrequency]
    simp only [ha, gt_iff_lt, zero_lt_one, if_true, List.length_replicate]
    exact h
  refine ⟨hm, ?_⟩
  obtain ⟨buf1, h⟩ := hm
  refine ⟨buf1, ?_⟩
  unfold Sound.mix
  have e1 : ((48000 : Nat) : ℚ) * 1 = 48000 := by norm_num
  have e2 : ((256 : Int) : ℚ) / 256 = 1 := by norm_num
  simp only [e1, e2, Nat.cast_one, h]
  simp only [frameCount, goInt_one]
  rfl

/-- C14, the code at the failing input. With the empty buffer of the default asset,
cursor 0, a positive rate and `loop = true`, `Mix` resets the byte index to 0 and reads
`wav[0]`: the index is out of range and the call panics instead of returning a cursor;
so does `Sound.mix` on a looping voice that holds the default asset. -/
theorem C14_Mix_panics_on_empty_loop :
    Mix (List.replicate 4096 0) [] 0 1 1 11025 true 1 = none ∧
    Sound.mix (List.replicate 4096 0) ⟨some ⟨11025, 1, 1, []⟩, 256, true, 1, 0⟩ = none := by
  have hm : Mix (List.replicate 4096 0) [] 0 1 1 11025 true 1 = none := by
    unfold Mix
    have ha : (11025 : ℚ) / (audioFrequency : ℚ) > 0 := audio_rate_pos (by norm_num)
    simp only [ha, if_true, List.length_replicate]
    show mixLoop _ true (fun k => k) _ _ (2047 + 1) 0 _ 0 = none
    rw [mixLoop]
    simp [goInt_zero, dec11, wavAt]
  refine ⟨hm, ?_⟩
  unfold Sound.mix
  have e1 : ((11025 : Nat) : ℚ) * 1 = 11025 := by norm_num
  have e2 : ((256 : Int) : ℚ) / 256 = 1 := by norm_num
  simp only [e1, e2, Nat.cast_one, hm]

/-! ## The accumulator -/

theorem addAt_getElem? (buf : List ℚ) (i j : Nat) (x : ℚ) :
    (addAt buf i x)[j]? = if i = j then (buf[i]?).map (fun y => y + x) else buf[j]? := by
  unfold addAt
  rw [List.getElem?_set]
  by_cases hij : i = j
  · rw [if_pos hij, if_pos hij]
    by_cases hi : i < buf.length
    · rw [if_pos hi, List.getD_eq_getElem _ _ hi, List.getElem?_eq_getElem hi]
      rfl
    · rw [if_neg hi, List.getElem?_eq_none (by omega)]
      rfl
  · rw [if_neg hij, if_neg hij]

theorem addAt_zero (buf : List ℚ) (i : Nat) : addAt buf i 0 = buf := by
  apply List.ext_getElem?
  intro j
  rw [addAt_getElem?]
  split
  · rename_i h
    subst h
    cases buf[i]? with
    | none => rfl
    | some y => simp
  · rfl

/-! ## C12: silent sources -/

theorem wavAt_mem {wav : List UInt8} {i : Int} {b : UInt8} (h : wavAt wav i = some b) :
    b ∈ wav := by
  unfold wavAt at h
  split at h
  · cases h
  · exact List.getElem?_mem h

theorem sample8_silent (volume : ℚ) : sample8 volume 128 = 0 := by
  unfold sample8
  have : ((128 : UInt8).toNat : ℚ) = 128 := by norm_num
  rw [this]
  norm_num

theorem sample16_silent (volume : ℚ) : sample16 volume 0 0 = 0 := by
  unfold sample16
  have : orInt ((0 : UInt8).toNat : Int) (shlInt (toInt8 0) 8) = 0 := by decide
  rw [this]
  norm_num

/-- A mixing loop that only ever adds zeros returns the accumulator it was given, as
long as the cursor starts below a bound `T` up to which the byte index does not wrap. -/
theorem mixLoop_silent (fidxadd : ℚ) (loop : Bool) (idx : Int → Int) (past : Int → Prop)
    [DecidablePred past] (dec : Int → Option (ℚ × ℚ)) (len : Nat) (T : Int)
    (hadd : 0 ≤ fidxadd) (hT : (len : ℚ) + fidxadd ≤ (T : ℚ)) (hidx : indexOK idx past len T)
    (hdec : ∀ iidx, 0 ≤ iidx → ¬ past iidx → dec iidx = some (0, 0))
    (hloop : loop = true → dec 0 = some (0, 0) ∧ 1 ≤ len) :
    ∀ (n i : Nat) (buf : List ℚ) (fidx : ℚ), 0 ≤ fidx → fidx < (T : ℚ) →
      ∃ c, mixLoop fidxadd loop idx past dec n i buf fidx = some (buf, c) := by
  intro n
  induction n with
  | zero =>
    intro i buf fidx _ _
    exact ⟨fidx, rfl⟩
  | succ n ih =>
    intro i buf fidx h hlt
    obtain ⟨hk0, hkT⟩ := goInt_range h hlt
    obtain ⟨hi0, hin⟩ := hidx (goInt fidx) hk0 hkT
    by_cases hp : past (idx (goInt fidx))
    · cases hl : loop with
      | false =>
        refine ⟨fidx, ?_⟩
        simp only [mixLoop, hp, if_true, Bool.not_false]
      | true =>
        obtain ⟨hd, h1⟩ := hloop hl
        have hlen : (1 : ℚ) ≤ (len : ℚ) := by exact_mod_cast h1
        obtain ⟨c, hc⟩ := ih (i + 2) buf (0 + fidxadd) (by linarith) (by linarith)
        refine ⟨c, ?_⟩
        subst hl
        simp only [mixLoop, hp, if_true, Bool.not_true, hd, addAt_zero]
        simp only [Bool.false_eq_true, if_false]
        exact hc
    · obtain ⟨c, hc⟩ := ih (i + 2) buf (fidx + fidxadd) (by linarith)
        (cursor_step h (hin hp) hT)
      refine ⟨c, ?_⟩
      simp only [mixLoop, hp, if_false, hdec _ hi0 hp, addAt_zero]
      exact hc



theorem dec11_silent {wav : List UInt8} (volume : ℚ) (h : ∀ x ∈ wav, x = 128) (iidx : Int)
    (h0 : 0 ≤ iidx) (h1 : iidx < wav.length) : dec11 wav volume iidx = some (0, 0) := by
  obtain ⟨b, hb⟩ := wavAt_some wav iidx h0 h1
  have e := h b (wavAt_mem hb)
  subst e
  simp only [dec11, hb, sample8_silent]

theorem dec12_silent {wav : List UInt8} (volume : ℚ) (h : ∀ x ∈ wav, x = 128) (iidx : Int)
    (h0 : 0 ≤ iidx) (h1 : iidx + 1 < wav.length) : dec12 wav volume iidx = some (0, 0) := by
  obtain ⟨b, hb⟩ := wavAt_some wav iidx h0 (by omega)
  obtain ⟨b1, hb1⟩ := wavAt_some wav (iidx + 1) (by omega) h1
  have e := h b (wavAt_mem hb)
  have e1 := h b1 (wavAt_mem hb1)
  subst e e1
  simp only [dec12, hb, hb1, sample8_silent]

theorem dec21_silent {wav : List UInt8} (volume : ℚ) (h : ∀ x ∈ wav, x = 0) (iidx : Int)
    (h0 : 0 ≤ iidx) (h1 : iidx + 1 < wav.length) : dec21 wav volume iidx = some (0, 0) := by
  obtain ⟨b, hb⟩ := wavAt_some wav iidx h0 (by omega)
  obtain ⟨b1, hb1⟩ := wavAt_some wav (iidx + 1) (by omega) h1
  have e := h b (wavAt_mem hb)
  have e1 := h b1 (wavAt_mem hb1)
  subst e e1
  simp only [dec21, hb, hb1, sample16_silent]

theorem dec22_silent {wav : List UInt8} (volume : ℚ) (h : ∀ x ∈ wav, x = 0) (iidx : Int)
    (h0 : 0 ≤ iidx) (h1 : iidx + 3 < wav.length) : dec22 wav volume iidx = some (0, 0) := by
  obtain ⟨b, hb⟩ := wavAt_some wav iidx h0 (by omega)
  obtain ⟨b1, hb1⟩ := wavAt_some wav (iidx + 1) (by omega) (by omega)
  obtain ⟨b2, hb2⟩ := wavAt_some wav (iidx + 2) (by omega) (by omega)
  obtain ⟨b3, hb3⟩ := wavAt_some wav (iidx + 3) (by omega) h1
  have e := h b (wavAt_mem hb)
  have e1 := h b1 (wavAt_mem hb1)
  have e2 := h b2 (wavAt_mem hb2)
  have e3 := h b3 (wavAt_mem hb3)
  subst e e1 e2 e3
  simp only [dec22, hb, hb1, hb2, hb3, sample16_silent]

/-- One call of `Mix` on a silent source returns the accumulator it was given. -/
theorem Mix_silent (buf : List ℚ) (s : Source) (hs : supported s) (hsil : silent s)
    (hr : inRange s) (hl : s.loop = true → hasFrame s) :
    ∃ c, Mix buf s.wav s.fidx s.bytesPerSample s.channels s.sampleRate s.loop s.volume =
      some (buf, c) := by
  obtain ⟨hb, hc⟩ := hs
  obtain ⟨hf, hf2, hlen, hrate⟩ := hr
  have hT := len_add_rate_le hlen hrate
  have hfT : s.fidx < ((2 ^ 61 : Int) : ℚ) := by
    push_cast
    have : (2 : ℚ) ^ 60 ≤ 2 ^ 61 := by norm_num
    linarith
  unfold silent allBytes at hsil
  unfold hasFrame at hl
  unfold Mix
  simp only
  split
  · rename_i hpos
    have hadd : (0 : ℚ) ≤ s.sampleRate / (audioFrequency : ℚ) := le_of_lt hpos
    rcases hb with hb | hb <;> rcases hc with hc | hc <;> rw [hb, hc] at hl <;>
      rw [hb] at hsil <;> rw [hb, hc]
    · simp only [if_true]
      exact mixLoop_silent _ _ _ _ _ s.wav.length (2 ^ 61) hadd hT (indexOK_11 _ _)
        (fun iidx h0 hp => dec11_silent _ hsil iidx h0 (by omega))
        (fun h => ⟨dec11_silent _ hsil 0 (le_refl _) (by have := hl h; omega),
          by have := hl h; omega⟩) _ _ _ _ hf hfT
    · simp only [if_true, show ¬ ((2 : Int) = 1) by decide, if_false]
      exact mixLoop_silent _ _ _ _ _ s.wav.length (2 ^ 61) hadd hT (indexOK_2 _)
        (fun iidx h0 hp => dec12_silent _ hsil iidx h0 (by omega))
        (fun h => ⟨dec12_silent _ hsil 0 (le_refl _) (by have := hl h; omega),
          by have := hl h; omega⟩) _ _ _ _ hf hfT
    · simp only [if_true, show ¬ ((2 : Int) = 1) by decide, if_false] at hsil ⊢
      exact mixLoop_silent _ _ _ _ _ s.wav.length (2 ^ 61) hadd hT (indexOK_2 _)
        (fun iidx h0 hp => dec21_silent _ hsil iidx h0 (by omega))
        (fun h => ⟨dec21_silent _ hsil 0 (le_refl _) (by have := hl h; omega),
          by have := hl h; omega⟩) _ _ _ _ hf hfT
    · simp only [if_true, show ¬ ((2 : Int) = 1) by decide, if_false] at hsil ⊢
      exact mixLoop_silent _ _ _ _ _ s.wav.length (2 ^ 61) hadd hT (indexOK_4 _)
        (fun iidx h0 hp => dec22_silent _ hsil iidx h0 (by omega))
        (fun h => ⟨dec22_silent _ hsil 0 (le_refl _) (by have := hl h; omega),
          by have := hl h; omega⟩) _ _ _ _ hf hfT
  · exact ⟨_, rfl⟩

theorem mixAll_silent :
    ∀ (sources : List Source) (buf : List ℚ),
      (∀ s ∈ sources, supported s ∧ silent s ∧ inRange s ∧ (s.loop = true → hasFrame s)) →
      mixAll buf sources = some buf := by
  intro sources
  induction sources with
  | nil => intro buf _; rfl
  | cons s rest ih =>
    intro buf h
    obtain ⟨h1, h2, h3, h4⟩ := h s (List.mem_cons_self _ _)
    obtain ⟨c, hc⟩ := Mix_silent buf s h1 h2 h3 h4
    simp only [mixAll, hc]
    exact ih buf (fun x hx => h x (List.mem_cons_of_mem _ hx))



theorem bufClear_zero (buf : List ℚ) : ∀ x ∈ bufClear buf, x = 0 := by
  intro x hx
  unfold bufClear at hx
  obtain ⟨_, _, h⟩ := List.mem_map.mp hx
  exact h.symm

/-- C12, counterexample. An 8-bit mono source that consists of one zero byte, mixed at
unit volume into a cleared accumulator, puts -1 into slot 0: in the 8-bit formats the
byte 0 is the most negative sample, not silence. -/
theorem C12_counterexample :
    allBytes 0 zeroByteSource ∧ supported zeroByteSource ∧
    ∃ buf1 : List ℚ, mixAll (bufClear (List.replicate 4096 0)) [zeroByteSource] = some buf1 ∧
      buf1[0]? = some (-1 : ℚ) := by
  refine ⟨?_, ⟨Or.inl rfl, Or.inl rfl⟩, ?_⟩
  · intro x hx
    simpa [zeroByteSource] using hx
  · have hbuf : bufClear (List.replicate 4096 0) = List.replicate 4096 0 := by
      unfold bufClear
      rw [List.map_replicate]
    have hs : sample8 1 0 = -1 := by
      unfold sample8
      have : ((0 : UInt8).toNat : ℚ) = 0 := by norm_num
      rw [this]
      norm_num
    have hd : dec11 [0] 1 0 = some (-1, -1) := by
      simp [dec11, wavAt, hs]
    have ha : (48000 : ℚ) / (audioFrequency : ℚ) = 1 := by norm_num [audioFrequency]
    have hm : Mix (List.replicate 4096 0) [0] 0 1 1 48000 false 1 =
        some (addAt (addAt (List.replicate 4096 0) 0 (-1)) 1 (-1), 0 + 1) := by
      unfold Mix
      simp only [ha, gt_iff_lt, zero_lt_one, if_true, List.length_replicate]
      show mixLoop 1 false (fun k => k) _ _ (2046 + 1 + 1) 0 _ 0 = _
      rw [mixLoop]
      simp only [goInt_zero, List.length_singleton, Nat.cast_one, ge_iff_le,
        show ¬ ((1 : Int) ≤ 0) by decide, if_false, hd]
      rw [mixLoop]
      have h1 : goInt (0 + 1) = 1 := by
        rw [zero_add]; exact goInt_one
      simp only [h1, le_refl, if_true, Bool.not_false]
    refine ⟨addAt (addAt (List.replicate 4096 0) 0 (-1)) 1 (-1), ?_, ?_⟩
    · rw [hbuf]
      simp only [mixAll, zeroByteSource, hm]
    · rw [addAt_getElem?, if_neg (by decide), addAt_getElem?, if_pos rfl,
        List.getElem?_replicate, if_pos (by decide)]
      norm_num

/-- C12, amended. For every list of silent sources in supported formats -- a 16-bit
source that consists only of zero bytes, an 8-bit source that consists only of the
byte 128 -- with any volume, with a cursor in `[0, 2 ^ 60)`, a buffer shorter than
`2 ^ 60` bytes and a rate below `2 ^ 60` (so that no byte index wraps), and with at
least one whole sample frame when the loop flag is set, mixing all of them with `Mix`
into a cleared accumulator returns normally and leaves every accumulator slot equal
to 0. -/
theorem C12_silent_sources_leave_zero (sources : List Source) (buf : List ℚ)
    (h : ∀ s ∈ sources, supported s ∧ silent s ∧ inRange s ∧ (s.loop = true → hasFrame s)) :
    ∃ buf1, mixAll (bufClear buf) sources = some buf1 ∧ buf1.length = buf.length ∧
      ∀ x ∈ buf1, x = 0 :=
  ⟨bufClear buf, mixAll_silent sources (bufClear buf) h, by simp [bufClear],
    bufClear_zero buf⟩

/-- C12, amended, at a concrete input: a looping 16-bit stereo source of eight zero
bytes and a non-looping 8-bit mono source of three bytes 128. -/
theorem C12_silent_sources_leave_zero_witness :
    ∃ buf1, mixAll (bufClear (List.replicate 4096 (1 / 2)))
        [⟨[0, 0, 0, 0, 0, 0, 0, 0], 0, 2, 2, 44100, true, 2⟩,
         ⟨[128, 128, 128], 0, 1, 1, 11025, false, 1⟩] = some buf1 ∧
      buf1.length = (List.replicate 4096 ((1 : ℚ) / 2)).length ∧ ∀ x ∈ buf1, x = 0 :=
  C12_silent_sources_leave_zero _ _ (by
    intro s hs
    simp only [List.mem_cons, List.mem_singleton, List.not_mem_nil, or_false] at hs
    rcases hs with rfl | rfl
    · refine ⟨⟨Or.inr rfl, Or.inr rfl⟩, ?_, ?_, fun _ => ?_⟩
      · intro x hx
        simp only [show ¬ ((2 : Int) = 1) by decide, if_false]
        simp only [List.mem_cons, List.mem_singleton, List.not_mem_nil, or_false, or_self] at hx
        exact hx
      · exact ⟨le_refl _, by norm_num, by decide, by norm_num⟩
      · show (2 : Int) * 2 ≤ ((8 : Nat) : Int)
        decide
    · refine ⟨⟨Or.inl rfl, Or.inl rfl⟩, ?_, ?_, fun hc => ?_⟩
      · intro x hx
        simp only [if_true]
        simp only [List.mem_cons, List.mem_singleton, List.not_mem_nil, or_false, or_self] at hx
        exact hx
      · exact ⟨le_refl _, by norm_num, by decide, by norm_num⟩
      · cases hc)

/-! ## C13: nearest-neighbour resampling -/

/-- An asset returned by `ReadWave` has one or two channels and one or two bytes per
sample. -/
theorem ReadWave_format {f : File} {ofs : Int} {w : Wave} (h : ReadWave f ofs = .ok (some w)) :
    (w.Channels = 1 ∨ w.Channels = 2) ∧ (w.BytesPerSample = 1 ∨ w.BytesPerSample = 2) := by
  unfold ReadWave at h
  split at h
  · cases h
  split at h
  · cases h
  split at h
  · cases h
  split at h
  · cases h
  split at h
  · injection h with h
    injection h with h
    subst h
    exact ⟨Or.inl rfl, Or.inl rfl⟩
  · simp only at h
    split at h
    · cases h
    rename_i s hs
    have hinv : fmtSeen s := scanChunks_fmtSeen _ _ _ s (fun hc => absurd rfl hc) hs
    split at h
    · split at h <;> cases h
    · rename_i hz
      injection h with h
      injection h with h
      subst h
      exact hinv hz

theorem chunkBody_rate {s s1 : ScanState} (h : chunkBody s = .ok s1)
    (hs : s.w.SamplesPerSec < 0xfffff) : s1.w.SamplesPerSec < 0xfffff := by
  unfold chunkBody at h
  split at h
  · cases h
  rename_i buf g1 h1
  split at h
  · cases h
  rename_i size g2 h2
  simp only at h
  split at h
  · cases h
  rename_i s2 hr
  injection h with h
  subst h
  simp only
  split at hr
  · split at hr
    · cases hr
    rename_i w1 f3 hf
    obtain ⟨hv, hw, _⟩ := readFmt_ok hf
    injection hr with hr
    subst hr hw
    exact hv.2.2.1.2
  · split at hr
    · split at hr
      · cases hr
      rename_i w1 f3 hd
      unfold readData at hd
      split at hd
      · cases hd
      injection hd with hd
      injection hd with hw hf
      injection hr with hr
      subst hr hw
      exact hs
    · injection hr with hr
      subst hr
      exact hs

theorem scanChunks_rate (riffend : Int) :
    ∀ (n : Nat) (s t : ScanState), s.w.SamplesPerSec < 0xfffff →
      scanChunks riffend n s = .ok t → t.w.SamplesPerSec < 0xfffff := by
  intro n
  induction n with
  | zero =>
    intro s t hs h
    injection h with h
    exact h ▸ hs
  | succ n ih =>
    intro s t hs h
    by_cases hg : scanGuard riffend s
    · cases hb : chunkBody s with
      | error e => rw [scanChunks_succ_error riffend n hg hb] at h; cases h
      | ok s1 =>
        rw [scanChunks_succ_ok riffend n hg hb] at h
        exact ih s1 t (chunkBody_rate hb hs) h
    · rw [scanChunks_done riffend _ s hg] at h
      injection h with h
      exact h ▸ hs

/-- An asset returned by `ReadWave` has a sample rate below `0xfffff` and a buffer of
fewer than `2 ^ 32` bytes. -/
theorem ReadWave_bounds {f : File} {ofs : Int} {w : Wave} (h : ReadWave f ofs = .ok (some w)) :
    w.SamplesPerSec < 0xfffff ∧ w.Wav.length < 2 ^ 32 := by
  unfold ReadWave at h
  split at h
  · cases h
  split at h
  · cases h
  split at h
  · cases h
  split at h
  · cases h
  rename_i buf2 f3 h3
  split at h
  · injection h with h
    injection h with h
    subst h
    exact ⟨by decide, by simp⟩
  · simp only at h
    split at h
    · cases h
    rename_i s hs
    have hinit : wavCopied ⟨f3, ofs + 28, 0, 0, Wave.zero⟩ :=
      ⟨rfl, by norm_num, List.nil_infix⟩
    have hinv := scanChunks_wavCopied _ _ _ s hinit hs
    have hrate := scanChunks_rate _ _ _ s
      (show Wave.zero.SamplesPerSec < 0xfffff by decide) hs
    split at h
    · split at h <;> cases h
    · injection h with h
      injection h with h
      subst h
      obtain ⟨a, b, _⟩ := hinv
      exact ⟨hrate, a ▸ b⟩

theorem GetChannel_some :
    ∀ (p : Sounds) (i : Nat), GetChannel p = some i → ∃ x, p[i]? = some x ∧ x.sound = none := by
  intro p
  induction p with
  | nil => intro i h; cases h
  | cons a p ih =>
    intro i h
    by_cases ha : a.sound = none
    · simp only [GetChannel, ha, if_true, Option.some.injEq] at h
      subst h
      exact ⟨a, List.getElem?_cons_zero, ha⟩
    · simp only [GetChannel, ha, if_false] at h
      cases hg : GetChannel p with
      | none => rw [hg] at h; cases h
      | some k =>
        rw [hg] at h
        simp only [Option.map_some', Option.some.injEq] at h
        subst h
        obtain ⟨x, hx, hxs⟩ := ih k hg
        exact ⟨x, by rw [List.getElem?_cons_succ]; exact hx, hxs⟩

theorem modifyAt_forall (P : Sound → Prop) (f : Sound → Sound) :
    ∀ (i : Nat) (p : Sounds), (∀ x ∈ p, P x) → (∀ x, p[i]? = some x → P (f x)) →
      ∀ y ∈ modifyAt f i p, P y := by
  intro i p
  induction p generalizing i with
  | nil => intro _ _ y hy; simp [modifyAt] at hy
  | cons a p ih =>
    intro hall hi y hy
    cases i with
    | zero =>
      simp only [modifyAt, List.mem_cons] at hy
      rcases hy with rfl | hy
      · exact hi a List.getElem?_cons_zero
      · exact hall y (List.mem_cons_of_mem _ hy)
    | succ i =>
      simp only [modifyAt, List.mem_cons] at hy
      rcases hy with rfl | hy
      · exact hall _ (List.mem_cons_self _ _)
      · exact ih i (fun x hx => hall x (List.mem_cons_of_mem _ hx))
          (fun x hx => hi x (by rw [List.getElem?_cons_succ]; exact hx)) y hy

theorem voiceOK_SetVolume (x : Sound) (vol : Int) (h : voiceOK x) : voiceOK (x.SetVolume vol) := by
  unfold Sound.SetVolume
  split
  · exact h
  · split <;> exact h

theorem frameCount_le (w : Wave) : frameCount w ≤ w.Wav.length := by
  unfold frameCount
  exact Nat.div_le_self _ _

/-- On a voice of a reachable pool `Sound.mix` returns normally and keeps the voice in
such a state. -/
theorem voiceOK_mix (buf : List ℚ) (x : Sound) (h : voiceOK x) :
    ∃ buf1 x1, Sound.mix buf x = some (buf1, x1) ∧ voiceOK x1 := by
  obtain ⟨hl, hq, hnone, hsome⟩ := h
  cases hs : x.sound with
  | none =>
    refine ⟨buf, x, ?_, hl, hq, hnone, hsome⟩
    unfold Sound.mix
    rw [hs]
  | some w =>
    obtain ⟨hc, hb, hrate, hlen, hf, hpos⟩ := hsome w hs
    have hlen60 : w.Wav.length < 2 ^ 60 := by omega
    have hrate60 : (w.SamplesPerSec : ℚ) * x.freqmul < 2 ^ 60 := by
      rw [hq, mul_one]
      have : ((w.SamplesPerSec : Nat) : ℚ) < ((0xfffff : Nat) : ℚ) := by exact_mod_cast hrate
      have h2 : ((0xfffff : Nat) : ℚ) ≤ 2 ^ 60 := by norm_num
      linarith
    have hf60 : x.fidx < 2 ^ 60 := by
      rcases hpos with hp | ⟨hp, _⟩
      · have h1 : (frameCount w : ℚ) ≤ (w.Wav.length : ℚ) := by
          exact_mod_cast frameCount_le w
        have h2 : ((w.Wav.length : Nat) : ℚ) < ((2 ^ 32 : Nat) : ℚ) := by exact_mod_cast hlen
        have h3 : ((2 ^ 32 : Nat) : ℚ) ≤ 2 ^ 60 := by norm_num
        linarith
      · rw [hp]
        norm_num
    obtain ⟨buf1, fidx1, hm, h1⟩ := Mix_noloop buf w.Wav x.fidx w.BytesPerSample w.Channels
      ((w.SamplesPerSec : ℚ) * x.freqmul) ((x.volume : ℚ) / 256) hb hc hf hf60 hlen60 hrate60
    by_cases hge : (frameCount w : ℚ) ≤ fidx1
    · refine ⟨buf1, { x with sound := none, fidx := 0 }, ?_, hl, hq, fun _ => rfl, ?_⟩
      · unfold Sound.mix
        rw [hs]
        simp only
        rw [hl, hm]
        simp only [frame_bytes_pos hc hb, if_false, ge_iff_le, le_goInt_iff h1, hge, if_true]
      · intro w1 hw1
        cases hw1
    · refine ⟨buf1, { x with fidx := fidx1 }, ?_, hl, hq, ?_, ?_⟩
      · unfold Sound.mix
        rw [hs]
        simp only
        rw [hl, hm]
        simp only [frame_bytes_pos hc hb, if_false, ge_iff_le, le_goInt_iff h1, hge]
      · intro hc1
        rw [hs] at hc1
        cases hc1
      · intro w1 hw1
        have hw : w1 = w := by
          have : x.sound = some w1 := hw1
          rw [hs] at this
          exact (Option.some.inj this).symm
        subst hw
        exact ⟨hc, hb, hrate, hlen, h1, Or.inl (not_le.mp hge)⟩

theorem voiceOK_mixSounds :
    ∀ (p : Sounds) (buf : List ℚ), (∀ x ∈ p, voiceOK x) →
      ∃ buf1 p1, mixSounds buf p = some (buf1, p1) ∧ ∀ x ∈ p1, voiceOK x := by
  intro p
  induction p with
  | nil =>
    intro buf _
    exact ⟨buf, [], rfl, fun x hx => by cases hx⟩
  | cons a p ih =>
    intro buf h
    obtain ⟨b1, a1, hm, ha1⟩ := voiceOK_mix buf a (h a (List.mem_cons_self _ _))
    obtain ⟨b2, p1, hms, hp1⟩ := ih b1 (fun x hx => h x (List.mem_cons_of_mem _ hx))
    refine ⟨b2, a1 :: p1, ?_, ?_⟩
    · simp only [mixSounds, hm, hms]
    · intro x hx
      rcases List.mem_cons.mp hx with rfl | hx
      · exact ha1
      · exact hp1 x hx

theorem Snd_Get_some {s : Snd} {gn : Key} {w : Wave} (h : s.Get gn = some w) :
    s.table.find gn = some (some w) := by
  unfold Snd.Get at h
  split at h
  · rename_i v hv
    rw [hv, h]
  · cases h

theorem voiceOK_play (s : Snd) (gn : Key) (p : Sounds) (hs : AssetsFromReadWave s)
    (h : ∀ x ∈ p, voiceOK x) : ∀ y ∈ (s.play p gn).1, voiceOK y := by
  unfold Snd.play
  cases hg : GetChannel p with
  | none => exact h
  | some i =>
    simp only
    obtain ⟨x0, hx0, hx0s⟩ := GetChannel_some p i hg
    apply modifyAt_forall voiceOK _ i p h
    intro x hx
    have hxe : x = x0 := by
      rw [hx0] at hx
      exact (Option.some.inj hx).symm
    subst hxe
    have hxin : x ∈ p := List.getElem?_mem hx0
    obtain ⟨hl, hq, hnone, _⟩ := h x hxin
    have hz : x.fidx = 0 := hnone hx0s
    refine ⟨hl, hq, fun _ => hz, ?_⟩
    intro w hw
    have hw1 : s.Get gn = some w := hw
    obtain ⟨f, ofs, hr⟩ := hs gn w (Snd_Get_some hw1)
    obtain ⟨hc, hb⟩ := ReadWave_format hr
    obtain ⟨hrate, hlen⟩ := ReadWave_bounds hr
    refine ⟨hc, hb, hrate, hlen, ?_, ?_⟩
    · show (0 : ℚ) ≤ x.fidx
      rw [hz]
    · show x.fidx < (frameCount w : ℚ) ∨ (x.fidx = 0 ∧ frameCount w = 0)
      rw [hz]
      by_cases hfc : frameCount w = 0
      · exact Or.inr ⟨rfl, hfc⟩
      · left
        exact_mod_cast Nat.pos_of_ne_zero hfc

theorem PoolReachable_voiceOK (p : Sounds) (h : PoolReachable p) : ∀ x ∈ p, voiceOK x := by
  induction h with
  | init size =>
    intro x hx
    have := List.eq_of_mem_replicate hx
    subst this
    exact ⟨rfl, rfl, fun _ => rfl, fun w hw => by cases hw⟩
  | play s gn hs _ ih => exact voiceOK_play s gn _ hs ih
  | setVolume i vol _ ih =>
    exact modifyAt_forall voiceOK _ i _ ih (fun x hx => voiceOK_SetVolume x vol
      (ih x (List.getElem?_mem hx)))
  | mix buf buf1 _ hm ih =>
    obtain ⟨b1, p1, hm1, hp1⟩ := voiceOK_mixSounds _ buf ih
    rw [hm1] at hm
    have : p1 = _ := (Prod.mk.inj (Option.some.inj hm)).2
    rw [← this]
    exact hp1



theorem assets_single (k0 : Key) (w0 : Wave) (ver ver2 : Nat) (f : File) (ofs : Int)
    (h : ReadWave f ofs = .ok (some w0)) : AssetsFromReadWave ⟨[(k0, some w0)], ver, ver2⟩ := by
  intro k w hk
  simp only [Table.find] at hk
  split at hk
  · have : w0 = w := Option.some.inj (Option.some.inj hk)
    rw [← this]
    exact ⟨f, ofs, h⟩
  · cases hk

theorem ReadWave_noWaveTag : ReadWave noWaveTagFile 0 = .ok (some defaultWave) := by
  decide

theorem play_default_pool :
    (Snd.play ⟨[((0, 0), some defaultWave)], 1, 0⟩ (newSounds 1) (0, 0)).1 =
      [⟨some defaultWave, 256, false, 1, 0⟩] := by
  simp [Snd.play, GetChannel, newSounds, modifyAt, Snd.Get, Table.find]

/-- C15, counterexample. Playing the default asset (which `ReadWave` returns for a
container without the WAVE tag, and whose buffer is empty) on a new pool gives a
reachable state in which the voice holds an asset and its cursor 0 is not below the
frame count, which is 0 as well. -/
theorem C15_counterexample :
    PoolReachable [⟨some defaultWave, 256, false, 1, 0⟩] ∧
    ∃ x ∈ ([⟨some defaultWave, 256, false, 1, 0⟩] : Sounds), ∃ w, x.sound = some w ∧
      ¬ (0 ≤ x.fidx ∧ x.fidx < (frameCount w : ℚ)) := by
  constructor
  · rw [← play_default_pool]
    exact PoolReachable.play _ _ (assets_single _ _ _ _ _ 0 ReadWave_noWaveTag)
      (PoolReachable.init 1)
  · refine ⟨_, List.mem_singleton.mpr rfl, defaultWave, rfl, ?_⟩
    intro h
    have hfc : frameCount defaultWave = 0 := by decide
    rw [hfc] at h
    exact absurd h.2 (by norm_num)

/-- C15, amended. In every pool state reachable from `newSounds` by `Snd.play` (with
assets produced by `ReadWave`), `SetVolume` and `mixSounds`: a voice that holds no
asset has cursor 0; a voice that holds an asset has a cursor that is not negative and
lies below the frame count `len(Wav) / (Channels * BytesPerSample)`, or stands at 0 on
an asset without a whole sample frame (frame count 0); and `mixSounds` returns
normally. -/
theorem C15_cursor_in_range (p : Sounds) (h : PoolReachable p) :
    (∀ x ∈ p, (x.sound = none → x.fidx = 0) ∧
      ∀ w, x.sound = some w →
        0 ≤ x.fidx ∧ (x.fidx < (frameCount w : ℚ) ∨ (x.fidx = 0 ∧ frameCount w = 0))) ∧
    ∀ buf : List ℚ, ∃ buf1 p1, mixSounds buf p = some (buf1, p1) := by
  have hok := PoolReachable_voiceOK p h
  constructor
  · intro x hx
    obtain ⟨_, _, hnone, hsome⟩ := hok x hx
    exact ⟨hnone, fun w hw => (hsome w hw).2.2.2.2⟩
  · intro buf
    obtain ⟨b1, p1, hm, _⟩ := voiceOK_mixSounds p buf hok
    exact ⟨b1, p1, hm⟩

/-- C15, amended, at a concrete state: the pool of two voices after the asset of
`twinArchive` has been played and the volume of the second voice set. -/
theorem C15_cursor_in_range_witness :
    (∀ x ∈ modifyAt (fun c => c.SetVolume 300) 1
        (Snd.play ⟨[((1, 2), some ⟨11025, 1, 1, [1, 2, 3, 4]⟩)], 1, 0⟩ (newSounds 2) (1, 2)).1,
      (x.sound = none → x.fidx = 0) ∧
      ∀ w, x.sound = some w →
        0 ≤ x.fidx ∧ (x.fidx < (frameCount w : ℚ) ∨ (x.fidx = 0 ∧ frameCount w = 0))) ∧
    ∀ buf : List ℚ, ∃ buf1 p1, mixSounds buf (modifyAt (fun c => c.SetVolume 300) 1
        (Snd.play ⟨[((1, 2), some ⟨11025, 1, 1, [1, 2, 3, 4]⟩)], 1, 0⟩ (newSounds 2) (1, 2)).1) =
      some (buf1, p1) :=
  C15_cursor_in_range _ (PoolReachable.setVolume 1 300
    (PoolReachable.play _ _
      (assets_single (1, 2) ⟨11025, 1, 1, [1, 2, 3, 4]⟩ 1 0 ⟨twinArchive, 24 + 16⟩ 24 (by decide))
      (PoolReachable.init 2)))

end Ikemen
